import Mathlib

/-!
Verification of the hash-array-mapped-trie persistent map
(`src/map/hash_trie_map/mod.rs`).

The embedding is a shallow, purely functional translation of the source:

* `&mut self` methods become state-passing functions returning the updated
  value (together with the source's return value, when it has one).
* `SharedPointer` (the reference-counted ownership collaborator) is an
  owning indirection whose `clone` is value-identity and whose `make_mut`
  is direct access, so it is transparent in the embedding: a
  `SharedPointer<T>` is just a `T`.
* Machine integers become `Nat`.  The 64-bit hash width shows up as the
  literal `64` exactly where the source uses `8 * size_of_val(&hash)`.
  The `depth as u32` cast in `index_from_hash` is the identity for every
  depth the data structure can reach (the trie height is at most 64 for
  the degrees with at least one hash bit per level), so depths are plain
  `Nat`s.
* Panics (`assert!`, `expect`, division by zero, `unreachable!`) are
  modelled by `Option` results where a claim depends on them, and by
  arbitrary-but-documented values on branches that are unreachable for
  well-formed trees.

Collaborators whose sources are outside `src/` (the sparse array, the
collision list, `Entry`, the hash provider) are modelled from the spec's
collaborator contracts, as indicated by their doc comments.
-/

set_option autoImplicit false

namespace Rpds

/-! ## Small integer utilities (u8 semantics of `trailing_zeros` / `count_ones`) -/

/-- Counts trailing zero bits of a `u8` value, examining at most `fuel` bits.
`trailingZerosAux 8 n` agrees with Rust's `u8::trailing_zeros` for `n < 256`
(in particular `0` has 8 trailing zeros). -/
def trailingZerosAux : Nat → Nat → Nat
  | 0, _ => 0
  | fuel + 1, n => if n % 2 = 1 then 0 else 1 + trailingZerosAux fuel (n / 2)

/-- Rust `u8::trailing_zeros` (the `degree` of a map is a `u8`). -/
def u8TrailingZeros (n : Nat) : Nat := trailingZerosAux 8 n

/-- Counts one bits of a `u8` value, examining at most `fuel` bits. -/
def countOnesAux : Nat → Nat → Nat
  | 0, _ => 0
  | fuel + 1, n => n % 2 + countOnesAux fuel (n / 2)

/-- Rust `u8::count_ones` for values below 256. -/
def u8CountOnes (n : Nat) : Nat := countOnesAux 8 n

/-- Rust `u8::is_power_of_two`, i.e. exactly one bit set. -/
def is_power_of_two (n : Nat) : Bool := u8CountOnes n == 1

/-- `DEFAULT_DEGREE = 8 * size_of::<usize>()`, on the 64-bit platforms the
spec assumes (hash width 64). -/
def DEFAULT_DEGREE : Nat := 64

/-! ## Data model -/

/-- Modelled from the spec: an `Entry` is an immutable (key, value) pair and
`EntryWithHash` adds the key's cached 64-bit hash, computed once at insertion.
The `SharedPointer<Entry<K, V>>` indirection is transparent here, so the three
fields are flattened into one structure. -/
structure EntryWithHash (K V : Type) where
  key : K
  value : V
  keyHash : Nat
  deriving DecidableEq, Repr

/-- `Bucket`: the leaf payload, either a single entry or a collision list.
The collision list collaborator (`ListSync`) is modelled from the spec as a
Lean `List` (`push_front` = `cons`, `drop_first` = `tail`, `first` = `head?`,
front-to-back iteration = list order). -/
inductive Bucket (K V : Type) where
  | Single (e : EntryWithHash K V)
  | Collision (es : List (EntryWithHash K V))
  deriving DecidableEq, Repr

mutual
/-- `Node`: a branch holding a sparse array of children, or a leaf holding a
bucket. -/
inductive Node (K V : Type) where
  | Branch (subtrees : SparseArrayUsize K V)
  | Leaf (bucket : Bucket K V)
/-- Modelled from the spec: the sparse indexed container collaborator
(`SparseArrayUsize<SharedPointer<Node>>`) maps a small dense integer domain
to child nodes, storing only present indices, with forward iteration in
ascending index order.  It is represented as an association list ordered by
strictly ascending index; it is declared mutually with `Node` (instead of as
`List (Nat × Node K V)`) so that functions over the tree are structurally
recursive. -/
inductive SparseArrayUsize (K V : Type) where
  | nil
  | cons (idx : Nat) (child : Node K V) (rest : SparseArrayUsize K V)
end

variable {K V : Type}

namespace SparseArrayUsize

/-- Modelled from the spec: `get(index)` returns the child stored at `index`,
if present. -/
def get : SparseArrayUsize K V → Nat → Option (Node K V)
  | .nil, _ => none
  | .cons j w t, i => if j = i then some w else get t i

/-- Modelled from the spec: `set(index, value)` stores `value` at `index`,
replacing any existing child and keeping the indices ascending. -/
def set : SparseArrayUsize K V → Nat → Node K V → SparseArrayUsize K V
  | .nil, i, v => .cons i v .nil
  | .cons j w t, i, v =>
    if i < j then .cons i v (.cons j w t)
    else if i = j then .cons i v t
    else .cons j w (set t i v)

/-- Modelled from the spec: `remove(index)` drops the child stored at
`index`, if present. -/
def remove : SparseArrayUsize K V → Nat → SparseArrayUsize K V
  | .nil, _ => .nil
  | .cons j w t, i => if j = i then t else .cons j w (remove t i)

/-- Modelled from the spec: `size()` is the number of present indices. -/
def size : SparseArrayUsize K V → Nat
  | .nil => 0
  | .cons _ _ t => size t + 1

/-- Modelled from the spec: `first()` is the child at the smallest present
index. -/
def first : SparseArrayUsize K V → Option (Node K V)
  | .nil => none
  | .cons _ w _ => some w

/-- Modelled from the spec: `pop()` extracts the first child (used by
`Node::compress` on arrays of size 1). -/
def pop : SparseArrayUsize K V → Option (Node K V)
  | .nil => none
  | .cons _ w _ => some w

/-- Modelled from the spec: forward iteration over present children in
ascending index order (the sequence of values). -/
def values : SparseArrayUsize K V → List (Node K V)
  | .nil => []
  | .cons _ w t => w :: values t

/-- All stored indices are strictly greater than `j`. -/
def gtAll (j : Nat) : SparseArrayUsize K V → Bool
  | .nil => true
  | .cons j2 _ t => decide (j < j2) && gtAll j t

/-- The indices are strictly ascending (the sparse container's internal
representation invariant; it makes each present index unique). -/
def sorted : SparseArrayUsize K V → Bool
  | .nil => true
  | .cons j _ t => gtAll j t && sorted t

/-- Induction over the sparse array alone (the `Node` elements receive no
induction hypothesis); registered so that the `induction` tactic works on
this mutually declared type. -/
@[induction_eliminator]
theorem inductionOn {motive : SparseArrayUsize K V → Prop}
    (nil : motive .nil)
    (cons : ∀ (i : Nat) (c : Node K V) (t : SparseArrayUsize K V),
      motive t → motive (.cons i c t)) :
    ∀ s, motive s
  | .nil => nil
  | .cons i c t => cons i c t (inductionOn nil cons t)

end SparseArrayUsize

/-! ## node_utils -/

/-- `node_utils::index_from_hash(hash, depth, degree)` with the source's
`depth as u32` cast modelled bit-for-bit: the source computes
`shift = depth as u32 * degree.trailing_zeros()` — the depth truncated to
32 bits and multiplied in wrapping 32-bit arithmetic (release-mode `u32`
multiplication; a debug build would panic instead of wrapping on an
overflowing product, but the depths the correction of C6 exhibits do not
overflow the product, so the two builds agree there) — and tests
`(shift as usize) < 8 * size_of_val(&hash)`. -/
def index_from_hash_cast (hash : Nat) (depth : Nat) (degree : Nat) :
    Option Nat :=
  let shift := (depth % 2 ^ 32) * u8TrailingZeros degree % 2 ^ 32
  if shift < 64 then some ((hash >>> shift) &&& (degree - 1)) else none

/-- `index_from_hash_cast` with the `u32` casts dropped.  The two agree
whenever `depth * trailing_zeros degree < 2 ^ 32`
(`index_from_hash_cast_eq` below) — in particular at every depth the
trie recursion can arrive at (the well-formedness invariant pins
`depth * trailing_zeros degree < 64` at every branch) — and differ
beyond, where the cast wraps (recorded as the correction of C6).  This
cast-free form is the working definition of the development; every use
outside C6 applies it inside the agreement range. -/
def index_from_hash (hash : Nat) (depth : Nat) (degree : Nat) : Option Nat :=
  let shift := depth * u8TrailingZeros degree
  if shift < 64 then some ((hash >>> shift) &&& (degree - 1)) else none

/-- Modelled from the spec: the hash provider is a deterministic
key → 64-bit-hash function; `node_utils::hash(v, hasher_builder)` is its
application. -/
def node_hash (hasher_builder : K → Nat) (v : K) : Nat := hasher_builder v

/-! ## EntryWithHash -/

/-- `EntryWithHash::new(key, value, hash_builder)`. -/
def EntryWithHash.new (hasher_builder : K → Nat) (key : K) (value : V) : EntryWithHash K V :=
  { key := key, value := value, keyHash := node_hash hasher_builder key }

/-- `EntryWithHash::matches`: same cached hash and equal key. -/
def EntryWithHash.matches [DecidableEq K] (e : EntryWithHash K V) (key : K)
    (key_hash : Nat) : Bool :=
  e.keyHash == key_hash && e.key == key

/-! ## bucket_utils -/

namespace bucket_utils

/-- `bucket_utils::list_remove_first`: removes the first element satisfying
`predicate`, preserving the order of the remaining elements; returns whether
an element was removed.  (The source drains the list into `before_needle`
until the needle is found, drops the needle, and pushes the drained prefix
back in order.) -/
def list_remove_first {α : Type} (predicate : α → Bool) : List α → List α × Bool
  | [] => ([], false)
  | e :: remaining =>
    if predicate e then (remaining, true)
    else
      let r := list_remove_first predicate remaining
      (e :: r.1, r.2)

end bucket_utils

/-! ## Bucket operations -/

namespace Bucket

variable [DecidableEq K]

/-- `Bucket::get`: `Single` matches iff hash and key both equal; `Collision`
returns the first match scanning front-to-back. -/
def get (b : Bucket K V) (key : K) (key_hash : Nat) : Option (EntryWithHash K V) :=
  match b with
  | .Single entry => if entry.matches key key_hash then some entry else none
  | .Collision entries => entries.find? (fun e => e.matches key key_hash)

/-- `Bucket::contains_key`. -/
def contains_key (b : Bucket K V) (key : K) (key_hash : Nat) : Bool :=
  (b.get key key_hash).isSome

/-- `Bucket::insert`: returns the updated bucket and `true` iff the key is
new.  On a collision the entry is put at the front of the list, after any
existing entry with the same key was removed (order of the rest preserved). -/
def insert (b : Bucket K V) (entry : EntryWithHash K V) : Bucket K V × Bool :=
  match b with
  | .Single existing_entry =>
    if existing_entry.matches entry.key entry.keyHash then (.Single entry, false)
    else (.Collision [entry, existing_entry], true)
  | .Collision entries =>
    let r := bucket_utils.list_remove_first
      (fun e => e.matches entry.key entry.keyHash) entries
    (.Collision (entry :: r.1), !r.2)

/-- `Bucket::remove`: returns the updated bucket (`none` when it became
empty, which the source signals by setting the in/out reference to `None`)
and `true` iff the key was present.  A collision that shrinks to exactly one
entry collapses to `Single`; the source's `0 => unreachable!` arm (a
collision always has at least two entries) is here the `Collision []`
result of the catch-all arm. -/
def remove (b : Bucket K V) (key : K) (key_hash : Nat) : Option (Bucket K V) × Bool :=
  match b with
  | .Single existing_entry =>
    if existing_entry.matches key key_hash then (none, true)
    else (some (.Single existing_entry), false)
  | .Collision entries =>
    let r := bucket_utils.list_remove_first (fun e => e.matches key key_hash) entries
    match r.1 with
    | [e] => (some (.Single e), r.2)
    | other => (some (.Collision other), r.2)

end Bucket

/-! ## Node operations -/

namespace Node

/-- `Node::new_empty_branch`. -/
def new_empty_branch : Node K V := .Branch .nil

/-- `Node::is_empty`: a branch with zero children.  (Leaves are never empty;
the source's `debug_assert` that collisions have at least two entries is an
invariant, proved below.) -/
def is_empty : Node K V → Bool
  | .Branch subtrees => subtrees.size == 0
  | .Leaf (.Single _) => false
  | .Leaf (.Collision _) => false

section GetProper

variable [DecidableEq K]

mutual
/-- `Node::get(key, key_hash, depth, degree)`.  On a branch the source
computes the index with an `expect` (the hash cannot be exhausted on a
branch — an invariant proved below); the unreachable exhausted case returns
`none` here.  The child lookup `subtrees.get(index).and_then(...)` is fused
into the mutually recursive `branchGet` so that the recursion is structural;
`branchGet_eq_get` below recovers the compositional form. -/
def get (key : K) (key_hash : Nat) (degree : Nat) :
    Node K V → Nat → Option (EntryWithHash K V)
  | .Branch subtrees, depth =>
    match index_from_hash key_hash depth degree with
    | none => none
    | some index => branchGet key key_hash degree subtrees index depth
  | .Leaf bucket, _ => bucket.get key key_hash
/-- Looks up the child at `index` and recurses into it at `depth + 1`. -/
def branchGet (key : K) (key_hash : Nat) (degree : Nat) :
    SparseArrayUsize K V → Nat → Nat → Option (EntryWithHash K V)
  | .nil, _, _ => none
  | .cons j c t, index, depth =>
    if j = index then get key key_hash degree c (depth + 1)
    else branchGet key key_hash degree t index depth
end

end GetProper

end Node

mutual
/-- All entries stored in a node, in ascending-index pre-order (the order
the external iterator produces; used as the specification list). -/
def nodeEntries : Node K V → List (EntryWithHash K V)
  | .Branch s => sparseEntries s
  | .Leaf (.Single e) => [e]
  | .Leaf (.Collision es) => es
/-- All entries stored below a sparse child array, in ascending-index
pre-order. -/
def sparseEntries : SparseArrayUsize K V → List (EntryWithHash K V)
  | .nil => []
  | .cons _ c t => nodeEntries c ++ sparseEntries t
end

namespace Node

variable [DecidableEq K]

/-- Termination tag: leaves are one step heavier than branches at the same
depth (the divergence case of `insert` replaces a leaf by branches at the
same depth before descending). -/
def tag : Node K V → Nat
  | .Leaf _ => 1
  | .Branch _ => 0

/-- From `index_from_hash … = some i` and at least one hash bit per level,
the depth is below 64 (used for the termination of `insert`). -/
theorem depth_lt_of_index_some {hash depth degree i : Nat}
    (hb : 0 < u8TrailingZeros degree)
    (h : index_from_hash hash depth degree = some i) : depth < 64 := by
  unfold index_from_hash at h
  simp only at h
  split at h
  · rename_i hlt
    calc depth = depth * 1 := (Nat.mul_one depth).symm
    _ ≤ depth * u8TrailingZeros degree := Nat.mul_le_mul_left depth hb
    _ < 64 := hlt
  · exact absurd h (by simp)

/-- `Node::insert(entry, depth, degree)`: returns the updated node and
whether the key is new.  Needs at least one hash bit per level
(`0 < u8TrailingZeros degree`, i.e. `degree ≥ 2`) to terminate — with
degree 1 the source recursion genuinely diverges on two distinct keys.

Mapping to the source `Node::Leaf(bucket)` arm: the source computes
`maximum_depth = index_from_hash(..).is_none()` and matches on it; here the
same match is on `index_from_hash` itself (`some _` = not at maximum depth,
`none` = maximum depth, a true collision).  In the divergence case the
source replaces `self` by an empty branch and re-inserts the old entry and
then the new entry at the same depth; the intermediate result of the first
re-insertion is necessarily a `Branch` (inserting into a branch yields a
branch), which the extra `match` on `r1.1` makes explicit for termination;
its `Leaf` arm is unreachable. -/
def insert (degree : Nat) (hb : 0 < u8TrailingZeros degree) :
    Node K V → EntryWithHash K V → Nat → Node K V × Bool
  | .Branch subtrees, entry, depth =>
    match hidx : index_from_hash entry.keyHash depth degree with
    | none => (.Branch subtrees, false)  -- source: `expect` panic, unreachable on branches
    | some index =>
      match subtrees.get index with
      | some subtree =>
        let r := insert degree hb subtree entry (depth + 1)
        (.Branch (subtrees.set index r.1), r.2)
      | none => (.Branch (subtrees.set index (.Leaf (.Single entry))), true)
  | .Leaf bucket, entry, depth =>
    match hidx : index_from_hash entry.keyHash depth degree with
    | some _ =>
      if bucket.contains_key entry.key entry.keyHash then
        let r := bucket.insert entry
        (.Leaf r.1, r.2)
      else
        match bucket with
        | .Single old_entry =>
          let r1 := insert degree hb new_empty_branch old_entry depth
          match r1.1 with
          | .Branch s1 => ((insert degree hb (.Branch s1) entry depth).1, true)
          | .Leaf b1 => (.Leaf b1, true)  -- unreachable
        | .Collision es => (.Leaf (.Collision es), true)  -- source: `unreachable!`
    | none =>
      let r := bucket.insert entry
      (.Leaf r.1, r.2)
termination_by n _ depth => 2 * (64 - depth) + tag n
decreasing_by
  · have hd := depth_lt_of_index_some hb hidx
    simp only [tag]
    split <;> omega
  · have hd := depth_lt_of_index_some hb hidx
    simp [tag, new_empty_branch]
  · simp [tag]

/-- `Node::compress`: a branch with exactly one child that is a
`Leaf(Single(_))` is replaced by that child; collisions are kept at the
bottom of the tree. -/
def compress : Node K V → Node K V
  | .Branch subtrees =>
    match subtrees with
    | .cons _ subtree .nil =>
      match subtree with
      | .Leaf (.Single _) => subtree
      | _ => .Branch subtrees
    | _ => .Branch subtrees
  | .Leaf bucket => .Leaf bucket

omit [DecidableEq K] in
/-- An element found by `SparseArrayUsize.get` is structurally smaller than
the array (termination of `remove`). -/
theorem sizeOf_get {s : SparseArrayUsize K V} {i : Nat} {c : Node K V}
    (h : s.get i = some c) : sizeOf c < sizeOf s := by
  induction s with
  | nil => simp [SparseArrayUsize.get] at h
  | cons j w t ih =>
    simp only [SparseArrayUsize.get] at h
    split at h
    · cases h; simp; omega
    · have := ih h; simp; omega

/-- `Node::remove(key, key_hash, depth, degree)`: returns the updated node
and whether the key was present.  A leaf whose bucket becomes empty is
replaced by an empty branch, which the parent interprets as a removal
signal; after a removal from a child the parent drops the child if it
became empty and attempts to compress in either case. -/
def remove (key : K) (key_hash : Nat) (degree : Nat) :
    Node K V → Nat → Node K V × Bool
  | .Branch subtrees, depth =>
    match index_from_hash key_hash depth degree with
    | none => (.Branch subtrees, false)  -- source: `expect` panic, unreachable on branches
    | some index =>
      match hget : subtrees.get index with
      | some subtree =>
        let r := remove key key_hash degree subtree (depth + 1)
        match r.1.is_empty, r.2 with
        | _, false => (.Branch (subtrees.set index r.1), false)
        | false, true => (compress (.Branch (subtrees.set index r.1)), true)
        | true, true => (compress (.Branch (subtrees.remove index)), true)
      | none => (.Branch subtrees, false)
  | .Leaf bucket, _ =>
    let r := bucket.remove key key_hash
    match r.1 with
    | none => (new_empty_branch, r.2)
    | some b2 => (.Leaf b2, r.2)
termination_by n _ => sizeOf n
decreasing_by
  have := sizeOf_get hget
  simp
  omega

end Node

/-! ## The map handle -/

/-- `HashTrieMap`: root node, entry counter, branching degree, hash
provider.  The pointer-kind parameter `P` (single-owner vs. atomic
reference counting) has no value-level effect and is omitted; the
`BuildHasher` is the modelled hash function `hasher_builder`. -/
structure HashTrieMap (K V : Type) where
  root : Node K V
  size : Nat
  degree : Nat
  hasher_builder : K → Nat

namespace HashTrieMap

variable [DecidableEq K]

/-- `HashTrieMap::new_with_hasher_and_degree_and_ptr_kind`: asserts that the
degree is a power of two and at most `DEFAULT_DEGREE`; `none` models the
`assert!` panics. -/
def new_with_hasher_and_degree? (hasher_builder : K → Nat) (degree : Nat) :
    Option (HashTrieMap K V) :=
  if is_power_of_two degree ∧ degree ≤ DEFAULT_DEGREE then
    some { root := Node.new_empty_branch, size := 0, degree := degree,
           hasher_builder := hasher_builder }
  else none

/-- `HashTrieMap::new_with_degree` (with the default hasher abstracted as a
parameter). -/
def new_with_degree? (hasher_builder : K → Nat) (degree : Nat) :
    Option (HashTrieMap K V) :=
  new_with_hasher_and_degree? hasher_builder degree

/-- `HashTrieMap::new` (with the default hasher abstracted as a
parameter). -/
def new? (hasher_builder : K → Nat) : Option (HashTrieMap K V) :=
  new_with_degree? hasher_builder DEFAULT_DEGREE

/-- `HashTrieMap::get`. -/
def get (m : HashTrieMap K V) (key : K) : Option V :=
  let key_hash := node_hash m.hasher_builder key
  (m.root.get key key_hash m.degree 0).map (fun e => e.value)

/-- `HashTrieMap::contains_key`. -/
def contains_key (m : HashTrieMap K V) (key : K) : Bool :=
  (m.get key).isSome

/-- `HashTrieMap::is_empty`. -/
def is_empty (m : HashTrieMap K V) : Bool :=
  m.size == 0

/-- `Clone for HashTrieMap`: clones the root pointer (value-identity here)
and copies size, degree and the hasher. -/
def clone (m : HashTrieMap K V) : HashTrieMap K V :=
  { root := m.root, size := m.size, degree := m.degree,
    hasher_builder := m.hasher_builder }

/-- `HashTrieMap::insert_mut(key, value)` as a state-passing function. -/
def insert_mut (m : HashTrieMap K V) (key : K) (value : V)
    (hb : 0 < u8TrailingZeros m.degree) : HashTrieMap K V :=
  let entry := EntryWithHash.new m.hasher_builder key value
  let r := m.root.insert m.degree hb entry 0
  { m with root := r.1, size := if r.2 then m.size + 1 else m.size }

/-- `HashTrieMap::insert`: clone the handle, then mutate the clone. -/
def insert (m : HashTrieMap K V) (key : K) (value : V)
    (hb : 0 < u8TrailingZeros m.degree) : HashTrieMap K V :=
  insert_mut (clone m) key value hb

/-- `HashTrieMap::remove_mut(key)` as a state-passing function: the updated
map together with the returned `bool` (whether the key was present). -/
def remove_mut (m : HashTrieMap K V) (key : K) : HashTrieMap K V × Bool :=
  let key_hash := node_hash m.hasher_builder key
  let r := m.root.remove key key_hash m.degree 0
  if r.2 then ({ m with root := r.1, size := m.size - 1 }, true)
  else ({ m with root := r.1 }, false)

/-- `HashTrieMap::remove`: mutate a clone; on a no-op return a fresh clone
of `self` to keep maximum sharing. -/
def remove (m : HashTrieMap K V) (key : K) : HashTrieMap K V :=
  let r := (clone m).remove_mut key
  if r.2 then r.1 else clone m

/-- All entries of the map in ascending-index pre-order — the sequence
`iter()` yields (proved against the iterator machine below). -/
def entriesList (m : HashTrieMap K V) : List (EntryWithHash K V) :=
  nodeEntries m.root

/-- `PartialEq for HashTrieMap`: equal sizes and every entry of `self`
found in `other` with an equal value (`all` over the entry sequence is
order-insensitive, so the pre-order list stands in for `iter()`). -/
def eqv [DecidableEq V] (m1 m2 : HashTrieMap K V) : Bool :=
  m1.size == m2.size &&
    m1.entriesList.all (fun e =>
      match m2.get e.key with
      | some v => v == e.value
      | none => false)

/-- `FromIterator`-style construction: repeated `insert_mut` (later
duplicates overwrite earlier entries).  The degree is unchanged by
`insert_mut`, so the hash-bits precondition carries through the fold. -/
def insert_list (m : HashTrieMap K V) (hb : 0 < u8TrailingZeros m.degree) :
    List (K × V) → HashTrieMap K V
  | [] => m
  | (k, v) :: t => insert_list (m.insert_mut k v hb) hb t

end HashTrieMap

/-! ## iter_utils and the external iterator -/

namespace iter_utils

/-- `iter_utils::trie_max_height(degree)`: `bits_per_level` is
`(degree - 1).count_ones()` and the height is `hash_bits / bits_per_level`
rounded up.  For `degree = 1` the divisor is zero and the Rust division
panics; `none` models that panic. -/
def trie_max_height? (degree : Nat) : Option Nat :=
  let bits_per_level := u8CountOnes (degree - 1)
  let hash_bits := 64
  if bits_per_level = 0 then none
  else some (hash_bits / bits_per_level +
    if hash_bits % bits_per_level > 0 then 1 else 0)

end iter_utils

/-- `IterStackElement`: one stack frame of the traversal.  A `Peekable`
cursor is a list whose head is the currently peeked element. -/
inductive IterStackElement (K V : Type) where
  | Branch (children : List (Node K V))
  | LeafSingle (e : EntryWithHash K V)
  | LeafCollision (entries : List (EntryWithHash K V))

namespace IterStackElement

/-- `IterStackElement::new(node)`. -/
def new (node : Node K V) : IterStackElement K V :=
  match node with
  | .Branch children => .Branch children.values
  | .Leaf (.Single entry) => .LeafSingle entry
  | .Leaf (.Collision entries) => .LeafCollision entries

/-- `IterStackElement::current_elem`: the entry the frame currently exposes.
The source panics on a branch frame and on an exhausted collision cursor
(`peek().unwrap()`); both are `none` here and unreachable for well-formed
stacks. -/
def current_elem : IterStackElement K V → Option (EntryWithHash K V)
  | .Branch _ => none
  | .LeafSingle entry => some entry
  | .LeafCollision entries => entries.head?

/-- `IterStackElement::advance`: advance the cursor; the `Bool` is `true`
iff the frame is finished afterwards. -/
def advance : IterStackElement K V → IterStackElement K V × Bool
  | .Branch children => (.Branch children.tail, children.tail.isEmpty)
  | .LeafSingle entry => (.LeafSingle entry, true)
  | .LeafCollision entries => (.LeafCollision entries.tail, entries.tail.isEmpty)

end IterStackElement

/-- `IterPtr`: the stack of frames (head of the list = top of the source's
`Vec`, which pushes and pops at its back) and the exact count of entries not
yet produced. -/
structure IterPtr (K V : Type) where
  stack : List (IterStackElement K V)
  size : Nat

/-- `sizeOf` of the values list is bounded by `sizeOf` of the sparse array
(termination of `digStack`). -/
theorem sizeOf_values (s : SparseArrayUsize K V) :
    sizeOf s.values ≤ sizeOf s := by
  induction s with
  | nil => simp [SparseArrayUsize.values]
  | cons i c t ih => simp [SparseArrayUsize.values]; omega

/-- A fresh frame for a node is strictly smaller than a branch frame that
has that node as its peeked child (termination of `digStack`). -/
theorem sizeOf_new_lt (n : Node K V) (rest : List (Node K V)) :
    sizeOf (IterStackElement.new n) <
      sizeOf (IterStackElement.Branch (n :: rest) : IterStackElement K V) := by
  match n with
  | .Branch s =>
    have := sizeOf_values s
    simp [IterStackElement.new]
    omega
  | .Leaf (.Single e) => simp [IterStackElement.new]; omega
  | .Leaf (.Collision es) => simp [IterStackElement.new]; omega

/-- `IterPtr::dig`: while the top frame is a branch with a peeked child,
push a frame for that child, until a leaf frame is on top. -/
def digStack : List (IterStackElement K V) → List (IterStackElement K V)
  | .Branch (node :: rest) :: stack =>
    digStack (IterStackElement.new node :: .Branch (node :: rest) :: stack)
  | stack => stack
termination_by s => (match s with | f :: _ => sizeOf f | [] => 0)
decreasing_by
  have := sizeOf_new_lt node rest
  omega

/-- `IterPtr::advance`: pop the top frame and advance its cursor; if it is
finished keep popping (backtrack), otherwise push it back and dig. -/
def advanceStack : List (IterStackElement K V) → List (IterStackElement K V)
  | [] => []
  | stack_element :: stack =>
    let r := stack_element.advance
    if r.2 then advanceStack stack
    else digStack (r.1 :: stack)

namespace IterPtr

/-- `IterPtr::current`. -/
def current (it : IterPtr K V) : Option (EntryWithHash K V) :=
  match it.stack with
  | [] => none
  | e :: _ => e.current_elem

/-- `Iterator::next for IterPtr`: return the currently exposed entry, then
advance; the remaining-size counter decreases exactly when an entry was
produced. -/
def next (it : IterPtr K V) : Option (EntryWithHash K V) × IterPtr K V :=
  let cur := it.current
  (cur, { stack := advanceStack it.stack,
          size := if cur.isSome then it.size - 1 else it.size })

/-- `Iterator::size_hint for IterPtr`: exact. -/
def size_hint (it : IterPtr K V) : Nat × Option Nat :=
  (it.size, some it.size)

/-- `IterPtr::new(map)`: allocate the stack
(`Vec::with_capacity(trie_max_height(degree) + 1)`, whose capacity
computation panics for degree 1 — `none` models that panic), push a frame
for the root when the map is non-empty, and dig. -/
def new? [DecidableEq K] (m : HashTrieMap K V) : Option (IterPtr K V) :=
  match iter_utils.trie_max_height? m.degree with
  | none => none
  | some _ =>
    let stack0 : List (IterStackElement K V) :=
      if m.size > 0 then [IterStackElement.new m.root] else []
    some { stack := digStack stack0, size := m.size }

/-- Runs the iterator `fuel` times, collecting the produced entries (the
iterator's output sequence is finite, so any sufficiently large fuel yields
the whole sequence). -/
def run : Nat → IterPtr K V → List (EntryWithHash K V)
  | 0, _ => []
  | fuel + 1, it =>
    match it.next with
    | (some e, it2) => e :: run fuel it2
    | (none, _) => []

/-- The iterator state after `n` steps. -/
def stepN : Nat → IterPtr K V → IterPtr K V
  | 0, it => it
  | n + 1, it => stepN n it.next.2

end IterPtr

/-! ## Well-formedness -/

/-- A structurally valid entry: the cached hash is the hash the provider
assigns to the key, and it fits in 64 bits. -/
def entryWf [DecidableEq K] (hasher : K → Nat) (e : EntryWithHash K V) : Bool :=
  e.keyHash == hasher e.key && decide (e.keyHash < 2 ^ 64)

/-- All entries of a collision bucket share one hash value. -/
def sameHash : List (EntryWithHash K V) → Bool
  | [] => true
  | e :: t => t.all (fun x => x.keyHash == e.keyHash)

/-- Pairwise distinct keys within a bucket. -/
def distinctKeys [DecidableEq K] : List (EntryWithHash K V) → Bool
  | [] => true
  | e :: t => t.all (fun x => !(x.key == e.key)) && distinctKeys t

mutual
/-- Structural invariants of a node at `depth` (the spec's invariants 1–5
as they apply below the root):
branches live strictly above hash exhaustion (so the source's `expect`
never fires), their index lists are strictly ascending, and their children
satisfy `subtreesWf`; a collision leaf lives exactly at hash exhaustion,
has at least two entries, all with the same (valid, 64-bit) hash and
pairwise distinct keys. -/
def nodeWf [DecidableEq K] (hasher : K → Nat) (degree : Nat) :
    Node K V → Nat → Bool
  | .Branch subtrees, depth =>
    (index_from_hash 0 depth degree).isSome
      && subtrees.sorted
      && subtreesWf hasher degree subtrees depth
  | .Leaf (.Single e), _ => entryWf hasher e
  | .Leaf (.Collision es), depth =>
    (index_from_hash 0 depth degree).isNone
      && decide (2 ≤ es.length)
      && es.all (entryWf hasher)
      && sameHash es
      && distinctKeys es
/-- Each child: its index is a valid digit, it is non-empty (invariant 1:
only the root may be an empty branch), every entry below it has that digit
at this depth (invariant 4), a branch child has at least two entries below
it (invariant 3), and it is recursively well-formed one level deeper. -/
def subtreesWf [DecidableEq K] (hasher : K → Nat) (degree : Nat) :
    SparseArrayUsize K V → Nat → Bool
  | .nil, _ => true
  | .cons idx child rest, depth =>
    decide (idx < degree)
      && !child.is_empty
      && (nodeEntries child).all
           (fun e => index_from_hash e.keyHash depth degree == some idx)
      && (match child with
          | .Branch _ => decide (2 ≤ (nodeEntries child).length)
          | .Leaf _ => true)
      && nodeWf hasher degree child (depth + 1)
      && subtreesWf hasher degree rest depth
end

/-- The degree checks performed by the constructor. -/
def degreeWf (degree : Nat) : Bool :=
  is_power_of_two degree && decide (degree ≤ DEFAULT_DEGREE)

/-- A well-formed map handle: a validated degree, a well-formed root and an
entry counter that matches the number of entries actually stored. -/
def mapWf [DecidableEq K] (m : HashTrieMap K V) : Bool :=
  degreeWf m.degree
    && nodeWf m.hasher_builder m.degree m.root 0
    && m.size == (nodeEntries m.root).length

/-! ## Arithmetic facts about degrees, digits and hashes -/

/-- A validated degree is two to its number of trailing zeros. -/
theorem degree_eq_pow {d : Nat} (h : degreeWf d = true) :
    d = 2 ^ u8TrailingZeros d := by
  have hlt : d < 65 := by
    have := (Bool.and_elim_right h)
    simp [DEFAULT_DEGREE] at this
    omega
  revert h
  revert hlt
  revert d
  decide

/-- A validated degree uses at most six hash bits per level. -/
theorem tz_le_six {d : Nat} (h : degreeWf d = true) : u8TrailingZeros d ≤ 6 := by
  have hlt : d < 65 := by
    have := (Bool.and_elim_right h)
    simp [DEFAULT_DEGREE] at this
    omega
  revert h
  revert hlt
  revert d
  decide

/-- Masking with `2 ^ b - 1` is reduction modulo `2 ^ b`. -/
theorem and_pow_sub_one_eq_mod (x b : Nat) : x &&& (2 ^ b - 1) = x % 2 ^ b := by
  apply Nat.eq_of_testBit_eq
  intro i
  rw [Nat.testBit_and, Nat.testBit_two_pow_sub_one, Nat.testBit_mod_two_pow,
    Bool.and_comm]

/-- Characterization of a produced digit. -/
theorem index_from_hash_eq_some {hash depth degree i : Nat} :
    index_from_hash hash depth degree = some i ↔
      depth * u8TrailingZeros degree < 64 ∧
        i = (hash >>> (depth * u8TrailingZeros degree)) &&& (degree - 1) := by
  unfold index_from_hash
  simp only
  split
  · rename_i hlt
    simp [hlt]
    exact eq_comm
  · rename_i hlt
    simp
    omega

/-- Characterization of hash exhaustion: it depends only on the depth and
the degree, never on the hash value. -/
theorem index_from_hash_eq_none {hash depth degree : Nat} :
    index_from_hash hash depth degree = none ↔
      64 ≤ depth * u8TrailingZeros degree := by
  unfold index_from_hash
  simp only
  split
  · rename_i hlt; simp; omega
  · rename_i hlt; simp; omega

/-- As long as the shift does not reach 32 bits, the source's `u32` casts
are the identity and the cast-free working definition agrees with the
bit-faithful one.  (With `trailing_zeros degree = 0` the shift is zero
whatever the depth, so both sides agree there too.) -/
theorem index_from_hash_cast_eq {hash depth degree : Nat}
    (h : depth * u8TrailingZeros degree < 2 ^ 32) :
    index_from_hash_cast hash depth degree
      = index_from_hash hash depth degree := by
  unfold index_from_hash_cast index_from_hash
  have hmod : (depth % 2 ^ 32) * u8TrailingZeros degree % 2 ^ 32
      = depth * u8TrailingZeros degree := by
    rcases Nat.eq_zero_or_pos (u8TrailingZeros degree) with h0 | h0
    · simp [h0]
    · have hle : depth ≤ depth * u8TrailingZeros degree := by
        calc depth = depth * 1 := (Nat.mul_one depth).symm
        _ ≤ depth * u8TrailingZeros degree := Nat.mul_le_mul_left depth h0
      have hd : depth < 2 ^ 32 := by omega
      rw [Nat.mod_eq_of_lt hd, Nat.mod_eq_of_lt h]
  rw [hmod]

/-- For a power-of-two degree the digit is a block of hash bits. -/
theorem index_from_hash_eq_mod {hash depth degree : Nat}
    (hdeg : degreeWf degree = true)
    (hlt : depth * u8TrailingZeros degree < 64) :
    index_from_hash hash depth degree =
      some ((hash >>> (depth * u8TrailingZeros degree)) %
        2 ^ u8TrailingZeros degree) := by
  rw [index_from_hash_eq_some.2 ⟨hlt, rfl⟩]
  congr 1
  nth_rewrite 2 [degree_eq_pow hdeg]
  exact and_pow_sub_one_eq_mod _ _

/-- The digit produced for a valid degree is below the degree. -/
theorem index_lt_degree {hash depth degree i : Nat} (hdeg : degreeWf degree = true)
    (h : index_from_hash hash depth degree = some i) : i < degree := by
  obtain ⟨hlt, rfl⟩ := index_from_hash_eq_some.1 h
  have hpos : 0 < degree := by
    rw [degree_eq_pow hdeg]; exact Nat.pos_pow_of_pos _ (by omega)
  have hle : (hash >>> (depth * u8TrailingZeros degree)) &&& (degree - 1) ≤ degree - 1 :=
    Nat.and_le_right
  omega

/-- Two 64-bit hashes that agree on every digit block agree everywhere
(used when a genuine collision is created: the whole path to maximum depth
pins all 64 bits). -/
theorem hash_eq_of_digits_eq {b h1 h2 : Nat} (hb : 1 ≤ b)
    (H1 : h1 < 2 ^ 64) (H2 : h2 < 2 ^ 64)
    (hd : ∀ t, t * b < 64 → (h1 >>> (t * b)) % 2 ^ b = (h2 >>> (t * b)) % 2 ^ b) :
    h1 = h2 := by
  apply Nat.eq_of_testBit_eq
  intro i
  by_cases hi : i < 64
  · have htb : (i / b) * b < 64 := Nat.lt_of_le_of_lt (Nat.div_mul_le_self i b) hi
    have hmod := hd (i / b) htb
    have hr : i % b < b := Nat.mod_lt _ (by omega)
    have h1b := congrArg (fun x => Nat.testBit x (i % b)) hmod
    simp [Nat.testBit_mod_two_pow, Nat.testBit_shiftRight, hr] at h1b
    have hsplit : i / b * b + i % b = i := Nat.div_add_mod' i b
    rwa [hsplit] at h1b
  · have e1 : h1.testBit i = false :=
      Nat.testBit_lt_two_pow (Nat.lt_of_lt_of_le H1 (Nat.pow_le_pow_right (by omega) (by omega)))
    have e2 : h2.testBit i = false :=
      Nat.testBit_lt_two_pow (Nat.lt_of_lt_of_le H2 (Nat.pow_le_pow_right (by omega) (by omega)))
    rw [e1, e2]

/-! ## Lemmas about the sparse array -/

namespace SparseArrayUsize

theorem get_set_self (s : SparseArrayUsize K V) (i : Nat) (v : Node K V) :
    (s.set i v).get i = some v := by
  induction s with
  | nil => simp [set, get]
  | cons j w t ih =>
    by_cases h1 : i < j
    · simp [set, get, h1]
    · by_cases h2 : i = j
      · simp [set, get, h1, h2]
      · have hj : ¬ (j = i) := fun h => h2 h.symm
        simp [set, get, h1, h2, hj, ih]

theorem get_set_ne (s : SparseArrayUsize K V) {i j : Nat} (v : Node K V)
    (hne : j ≠ i) : (s.set i v).get j = s.get j := by
  have hne' : ¬ i = j := fun h => hne h.symm
  induction s with
  | nil => simp [set, get, hne']
  | cons j2 w t ih =>
    by_cases h1 : i < j2
    · simp [set, get, h1, hne']
    · by_cases h2 : i = j2
      · subst h2
        simp [set, get, h1, hne']
      · simp only [set, h1, ite_false, h2, get]
        split
        · rfl
        · exact ih

theorem sorted_cons {j : Nat} {w : Node K V} {t : SparseArrayUsize K V}
    (h : (SparseArrayUsize.cons j w t).sorted = true) : t.sorted = true := by
  simp only [sorted, Bool.and_eq_true] at h
  exact h.2

theorem gtAll_cons {j : Nat} {w : Node K V} {t : SparseArrayUsize K V}
    (h : (SparseArrayUsize.cons j w t).sorted = true) : t.gtAll j = true := by
  simp only [sorted, Bool.and_eq_true] at h
  exact h.1

theorem lt_of_gtAll_get {j i : Nat} {c : Node K V} {t : SparseArrayUsize K V}
    (ha : t.gtAll j = true) (hg : t.get i = some c) : j < i := by
  induction t with
  | nil => simp [get] at hg
  | cons j2 w2 t2 ih =>
    simp only [gtAll, Bool.and_eq_true, decide_eq_true_eq] at ha
    simp only [get] at hg
    split at hg
    · omega
    · exact ih ha.2 hg

theorem gtAll_set {s : SparseArrayUsize K V} {j i : Nat} {v : Node K V}
    (ha : s.gtAll j = true) (hji : j < i) : (s.set i v).gtAll j = true := by
  induction s with
  | nil => simp [set, gtAll, hji]
  | cons j2 w t ih =>
    simp only [gtAll, Bool.and_eq_true, decide_eq_true_eq] at ha
    by_cases h1 : i < j2
    · simp [set, h1, gtAll, hji, ha.1, ha.2]
    · by_cases h2 : i = j2
      · simp [set, h1, h2, gtAll, hji, ha.1, ha.2]
      · simp [set, h1, h2, gtAll, ha.1, ih ha.2]

theorem gtAll_of_lt {s : SparseArrayUsize K V} {i j : Nat}
    (hij : i < j) (ha : s.gtAll j = true) : s.gtAll i = true := by
  induction s with
  | nil => simp [gtAll]
  | cons j2 w t ih =>
    simp only [gtAll, Bool.and_eq_true, decide_eq_true_eq] at ha ⊢
    exact ⟨by omega, ih ha.2⟩

theorem gtAll_remove {s : SparseArrayUsize K V} {j i : Nat}
    (ha : s.gtAll j = true) : (s.remove i).gtAll j = true := by
  induction s with
  | nil => simp [remove, gtAll]
  | cons j2 w t ih =>
    simp only [gtAll, Bool.and_eq_true, decide_eq_true_eq] at ha
    by_cases h1 : j2 = i
    · simp [remove, h1, ha.2]
    · simp [remove, h1, gtAll, ha.1, ih ha.2]

theorem sorted_set {s : SparseArrayUsize K V} {i : Nat} {v : Node K V}
    (hs : s.sorted = true) : (s.set i v).sorted = true := by
  induction s with
  | nil => simp [set, sorted, gtAll]
  | cons j w t ih =>
    have ht := sorted_cons hs
    have ha := gtAll_cons hs
    by_cases h1 : i < j
    · simp only [set, h1, ite_true, sorted, Bool.and_eq_true]
      refine ⟨?_, ha, ht⟩
      simp only [gtAll, Bool.and_eq_true, decide_eq_true_eq]
      exact ⟨h1, gtAll_of_lt h1 ha⟩
    · by_cases h2 : i = j
      · subst h2
        simp only [set, h1, ite_false, ite_true, sorted, Bool.and_eq_true]
        refine ⟨?_, ht⟩
        exact gtAll_cons hs
      · have hji : j < i := by omega
        simp only [set, h1, h2, ite_false, sorted, Bool.and_eq_true]
        exact ⟨gtAll_set ha hji, ih ht⟩

theorem sorted_remove {s : SparseArrayUsize K V} {i : Nat}
    (hs : s.sorted = true) : (s.remove i).sorted = true := by
  induction s with
  | nil => simp [remove, sorted]
  | cons j w t ih =>
    have ht := sorted_cons hs
    have ha := gtAll_cons hs
    by_cases h1 : j = i
    · simpa [remove, h1] using ht
    · simp only [remove, h1, ite_false, sorted, Bool.and_eq_true]
      exact ⟨gtAll_remove ha, ih ht⟩

theorem get_remove_self {s : SparseArrayUsize K V} {i : Nat}
    (hs : s.sorted = true) : (s.remove i).get i = none := by
  induction s with
  | nil => simp [remove, get]
  | cons j w t ih =>
    by_cases h1 : j = i
    · subst h1
      simp only [remove, ite_true]
      cases hg : t.get j with
      | none => rfl
      | some c => exact absurd (lt_of_gtAll_get (gtAll_cons hs) hg) (by omega)
    · simp [remove, get, h1, ih (sorted_cons hs)]

/-- Decomposition of the entry sequence at a present index: the entries of
the array split around the entries of the child at that index, and `set` /
`remove` replace / drop exactly that segment. -/
theorem entries_decomp {s : SparseArrayUsize K V} {i : Nat} {c : Node K V}
    (hs : s.sorted = true) (hg : s.get i = some c) (v : Node K V) :
    ∃ l1 l2, sparseEntries s = l1 ++ (nodeEntries c ++ l2) ∧
      sparseEntries (s.set i v) = l1 ++ (nodeEntries v ++ l2) ∧
      sparseEntries (s.remove i) = l1 ++ l2 := by
  induction s with
  | nil => simp [get] at hg
  | cons j w t ih =>
    by_cases h1 : j = i
    · subst h1
      simp only [get, ite_true] at hg
      cases hg
      refine ⟨[], sparseEntries t, by simp [sparseEntries], ?_, ?_⟩
      · simp [set, sparseEntries]
      · simp [remove, sparseEntries]
    · simp only [get, h1, ite_false] at hg
      obtain ⟨l1, l2, he1, he2, he3⟩ := ih (sorted_cons hs) hg
      have hji : j < i := lt_of_gtAll_get (gtAll_cons hs) hg
      have hne : ¬ i = j := by omega
      have hnlt : ¬ i < j := by omega
      refine ⟨nodeEntries w ++ l1, l2, ?_, ?_, ?_⟩
      · simp [sparseEntries, he1]
      · simp [set, hnlt, hne, sparseEntries, he2]
      · simp [remove, h1, sparseEntries, he3]

/-- Installing a child at an absent index: the new child's entries are
inserted in one block; in particular the entry sequence is a permutation of
the new block prepended to the old sequence. -/
theorem entries_set_none {s : SparseArrayUsize K V} {i : Nat} (v : Node K V)
    (hg : s.get i = none) :
    ∃ l1 l2, sparseEntries s = l1 ++ l2 ∧
      sparseEntries (s.set i v) = l1 ++ (nodeEntries v ++ l2) := by
  induction s with
  | nil => exact ⟨[], [], by simp [sparseEntries], by simp [set, sparseEntries]⟩
  | cons j w t ih =>
    simp only [get] at hg
    split at hg
    · exact absurd hg (by simp)
    · rename_i hne
      by_cases h1 : i < j
      · exact ⟨[], nodeEntries w ++ sparseEntries t, by simp [sparseEntries],
          by simp [set, h1, sparseEntries]⟩
      · obtain ⟨l1, l2, he1, he2⟩ := ih hg
        have hne2 : ¬ i = j := fun h => hne h.symm
        refine ⟨nodeEntries w ++ l1, l2, by simp [sparseEntries, he1], ?_⟩
        simp [set, h1, hne2, sparseEntries, he2]

theorem size_eq_zero_iff {s : SparseArrayUsize K V} :
    s.size = 0 ↔ s = .nil := by
  cases s <;> simp [size]

theorem sparseEntries_eq_values_flatMap (s : SparseArrayUsize K V) :
    sparseEntries s = (s.values).flatMap nodeEntries := by
  induction s with
  | nil => simp [sparseEntries, values]
  | cons j w t ih => simp [sparseEntries, values, ih]

end SparseArrayUsize

/-- A child found in the sparse array contributes its entries to the
array's entry sequence. -/
theorem mem_sparseEntries_of_get {s : SparseArrayUsize K V} {i : Nat}
    {c : Node K V} (hg : s.get i = some c) :
    ∀ x ∈ nodeEntries c, x ∈ sparseEntries s := by
  induction s with
  | nil => simp [SparseArrayUsize.get] at hg
  | cons j w t ih =>
    simp only [SparseArrayUsize.get] at hg
    intro x hx
    simp only [sparseEntries, List.mem_append]
    split at hg
    · cases hg; exact Or.inl hx
    · exact Or.inr (ih hg x hx)

mutual
/-- Simultaneous structural induction over nodes and their sparse child
arrays. -/
theorem Node.indPair {motive1 : Node K V → Prop} {motive2 : SparseArrayUsize K V → Prop}
    (hBranch : ∀ s, motive2 s → motive1 (.Branch s))
    (hLeaf : ∀ b, motive1 (.Leaf b))
    (hNil : motive2 .nil)
    (hCons : ∀ i c t, motive1 c → motive2 t → motive2 (.cons i c t)) :
    ∀ n, motive1 n
  | .Branch s =>
    hBranch s (SparseArrayUsize.indPairSparse hBranch hLeaf hNil hCons s)
  | .Leaf b => hLeaf b
/-- Simultaneous structural induction, sparse-array side. -/
theorem SparseArrayUsize.indPairSparse {motive1 : Node K V → Prop}
    {motive2 : SparseArrayUsize K V → Prop}
    (hBranch : ∀ s, motive2 s → motive1 (.Branch s))
    (hLeaf : ∀ b, motive1 (.Leaf b))
    (hNil : motive2 .nil)
    (hCons : ∀ i c t, motive1 c → motive2 t → motive2 (.cons i c t)) :
    ∀ s, motive2 s
  | .nil => hNil
  | .cons i c t =>
    hCons i c t (Node.indPair hBranch hLeaf hNil hCons c)
      (SparseArrayUsize.indPairSparse hBranch hLeaf hNil hCons t)
end

/-! ## Lemmas about `list_remove_first` and buckets -/

namespace bucket_utils

variable {α : Type}

theorem lrf_of_all_false {p : α → Bool} {l : List α}
    (h : ∀ x ∈ l, p x = false) : list_remove_first p l = (l, false) := by
  induction l with
  | nil => rfl
  | cons e t ih =>
    have he := h e (by simp)
    simp only [list_remove_first, he, Bool.false_eq_true, if_false, ite_false]
    rw [ih (fun x hx => h x (by simp [hx]))]

theorem lrf_of_found {p : α → Bool} {l1 l2 : List α} {x : α}
    (hx : p x = true) (h1 : ∀ y ∈ l1, p y = false) :
    list_remove_first p (l1 ++ x :: l2) = (l1 ++ l2, true) := by
  induction l1 with
  | nil => simp [list_remove_first, hx]
  | cons e t ih =>
    have he := h1 e (by simp)
    have ht := ih (fun y hy => h1 y (by simp [hy]))
    simp only [List.cons_append, list_remove_first, he, Bool.false_eq_true,
      ite_false]
    simp [ht]

theorem lrf_snd_eq_any (p : α → Bool) (l : List α) :
    (list_remove_first p l).2 = l.any p := by
  induction l with
  | nil => rfl
  | cons e t ih =>
    simp only [list_remove_first, List.any_cons]
    split
    · rename_i h; simp [h]
    · rename_i h
      simp only [Bool.not_eq_true] at h
      simp [h, ih]

theorem lrf_false_char {p : α → Bool} {l : List α}
    (h : (list_remove_first p l).2 = false) :
    (list_remove_first p l).1 = l ∧ ∀ x ∈ l, p x = false := by
  have hany := lrf_snd_eq_any p l
  rw [h] at hany
  have hall : ∀ x ∈ l, p x = false := by
    intro x hx
    have := List.any_eq_false.1 hany.symm x hx
    simpa using this
  exact ⟨by rw [lrf_of_all_false hall], hall⟩

theorem lrf_true_char {p : α → Bool} {l : List α}
    (h : (list_remove_first p l).2 = true) :
    ∃ l1 x l2, l = l1 ++ x :: l2 ∧ p x = true ∧ (∀ y ∈ l1, p y = false) ∧
      (list_remove_first p l).1 = l1 ++ l2 := by
  induction l with
  | nil => simp [list_remove_first] at h
  | cons e t ih =>
    by_cases he : p e = true
    · exact ⟨[], e, t, by simp, he, by simp, by simp [list_remove_first, he]⟩
    · simp only [Bool.not_eq_true] at he
      simp only [list_remove_first, he, Bool.false_eq_true, ite_false] at h
      obtain ⟨l1, x, l2, hl, hx, h1, hres⟩ := ih h
      refine ⟨e :: l1, x, l2, by simp [hl], hx, ?_, ?_⟩
      · intro y hy
        rcases List.mem_cons.1 hy with hy | hy
        · subst hy; exact he
        · exact h1 y hy
      · simp [list_remove_first, he, hres]

end bucket_utils

/-! ## Basic facts about matching, buckets and `Node.get` -/

section Matching

variable [DecidableEq K]

theorem matches_iff {e : EntryWithHash K V} {k : K} {kh : Nat} :
    e.matches k kh = true ↔ e.keyHash = kh ∧ e.key = k := by
  simp [EntryWithHash.matches]

theorem matches_self (e : EntryWithHash K V) : e.matches e.key e.keyHash = true := by
  simp [EntryWithHash.matches]

theorem distinct_unique {es : List (EntryWithHash K V)}
    (hd : distinctKeys es = true) {x y : EntryWithHash K V}
    (hx : x ∈ es) (hy : y ∈ es) (hk : x.key = y.key) : x = y := by
  induction es with
  | nil => simp at hx
  | cons e t ih =>
    simp only [distinctKeys, Bool.and_eq_true, List.all_eq_true] at hd
    rcases List.mem_cons.1 hx with hx1 | hx1
    · rcases List.mem_cons.1 hy with hy1 | hy1
      · rw [hx1, hy1]
      · exfalso
        have hne := hd.1 y hy1
        rw [hx1] at hk
        simp [hk] at hne
    · rcases List.mem_cons.1 hy with hy1 | hy1
      · exfalso
        have hne := hd.1 x hx1
        rw [hy1] at hk
        simp [hk] at hne
      · exact ih hd.2 hx1 hy1

/-- What a successful bucket lookup returns: a stored entry that matches. -/
theorem bucket_get_some {b : Bucket K V} {k : K} {kh : Nat} {e : EntryWithHash K V}
    (h : b.get k kh = some e) :
    e ∈ nodeEntries (Node.Leaf b) ∧ e.keyHash = kh ∧ e.key = k := by
  cases b with
  | Single e0 =>
    simp only [Bucket.get] at h
    split at h
    · rename_i hm
      cases h
      exact ⟨by simp [nodeEntries], (matches_iff.1 hm).1, (matches_iff.1 hm).2⟩
    · cases h
  | Collision es =>
    simp only [Bucket.get] at h
    have hmem := List.mem_of_find?_eq_some h
    have hp := List.find?_some h
    exact ⟨by simpa [nodeEntries] using hmem, (matches_iff.1 hp).1, (matches_iff.1 hp).2⟩

/-- Bucket lookup succeeds on a stored entry's own key and hash, and (when
the keys in the bucket are pairwise distinct) returns exactly that entry. -/
theorem bucket_get_of_mem {b : Bucket K V} {e : EntryWithHash K V}
    (hmem : e ∈ nodeEntries (Node.Leaf b))
    (hd : distinctKeys (nodeEntries (Node.Leaf b)) = true) :
    b.get e.key e.keyHash = some e := by
  cases b with
  | Single e0 =>
    simp only [nodeEntries, List.mem_singleton] at hmem
    subst hmem
    simp [Bucket.get, matches_self]
  | Collision es =>
    simp only [nodeEntries] at hmem hd
    simp only [Bucket.get]
    cases hf : es.find? (fun x => x.matches e.key e.keyHash) with
    | none =>
      have := List.find?_eq_none.1 hf e hmem
      simp [matches_self] at this
    | some x =>
      have hxmem := List.mem_of_find?_eq_some hf
      have hp := List.find?_some hf
      have hx := matches_iff.1 hp
      rw [distinct_unique hd hxmem hmem hx.2]

end Matching

namespace Node

variable [DecidableEq K]

omit [DecidableEq K] in
/-- Strong induction on the size of a node. -/
theorem strongInd {motive : Node K V → Prop}
    (h : ∀ n, (∀ m : Node K V, sizeOf m < sizeOf n → motive m) → motive n) :
    ∀ n, motive n := by
  intro n
  have H : ∀ (N : Nat) (m : Node K V), sizeOf m < N → motive m := by
    intro N
    induction N with
    | zero => intro m hm; omega
    | succ N ih => intro m hm; exact h m (fun m2 hm2 => ih m2 (by omega))
  exact H (sizeOf n + 1) n (by omega)

/-- `branchGet` is child lookup followed by recursion. -/
theorem branchGet_eq (key : K) (key_hash degree : Nat)
    (s : SparseArrayUsize K V) (i depth : Nat) :
    branchGet key key_hash degree s i depth =
      (s.get i).bind (fun c => get key key_hash degree c (depth + 1)) := by
  induction s with
  | nil => rfl
  | cons j c t ih =>
    simp only [branchGet, SparseArrayUsize.get]
    split
    · simp
    · simpa using ih

/-- Unfolding of `get` on a branch, in lookup-then-recurse form. -/
theorem get_branch (key : K) (key_hash degree : Nat)
    (s : SparseArrayUsize K V) (depth : Nat) :
    get key key_hash degree (.Branch s) depth =
      match index_from_hash key_hash depth degree with
      | none => none
      | some i => (s.get i).bind (fun c => get key key_hash degree c (depth + 1)) := by
  simp only [get]
  cases index_from_hash key_hash depth degree with
  | none => rfl
  | some i => simp [branchGet_eq]

/-- Unfolding of `get` on a branch when the digit is defined. -/
theorem get_branch_some {key : K} {key_hash degree : Nat}
    {s : SparseArrayUsize K V} {depth j : Nat}
    (hq : index_from_hash key_hash depth degree = some j) :
    get key key_hash degree (.Branch s) depth =
      (s.get j).bind (fun c => get key key_hash degree c (depth + 1)) := by
  rw [Node.get_branch, hq]

/-- What a successful lookup returns: a stored entry that matches the
searched key and hash (no well-formedness needed). -/
theorem get_some {degree : Nat} :
    ∀ (n : Node K V) {k : K} {kh depth : Nat} {e : EntryWithHash K V},
      get k kh degree n depth = some e →
      e ∈ nodeEntries n ∧ e.keyHash = kh ∧ e.key = k := by
  refine strongInd ?_
  intro n IH k kh depth e hget
  cases n with
  | Leaf b =>
    exact bucket_get_some hget
  | Branch s =>
    rw [get_branch] at hget
    split at hget
    · cases hget
    · rename_i i hidx
      cases hsg : s.get i with
      | none => rw [hsg] at hget; cases hget
      | some c =>
        rw [hsg] at hget
        simp only [Option.some_bind] at hget
        have hrec := IH c (by have := sizeOf_get hsg; simp; omega) hget
        exact ⟨mem_sparseEntries_of_get hsg e hrec.1, hrec.2⟩

end Node

/-! ## Extraction lemmas for the well-formedness predicate -/

section WfLemmas

variable [DecidableEq K] {hasher : K → Nat} {degree : Nat}

/-- The facts `subtreesWf` records about a child found by `get`. -/
theorem subtreesWf_get {s : SparseArrayUsize K V} {depth i : Nat} {c : Node K V}
    (hw : subtreesWf hasher degree s depth = true) (hg : s.get i = some c) :
    i < degree ∧ c.is_empty = false ∧
      (∀ x ∈ nodeEntries c, index_from_hash x.keyHash depth degree = some i) ∧
      (∀ s2, c = Node.Branch s2 → 2 ≤ (nodeEntries c).length) ∧
      nodeWf hasher degree c (depth + 1) := by
  induction s with
  | nil => simp [SparseArrayUsize.get] at hg
  | cons j w t ih =>
    simp only [subtreesWf, Bool.and_eq_true, decide_eq_true_eq,
      Bool.not_eq_true', List.all_eq_true] at hw
    obtain ⟨⟨⟨⟨⟨hidx, hemp⟩, hdig⟩, hmin⟩, hwf⟩, hrest⟩ := hw
    simp only [SparseArrayUsize.get] at hg
    split at hg
    · rename_i hj
      cases hg
      subst hj
      refine ⟨hidx, hemp, ?_, ?_, hwf⟩
      · intro x hx
        have := hdig x hx
        simpa using this
      · intro s2 hc
        subst hc
        simpa using hmin
    · exact ih hrest hg

/-- Every entry below a sorted array is stored below some present index. -/
theorem sparse_mem_exists {s : SparseArrayUsize K V}
    (hs : s.sorted = true) {x : EntryWithHash K V} (hx : x ∈ sparseEntries s) :
    ∃ i c, s.get i = some c ∧ x ∈ nodeEntries c := by
  induction s with
  | nil => simp [sparseEntries] at hx
  | cons j w t ih =>
    simp only [sparseEntries, List.mem_append] at hx
    rcases hx with hx | hx
    · exact ⟨j, w, by simp [SparseArrayUsize.get], hx⟩
    · obtain ⟨i, c, hg, hm⟩ := ih (SparseArrayUsize.sorted_cons hs) hx
      have hlt := SparseArrayUsize.lt_of_gtAll_get (SparseArrayUsize.gtAll_cons hs) hg
      refine ⟨i, c, ?_, hm⟩
      simp only [SparseArrayUsize.get]
      rw [if_neg (by omega : ¬ j = i)]
      exact hg

/-- Entries below an array all of whose indices exceed `i` have digits
exceeding `i` at this depth. -/
theorem entry_digit_gtAll {t : SparseArrayUsize K V} {depth i : Nat}
    (ha : t.gtAll i = true) (hw : subtreesWf hasher degree t depth = true)
    {y : EntryWithHash K V} (hy : y ∈ sparseEntries t) :
    ∃ j, i < j ∧ index_from_hash y.keyHash depth degree = some j := by
  induction t with
  | nil => simp [sparseEntries] at hy
  | cons j2 c2 t2 ih =>
    simp only [SparseArrayUsize.gtAll, Bool.and_eq_true, decide_eq_true_eq] at ha
    simp only [subtreesWf, Bool.and_eq_true, decide_eq_true_eq,
      List.all_eq_true] at hw
    obtain ⟨⟨⟨⟨⟨_, _⟩, hdig⟩, _⟩, _⟩, hrest⟩ := hw
    simp only [sparseEntries, List.mem_append] at hy
    rcases hy with hy | hy
    · refine ⟨j2, ha.1, ?_⟩
      have := hdig y hy
      simpa using this
    · exact ih ha.2 hrest hy

/-- All entries of a well-formed node are structurally valid. -/
theorem wf_entry_all {n : Node K V} {depth : Nat}
    (hw : nodeWf hasher degree n depth = true) :
    ∀ x ∈ nodeEntries n, entryWf hasher x = true := by
  induction n using Node.strongInd generalizing depth with
  | _ n IH =>
  cases n with
  | Leaf b =>
    cases b with
    | Single e =>
      intro x hx
      simp only [nodeEntries, List.mem_singleton] at hx
      subst hx
      simpa [nodeWf] using hw
    | Collision es =>
      intro x hx
      simp only [nodeWf, Bool.and_eq_true, List.all_eq_true] at hw
      obtain ⟨⟨⟨⟨hnone, hlen⟩, hall⟩, hsame⟩, hdist⟩ := hw
      exact hall x (by simpa [nodeEntries] using hx)
  | Branch s =>
    intro x hx
    simp only [nodeWf, Bool.and_eq_true] at hw
    obtain ⟨⟨_, hsort⟩, hsub⟩ := hw
    obtain ⟨i, c, hg, hm⟩ := sparse_mem_exists hsort (by simpa [nodeEntries] using hx)
    obtain ⟨_, _, _, _, hcwf⟩ := subtreesWf_get hsub hg
    have hsz : sizeOf c < sizeOf (Node.Branch s) := by
      have := Node.sizeOf_get hg; simp; omega
    exact IH c hsz hcwf x hm

theorem distinctKeys_iff_pairwise {es : List (EntryWithHash K V)} :
    distinctKeys es = true ↔ es.Pairwise (fun a b => a.key ≠ b.key) := by
  induction es with
  | nil => simp [distinctKeys]
  | cons e t ih =>
    simp only [distinctKeys, Bool.and_eq_true, List.all_eq_true,
      List.pairwise_cons, ih]
    constructor
    · rintro ⟨h1, h2⟩
      refine ⟨fun b hb => ?_, h2⟩
      have := h1 b hb
      simp only [Bool.not_eq_true', beq_eq_false_iff_ne, ne_eq] at this
      exact fun h => this h.symm
    · rintro ⟨h1, h2⟩
      refine ⟨fun b hb => ?_, h2⟩
      have := h1 b hb
      simp only [Bool.not_eq_true', beq_eq_false_iff_ne, ne_eq]
      exact fun h => this h.symm

/-- The keys stored in a well-formed node are pairwise distinct. -/
theorem wf_keys_pairwise {n : Node K V} {depth : Nat}
    (hw : nodeWf hasher degree n depth = true) :
    (nodeEntries n).Pairwise (fun a b => a.key ≠ b.key) := by
  induction n using Node.strongInd generalizing depth with
  | _ n IH =>
  cases n with
  | Leaf b =>
    cases b with
    | Single e => simp [nodeEntries]
    | Collision es =>
      simp only [nodeWf, Bool.and_eq_true] at hw
      exact distinctKeys_iff_pairwise.1 hw.2
  | Branch s =>
    simp only [nodeWf, Bool.and_eq_true] at hw
    obtain ⟨⟨_, hsort⟩, hsub⟩ := hw
    show (sparseEntries s).Pairwise _
    have inner : ∀ (t : SparseArrayUsize K V), t.sorted = true →
        subtreesWf hasher degree t depth = true →
        (∀ m : Node K V, sizeOf m < sizeOf t + 1 →
          nodeWf hasher degree m (depth + 1) = true →
          (nodeEntries m).Pairwise (fun a b => a.key ≠ b.key)) →
        (sparseEntries t).Pairwise (fun a b => a.key ≠ b.key) := by
      intro t
      induction t with
      | nil => intro _ _ _; simp [sparseEntries]
      | cons j c t2 iht =>
        intro hsort2 hsub2 IH2
        simp only [subtreesWf, Bool.and_eq_true, decide_eq_true_eq,
          List.all_eq_true] at hsub2
        obtain ⟨⟨⟨⟨⟨hjlt, hemp⟩, hdig⟩, hmin⟩, hcwf⟩, hrest⟩ := hsub2
        have hcpair := IH2 c (by simp; omega) hcwf
        have htpair := iht (SparseArrayUsize.sorted_cons hsort2) hrest
          (fun m hm h => IH2 m (by simp at hm ⊢; omega) h)
        simp only [sparseEntries]
        rw [List.pairwise_append]
        refine ⟨hcpair, htpair, ?_⟩
        intro x hx y hy
        have hxd := hdig x hx
        obtain ⟨j2, hj2, hyd⟩ :=
          entry_digit_gtAll (SparseArrayUsize.gtAll_cons hsort2) hrest hy
        -- distinct digits at this depth force distinct hashes, hence
        -- distinct keys (hashes are computed from keys)
        have hxd2 : index_from_hash x.keyHash depth degree = some j := by
          simpa using hxd
        intro hkeq
        have hxe : entryWf hasher x = true := wf_entry_all hcwf x hx
        have hye : entryWf hasher y = true := by
          obtain ⟨i2, c2, hg2, hm2⟩ :=
            sparse_mem_exists (SparseArrayUsize.sorted_cons hsort2) hy
          obtain ⟨_, _, _, _, hc2wf⟩ := subtreesWf_get hrest hg2
          exact wf_entry_all hc2wf y hm2
        simp only [entryWf, Bool.and_eq_true, beq_iff_eq] at hxe hye
        have hhash : x.keyHash = y.keyHash := by
          rw [hxe.1, hye.1, hkeq]
        rw [hhash, hyd] at hxd2
        cases hxd2
        omega
    exact inner s hsort hsub (fun m hm h => IH m (by simp; omega) h)

/-- Lookup completeness: a stored entry is found by `get` under its own key
and cached hash, and the entry returned is that entry itself. -/
theorem mem_get {n : Node K V} {depth : Nat}
    (hw : nodeWf hasher degree n depth = true) {e : EntryWithHash K V}
    (hmem : e ∈ nodeEntries n) :
    Node.get e.key e.keyHash degree n depth = some e := by
  induction n using Node.strongInd generalizing depth with
  | _ n IH =>
  cases n with
  | Leaf b =>
    have hd : distinctKeys (nodeEntries (Node.Leaf b)) = true := by
      cases b with
      | Single e0 => simp [nodeEntries, distinctKeys]
      | Collision es =>
        simp only [nodeWf, Bool.and_eq_true] at hw
        exact hw.2
    exact bucket_get_of_mem hmem hd
  | Branch s =>
    simp only [nodeWf, Bool.and_eq_true] at hw
    obtain ⟨⟨_, hsort⟩, hsub⟩ := hw
    obtain ⟨i, c, hg, hm⟩ := sparse_mem_exists hsort (by simpa [nodeEntries] using hmem)
    obtain ⟨_, _, hdig, _, hcwf⟩ := subtreesWf_get hsub hg
    rw [Node.get_branch, hdig e hm]
    simp only [hg, Option.some_bind]
    exact IH c (by have := Node.sizeOf_get hg; simp; omega) hcwf hm

/-- Map-level lookup characterization for well-formed maps: `get` returns
`some v` exactly when an entry with that key and value is stored. -/
theorem map_get_iff {m : HashTrieMap K V} (hw : mapWf m = true) {k : K} {v : V} :
    m.get k = some v ↔ ∃ e ∈ m.entriesList, e.key = k ∧ e.value = v := by
  simp only [mapWf, Bool.and_eq_true, beq_iff_eq] at hw
  obtain ⟨⟨hdeg, hnwf⟩, hsize⟩ := hw
  constructor
  · intro h
    simp only [HashTrieMap.get, Option.map_eq_some'] at h
    obtain ⟨e, he, hev⟩ := h
    have := Node.get_some _ he
    exact ⟨e, this.1, this.2.2, hev⟩
  · rintro ⟨e, hmem, hkey, hval⟩
    have hewf : entryWf m.hasher_builder e = true := wf_entry_all hnwf e hmem
    simp only [entryWf, Bool.and_eq_true, beq_iff_eq] at hewf
    have hget := mem_get hnwf hmem
    simp only [HashTrieMap.get]
    rw [show node_hash m.hasher_builder k = e.keyHash by
      rw [node_hash, ← hkey, hewf.1]]
    rw [← hkey, hget]
    simp [hval]

/-- Key-set characterization: `contains_key` holds exactly for the stored
keys. -/
theorem map_contains_iff {m : HashTrieMap K V} (hw : mapWf m = true) {k : K} :
    m.contains_key k = true ↔ ∃ e ∈ m.entriesList, e.key = k := by
  simp only [HashTrieMap.contains_key, Option.isSome_iff_exists]
  constructor
  · rintro ⟨v, hv⟩
    obtain ⟨e, hmem, hk, _⟩ := (map_get_iff hw).1 hv
    exact ⟨e, hmem, hk⟩
  · rintro ⟨e, hmem, hk⟩
    exact ⟨e.value, (map_get_iff hw).2 ⟨e, hmem, hk, rfl⟩⟩

/-- A well-formed non-empty node stores at least one entry. -/
theorem wf_nonempty_entries {n : Node K V} {depth : Nat}
    (hw : nodeWf hasher degree n depth = true) (hne : n.is_empty = false) :
    nodeEntries n ≠ [] := by
  induction n using Node.strongInd generalizing depth with
  | _ n IH =>
  cases n with
  | Leaf b =>
    cases b with
    | Single e => simp [nodeEntries]
    | Collision es =>
      simp only [nodeWf, Bool.and_eq_true] at hw
      obtain ⟨⟨⟨⟨_, hlen⟩, _⟩, _⟩, _⟩ := hw
      simp only [decide_eq_true_eq] at hlen
      simp only [nodeEntries]
      intro h
      rw [h] at hlen
      simp at hlen
  | Branch s =>
    cases s with
    | nil => simp [Node.is_empty, SparseArrayUsize.size] at hne
    | cons j c t =>
      simp only [nodeWf, Bool.and_eq_true] at hw
      obtain ⟨_, hsub⟩ := hw
      simp only [subtreesWf, Bool.and_eq_true] at hsub
      obtain ⟨⟨⟨⟨⟨_, hemp⟩, _⟩, _⟩, hcwf⟩, _⟩ := hsub
      simp only [Bool.not_eq_true'] at hemp
      have hc := IH c (by simp; omega) hcwf hemp
      simp only [nodeEntries, sparseEntries]
      intro h
      exact hc (List.append_eq_nil.1 h).1

/-- A node with a stored entry is non-empty. -/
theorem is_empty_false_of_entries {n : Node K V}
    (h : nodeEntries n ≠ []) : n.is_empty = false := by
  cases n with
  | Leaf b => cases b <;> simp [Node.is_empty]
  | Branch s =>
    cases s with
    | nil => simp [nodeEntries, sparseEntries] at h
    | cons j c t => simp [Node.is_empty, SparseArrayUsize.size]

/-- Updating (or installing) a child that satisfies all per-child conditions
preserves `subtreesWf`; no sortedness is needed. -/
theorem subtreesWf_set {s : SparseArrayUsize K V} {depth i : Nat} {c2 : Node K V}
    (hw : subtreesWf hasher degree s depth = true)
    (hi : i < degree) (hne : c2.is_empty = false)
    (hdig : ∀ x ∈ nodeEntries c2, index_from_hash x.keyHash depth degree = some i)
    (hmin : ∀ s2, c2 = Node.Branch s2 → 2 ≤ (nodeEntries c2).length)
    (hcwf : nodeWf hasher degree c2 (depth + 1) = true) :
    subtreesWf hasher degree (s.set i c2) depth = true := by
  induction s with
  | nil =>
    simp only [SparseArrayUsize.set, subtreesWf, Bool.and_eq_true]
    refine ⟨⟨⟨⟨⟨by simpa using hi, by simpa using hne⟩, ?_⟩, ?_⟩, hcwf⟩, trivial⟩
    · simp only [List.all_eq_true]
      intro x hx
      simpa using hdig x hx
    · cases c2 with
      | Branch s2 => simpa using hmin s2 rfl
      | Leaf b => simp
  | cons j w t ih =>
    by_cases h1 : i < j
    · simp only [subtreesWf, Bool.and_eq_true] at hw
      simp only [SparseArrayUsize.set, h1, ite_true, subtreesWf, Bool.and_eq_true]
      refine ⟨⟨⟨⟨⟨by simpa using hi, by simpa using hne⟩, ?_⟩, ?_⟩, hcwf⟩, hw⟩
      · simp only [List.all_eq_true]
        intro x hx
        simpa using hdig x hx
      · cases c2 with
        | Branch s2 => simpa using hmin s2 rfl
        | Leaf b => simp
    · simp only [subtreesWf, Bool.and_eq_true] at hw
      obtain ⟨⟨⟨⟨⟨hjlt, hemp⟩, hdig0⟩, hmin0⟩, hcwf0⟩, hrest⟩ := hw
      by_cases h2 : i = j
      · subst h2
        simp only [SparseArrayUsize.set, h1, ite_false, ite_true, subtreesWf,
          Bool.and_eq_true]
        refine ⟨⟨⟨⟨⟨hjlt, by simpa using hne⟩, ?_⟩, ?_⟩, hcwf⟩, hrest⟩
        · simp only [List.all_eq_true]
          intro x hx
          simpa using hdig x hx
        · cases c2 with
          | Branch s2 => simpa using hmin s2 rfl
          | Leaf b => simp
      · simp only [SparseArrayUsize.set, h1, h2, ite_false, subtreesWf,
          Bool.and_eq_true]
        exact ⟨⟨⟨⟨⟨hjlt, hemp⟩, hdig0⟩, hmin0⟩, hcwf0⟩, ih hrest⟩

/-- Dropping a child preserves `subtreesWf`. -/
theorem subtreesWf_remove {s : SparseArrayUsize K V} {depth i : Nat}
    (hw : subtreesWf hasher degree s depth = true) :
    subtreesWf hasher degree (s.remove i) depth = true := by
  induction s with
  | nil => simpa [SparseArrayUsize.remove] using hw
  | cons j w t ih =>
    simp only [subtreesWf, Bool.and_eq_true] at hw
    obtain ⟨hhead, hrest⟩ := hw
    by_cases h1 : j = i
    · simpa [SparseArrayUsize.remove, h1] using hrest
    · simp only [SparseArrayUsize.remove, h1, ite_false, subtreesWf,
        Bool.and_eq_true]
      exact ⟨hhead, ih hrest⟩

/-- `sameHash` as a pairwise statement. -/
theorem sameHash_iff {es : List (EntryWithHash K V)} :
    sameHash es = true ↔ ∀ x ∈ es, ∀ y ∈ es, x.keyHash = y.keyHash := by
  cases es with
  | nil => simp [sameHash]
  | cons e t =>
    simp only [sameHash, List.all_eq_true, beq_iff_eq]
    constructor
    · intro h x hx y hy
      have hx2 : x.keyHash = e.keyHash := by
        rcases List.mem_cons.1 hx with h1 | h1
        · rw [h1]
        · exact h x h1
      have hy2 : y.keyHash = e.keyHash := by
        rcases List.mem_cons.1 hy with h1 | h1
        · rw [h1]
        · exact h y h1
      rw [hx2, hy2]
    · intro h x hx
      exact h x (by simp [hx]) e (by simp)

/-- `distinctKeys` as a pairwise statement lets it transfer along sublists. -/
theorem distinctKeys_sublist {es es2 : List (EntryWithHash K V)}
    (hsub : es2.Sublist es) (hd : distinctKeys es = true) :
    distinctKeys es2 = true :=
  distinctKeys_iff_pairwise.2 ((distinctKeys_iff_pairwise.1 hd).sublist hsub)

/-- `find?` skips an element on which the predicate fails. -/
theorem find?_middle_false {α : Type} {p : α → Bool} {x : α}
    (hx : p x = false) (l1 l2 : List α) :
    (l1 ++ x :: l2).find? p = (l1 ++ l2).find? p := by
  induction l1 with
  | nil => simp [List.find?_cons, hx]
  | cons e t ih =>
    simp only [List.cons_append, List.find?_cons]
    split
    · rfl
    · exact ih

/-- At maximum depth the whole hash is pinned by the digits along the path:
two valid entries whose digits agree at every shallower depth share their
hash. -/
theorem hash_eq_at_max {degree : Nat} (hdeg : degreeWf degree = true)
    (hb : 0 < u8TrailingZeros degree) {x e : EntryWithHash K V} {depth : Nat}
    (hx : x.keyHash < 2 ^ 64) (he : e.keyHash < 2 ^ 64)
    (hmax : 64 ≤ depth * u8TrailingZeros degree)
    (hagree : ∀ t, t < depth →
      index_from_hash x.keyHash t degree = index_from_hash e.keyHash t degree) :
    x.keyHash = e.keyHash := by
  apply hash_eq_of_digits_eq hb hx he
  intro t ht
  have htd : t < depth := by
    by_contra hc
    push_neg at hc
    have : depth * u8TrailingZeros degree ≤ t * u8TrailingZeros degree :=
      Nat.mul_le_mul_right _ hc
    omega
  have := hagree t htd
  rw [index_from_hash_eq_mod hdeg ht, index_from_hash_eq_mod hdeg ht] at this
  exact Option.some_injective _ this

end WfLemmas

/-! ## Step lemmas: how `Node.insert` unfolds in each situation -/

section InsertSteps

variable [DecidableEq K] {degree : Nat} (hb : 0 < u8TrailingZeros degree)

theorem insert_branch_child {subtrees : SparseArrayUsize K V}
    {entry : EntryWithHash K V} {depth ie : Nat} {subtree : Node K V}
    (hidx : index_from_hash entry.keyHash depth degree = some ie)
    (hsg : subtrees.get ie = some subtree) :
    Node.insert degree hb (.Branch subtrees) entry depth =
      (.Branch (subtrees.set ie (Node.insert degree hb subtree entry (depth + 1)).1),
        (Node.insert degree hb subtree entry (depth + 1)).2) := by
  conv_lhs => rw [Node.insert]
  split
  all_goals rename_i heq
  all_goals simp only [hidx, Option.some.injEq] at heq
  all_goals first
    | exact Option.noConfusion heq
    | (subst heq; simp only [hsg])

theorem insert_branch_new {subtrees : SparseArrayUsize K V}
    {entry : EntryWithHash K V} {depth ie : Nat}
    (hidx : index_from_hash entry.keyHash depth degree = some ie)
    (hsg : subtrees.get ie = none) :
    Node.insert degree hb (.Branch subtrees) entry depth =
      (.Branch (subtrees.set ie (.Leaf (.Single entry))), true) := by
  conv_lhs => rw [Node.insert]
  split
  all_goals rename_i heq
  all_goals simp only [hidx, Option.some.injEq] at heq
  all_goals first
    | exact Option.noConfusion heq
    | (subst heq; simp only [hsg])

theorem insert_leaf_single_max {e0 entry : EntryWithHash K V} {depth : Nat}
    (hidx : index_from_hash entry.keyHash depth degree = none) :
    Node.insert degree hb (.Leaf (.Single e0)) entry depth =
      (.Leaf ((Bucket.Single e0).insert entry).1,
        ((Bucket.Single e0).insert entry).2) := by
  conv_lhs => rw [Node.insert]
  split
  all_goals rename_i heq
  all_goals simp only [hidx] at heq
  all_goals first
    | exact Option.noConfusion heq
    | rfl

theorem insert_leaf_collision_max {es : List (EntryWithHash K V)}
    {entry : EntryWithHash K V} {depth : Nat}
    (hidx : index_from_hash entry.keyHash depth degree = none) :
    Node.insert degree hb (.Leaf (.Collision es)) entry depth =
      (.Leaf ((Bucket.Collision es).insert entry).1,
        ((Bucket.Collision es).insert entry).2) := by
  conv_lhs => rw [Node.insert]
  split
  all_goals rename_i heq
  all_goals simp only [hidx] at heq
  all_goals first
    | exact Option.noConfusion heq
    | rfl

theorem insert_leaf_single_contains {e0 entry : EntryWithHash K V} {depth : Nat}
    (hc : (Bucket.Single e0).contains_key entry.key entry.keyHash = true) :
    Node.insert degree hb (.Leaf (.Single e0)) entry depth =
      (.Leaf ((Bucket.Single e0).insert entry).1,
        ((Bucket.Single e0).insert entry).2) := by
  conv_lhs => rw [Node.insert]
  split
  all_goals (try rw [if_pos hc])
  all_goals rfl

theorem insert_leaf_collision_contains {es : List (EntryWithHash K V)}
    {entry : EntryWithHash K V} {depth : Nat}
    (hc : (Bucket.Collision es).contains_key entry.key entry.keyHash = true) :
    Node.insert degree hb (.Leaf (.Collision es)) entry depth =
      (.Leaf ((Bucket.Collision es).insert entry).1,
        ((Bucket.Collision es).insert entry).2) := by
  conv_lhs => rw [Node.insert]
  split
  all_goals (try rw [if_pos hc])
  all_goals rfl

/-- Inserting into an empty branch installs a single-entry leaf at the
entry's digit. -/
theorem insert_empty_branch {old : EntryWithHash K V} {depth i0 : Nat}
    (hidx : index_from_hash old.keyHash depth degree = some i0) :
    Node.insert degree hb Node.new_empty_branch old depth =
      (.Branch (.cons i0 (.Leaf (.Single old)) .nil), true) := by
  rw [Node.new_empty_branch, insert_branch_new hb hidx (by rfl)]
  rfl

theorem insert_leaf_collision_nonmax {es : List (EntryWithHash K V)}
    {entry : EntryWithHash K V} {depth ie : Nat}
    (hidx : index_from_hash entry.keyHash depth degree = some ie)
    (hc : (Bucket.Collision es).contains_key entry.key entry.keyHash = false) :
    Node.insert degree hb (.Leaf (.Collision es)) entry depth =
      (.Leaf (.Collision es), true) := by
  have hcn : ¬ ((Bucket.Collision es).contains_key entry.key entry.keyHash = true) := by
    simp [hc]
  conv_lhs => rw [Node.insert]
  split
  all_goals rename_i heq
  all_goals simp only [hidx, Option.some.injEq] at heq
  all_goals first
    | exact Option.noConfusion heq
    | (rw [if_neg hcn])

theorem insert_leaf_single_diverge {e0 entry : EntryWithHash K V} {depth ie i0 : Nat}
    (hidx : index_from_hash entry.keyHash depth degree = some ie)
    (hidx0 : index_from_hash e0.keyHash depth degree = some i0)
    (hc : (Bucket.Single e0).contains_key entry.key entry.keyHash = false) :
    Node.insert degree hb (.Leaf (.Single e0)) entry depth =
      ((Node.insert degree hb
          (.Branch (.cons i0 (.Leaf (.Single e0)) .nil)) entry depth).1, true) := by
  have hcn : ¬ ((Bucket.Single e0).contains_key entry.key entry.keyHash = true) := by
    simp [hc]
  conv_lhs => rw [Node.insert]
  split
  all_goals rename_i heq
  all_goals simp only [hidx, Option.some.injEq] at heq
  all_goals first
    | exact Option.noConfusion heq
    | (rw [if_neg hcn, insert_empty_branch hb hidx0])

end InsertSteps

/-! ## Lemmas about `Node.compress` and step lemmas for `Node.remove` -/

section CompressRemove

variable [DecidableEq K] {hasher : K → Nat} {degree : Nat}

omit [DecidableEq K] in
theorem compress_entries : ∀ n : Node K V,
    nodeEntries (Node.compress n) = nodeEntries n
  | .Leaf _ => rfl
  | .Branch .nil => rfl
  | .Branch (.cons i c .nil) => by
    cases c with
    | Leaf b =>
      cases b with
      | Single e => simp [Node.compress, nodeEntries, sparseEntries]
      | Collision es => rfl
    | Branch s2 => rfl
  | .Branch (.cons i c (.cons j d t)) => rfl

omit [DecidableEq K] in
theorem compress_is_empty : ∀ n : Node K V,
    (Node.compress n).is_empty = n.is_empty
  | .Leaf _ => rfl
  | .Branch .nil => rfl
  | .Branch (.cons i c .nil) => by
    cases c with
    | Leaf b =>
      cases b with
      | Single e => simp [Node.compress, Node.is_empty, SparseArrayUsize.size]
      | Collision es => rfl
    | Branch s2 => rfl
  | .Branch (.cons i c (.cons j d t)) => rfl

theorem compress_wf {n : Node K V} {depth : Nat}
    (hw : nodeWf hasher degree n depth = true) :
    nodeWf hasher degree (Node.compress n) depth = true := by
  match n with
  | .Leaf _ => exact hw
  | .Branch .nil => exact hw
  | .Branch (.cons i c (.cons j d t)) => exact hw
  | .Branch (.cons i c .nil) =>
    cases c with
    | Branch s2 => exact hw
    | Leaf b =>
      cases b with
      | Collision es => exact hw
      | Single e =>
        simp only [Node.compress]
        simp only [nodeWf, Bool.and_eq_true] at hw
        obtain ⟨_, hsub⟩ := hw
        simp only [subtreesWf, Bool.and_eq_true] at hsub
        exact hsub.1.2

theorem compress_get {n : Node K V} {depth : Nat}
    (hw : nodeWf hasher degree n depth = true) (q : K) (qh : Nat) :
    Node.get q qh degree (Node.compress n) depth =
      Node.get q qh degree n depth := by
  match n with
  | .Leaf _ => rfl
  | .Branch .nil => rfl
  | .Branch (.cons i c (.cons j d t)) => rfl
  | .Branch (.cons i c .nil) =>
    cases c with
    | Branch s2 => rfl
    | Leaf b =>
      cases b with
      | Collision es => rfl
      | Single e =>
        simp only [Node.compress]
        simp only [nodeWf, Bool.and_eq_true] at hw
        obtain ⟨⟨hiso, _⟩, hsub⟩ := hw
        simp only [subtreesWf, Bool.and_eq_true, List.all_eq_true] at hsub
        have hdig : index_from_hash e.keyHash depth degree = some i := by
          have := hsub.1.1.1.2 e (by simp [nodeEntries])
          simpa using this
        have hlt : depth * u8TrailingZeros degree < 64 := by
          rcases ho : index_from_hash 0 depth degree with _ | v
          · rw [ho] at hiso; cases hiso
          · exact (index_from_hash_eq_some.1 ho).1
        have hq : index_from_hash qh depth degree =
            some ((qh >>> (depth * u8TrailingZeros degree)) &&& (degree - 1)) :=
          index_from_hash_eq_some.2 ⟨hlt, rfl⟩
        rw [Node.get_branch, hq]
        by_cases hm : e.matches q qh = true
        · have hqh : qh = e.keyHash := (matches_iff.1 hm).1.symm
          subst hqh
          have heqd : (e.keyHash >>> (depth * u8TrailingZeros degree)) &&&
              (degree - 1) = i :=
            ((index_from_hash_eq_some.1 hdig).2).symm
          rw [heqd]
          simp [SparseArrayUsize.get, Node.get, Bucket.get, hm]
        · by_cases hj : i = (qh >>> (depth * u8TrailingZeros degree)) &&& (degree - 1)
          · simp [SparseArrayUsize.get, hj, Node.get, Bucket.get, hm]
          · simp [SparseArrayUsize.get, hj, Node.get, Bucket.get, hm]

/-- Compression of a well-formed branch leaves either a leaf or a branch
with at least two reachable entries (or an empty branch). -/
theorem compress_branch_min2 {s : SparseArrayUsize K V} {depth : Nat}
    (hw : nodeWf hasher degree (.Branch s) depth = true)
    (hne : (Node.compress (.Branch s)).is_empty = false) :
    ∀ s2, Node.compress (Node.Branch s) = Node.Branch s2 →
      2 ≤ (nodeEntries (Node.compress (Node.Branch s))).length := by
  intro s2 hc2
  rw [compress_entries]
  simp only [nodeWf, Bool.and_eq_true] at hw
  obtain ⟨_, hsub⟩ := hw
  match s with
  | .nil =>
    rw [compress_is_empty] at hne
    simp [Node.is_empty, SparseArrayUsize.size] at hne
  | .cons i c .nil =>
    simp only [subtreesWf, Bool.and_eq_true, Bool.not_eq_true'] at hsub
    obtain ⟨⟨⟨⟨⟨_, hemp⟩, _⟩, hmin⟩, hcwf⟩, _⟩ := hsub
    cases c with
    | Branch s3 =>
      simp only [decide_eq_true_eq] at hmin
      simp only [nodeEntries, sparseEntries, List.append_nil]
      simpa [nodeEntries] using hmin
    | Leaf b =>
      cases b with
      | Single e => simp [Node.compress] at hc2
      | Collision es =>
        simp only [nodeWf, Bool.and_eq_true, decide_eq_true_eq] at hcwf
        have hlen := hcwf.1.1.1.2
        simp only [nodeEntries, sparseEntries, List.append_nil]
        simpa [nodeEntries] using hlen
  | .cons i c (.cons j d t) =>
    simp only [subtreesWf, Bool.and_eq_true, Bool.not_eq_true'] at hsub
    obtain ⟨⟨⟨⟨⟨_, hemp⟩, _⟩, _⟩, hcwf⟩, hrest⟩ := hsub
    obtain ⟨⟨⟨⟨⟨_, hemp2⟩, _⟩, _⟩, hdwf⟩, _⟩ := hrest
    have h1 := wf_nonempty_entries hcwf hemp
    have h2 := wf_nonempty_entries hdwf hemp2
    simp only [nodeEntries, sparseEntries, List.length_append]
    have l1 : 1 ≤ (nodeEntries c).length := by
      cases hh : nodeEntries c with
      | nil => exact absurd hh h1
      | cons a b => simp
    have l2 : 1 ≤ (nodeEntries d).length := by
      cases hh : nodeEntries d with
      | nil => exact absurd hh h2
      | cons a b => simp
    omega

omit [DecidableEq K] in
theorem entries_nil_of_is_empty {n : Node K V}
    (h : n.is_empty = true) : nodeEntries n = [] := by
  cases n with
  | Leaf b => cases b <;> simp [Node.is_empty] at h
  | Branch s =>
    cases s with
    | nil => rfl
    | cons i c t => simp [Node.is_empty, SparseArrayUsize.size] at h

/-- `Node.remove` on a branch with no child at the digit. -/
theorem remove_branch_nochild {s : SparseArrayUsize K V} {key : K} {kh depth ie : Nat}
    (hidx : index_from_hash kh depth degree = some ie)
    (hsg : s.get ie = none) :
    Node.remove key kh degree (.Branch s) depth = (.Branch s, false) := by
  conv_lhs => rw [Node.remove]
  split
  all_goals rename_i heq
  all_goals simp only [hidx, Option.some.injEq] at heq
  all_goals first
    | exact Option.noConfusion heq
    | (subst heq
       split
       all_goals rename_i hg2
       all_goals simp only [hsg] at hg2
       all_goals first
         | exact Option.noConfusion hg2
         | rfl)

/-- `Node.remove` on a branch when the recursive removal removed nothing. -/
theorem remove_branch_child_false {s : SparseArrayUsize K V} {key : K}
    {kh depth ie : Nat} {subtree : Node K V}
    (hidx : index_from_hash kh depth degree = some ie)
    (hsg : s.get ie = some subtree)
    (hrf : (Node.remove key kh degree subtree (depth + 1)).2 = false) :
    Node.remove key kh degree (.Branch s) depth =
      (.Branch (s.set ie (Node.remove key kh degree subtree (depth + 1)).1),
        false) := by
  conv_lhs => rw [Node.remove]
  split
  all_goals rename_i heq
  all_goals simp only [hidx, Option.some.injEq] at heq
  all_goals first
    | exact Option.noConfusion heq
    | (subst heq
       split
       all_goals rename_i hg2
       all_goals simp only [hsg, Option.some.injEq] at hg2
       all_goals first
         | exact Option.noConfusion hg2
         | (subst hg2
            cases hie : (Node.remove key kh degree subtree (depth + 1)).1.is_empty <;>
              simp_all))

/-- `Node.remove` on a branch when something was removed and the child
remains non-empty. -/
theorem remove_branch_child_true_nonempty {s : SparseArrayUsize K V} {key : K}
    {kh depth ie : Nat} {subtree : Node K V}
    (hidx : index_from_hash kh depth degree = some ie)
    (hsg : s.get ie = some subtree)
    (hrt : (Node.remove key kh degree subtree (depth + 1)).2 = true)
    (hne : (Node.remove key kh degree subtree (depth + 1)).1.is_empty = false) :
    Node.remove key kh degree (.Branch s) depth =
      (Node.compress
        (.Branch (s.set ie (Node.remove key kh degree subtree (depth + 1)).1)),
        true) := by
  conv_lhs => rw [Node.remove]
  split
  all_goals rename_i heq
  all_goals simp only [hidx, Option.some.injEq] at heq
  all_goals first
    | exact Option.noConfusion heq
    | (subst heq
       split
       all_goals rename_i hg2
       all_goals simp only [hsg, Option.some.injEq] at hg2
       all_goals first
         | exact Option.noConfusion hg2
         | (subst hg2
            cases hie : (Node.remove key kh degree subtree (depth + 1)).1.is_empty <;>
              simp_all))

/-- `Node.remove` on a branch when something was removed and the child
became empty: the child is dropped. -/
theorem remove_branch_child_true_empty {s : SparseArrayUsize K V} {key : K}
    {kh depth ie : Nat} {subtree : Node K V}
    (hidx : index_from_hash kh depth degree = some ie)
    (hsg : s.get ie = some subtree)
    (hrt : (Node.remove key kh degree subtree (depth + 1)).2 = true)
    (hne : (Node.remove key kh degree subtree (depth + 1)).1.is_empty = true) :
    Node.remove key kh degree (.Branch s) depth =
      (Node.compress (.Branch (s.remove ie)), true) := by
  conv_lhs => rw [Node.remove]
  split
  all_goals rename_i heq
  all_goals simp only [hidx, Option.some.injEq] at heq
  all_goals first
    | exact Option.noConfusion heq
    | (subst heq
       split
       all_goals rename_i hg2
       all_goals simp only [hsg, Option.some.injEq] at hg2
       all_goals first
         | exact Option.noConfusion hg2
         | (subst hg2
            cases hie : (Node.remove key kh degree subtree (depth + 1)).1.is_empty <;>
              simp_all))

/-- How `Node.remove` unfolds on a branch at an exhausted depth (the
source's `expect` would panic; unreachable for well-formed trees). -/
theorem remove_branch_exhausted {s : SparseArrayUsize K V} {key : K} {kh depth : Nat}
    (hidx : index_from_hash kh depth degree = none) :
    Node.remove key kh degree (.Branch s) depth = (.Branch s, false) := by
  conv_lhs => rw [Node.remove]
  split
  all_goals rename_i heq
  all_goals simp only [hidx] at heq
  all_goals first
    | exact Option.noConfusion heq
    | rfl

/-- How `Node.remove` unfolds on a leaf. -/
theorem remove_leaf_eq {bucket : Bucket K V} {key : K} {kh depth : Nat} :
    Node.remove key kh degree (.Leaf bucket) depth =
      (match (bucket.remove key kh).1 with
       | none => (Node.new_empty_branch, (bucket.remove key kh).2)
       | some b2 => (.Leaf b2, (bucket.remove key kh).2)) := by
  conv_lhs => rw [Node.remove]

end CompressRemove

/-! ## Small helper facts -/

section SmallHelpers

variable [DecidableEq K]

theorem index_isSome_lt {h depth degree : Nat}
    (hiso : (index_from_hash h depth degree).isSome = true) :
    depth * u8TrailingZeros degree < 64 := by
  rcases ho : index_from_hash h depth degree with _ | v
  · rw [ho] at hiso; cases hiso
  · exact (index_from_hash_eq_some.1 ho).1

omit [DecidableEq K] in
theorem tag_le_one (n : Node K V) : Node.tag n ≤ 1 := by
  cases n <;> simp [Node.tag]

theorem matches_false_of_ne {e : EntryWithHash K V} {q : K} {qh : Nat}
    (hq : ¬ (q = e.key ∧ qh = e.keyHash)) : e.matches q qh = false := by
  rcases hm : e.matches q qh with _ | _
  · rfl
  · obtain ⟨h1, h2⟩ := matches_iff.1 hm
    exact absurd ⟨h2.symm, h1.symm⟩ hq

theorem single_contains_iff {e0 : EntryWithHash K V} {k : K} {kh : Nat} :
    (Bucket.Single e0 : Bucket K V).contains_key k kh = e0.matches k kh := by
  rcases hm : e0.matches k kh with _ | _ <;>
    simp [Bucket.contains_key, Bucket.get, hm]

theorem collision_contains_iff {es : List (EntryWithHash K V)} {k : K} {kh : Nat} :
    (Bucket.Collision es : Bucket K V).contains_key k kh = true ↔
      ∃ e ∈ es, e.matches k kh = true := by
  simp [Bucket.contains_key, Bucket.get, List.find?_isSome]

theorem entryWf_parts {hasher : K → Nat} {e : EntryWithHash K V}
    (h : entryWf hasher e = true) :
    e.keyHash = hasher e.key ∧ e.keyHash < 2 ^ 64 := by
  simp only [entryWf, Bool.and_eq_true, beq_iff_eq, decide_eq_true_eq] at h
  exact h

end SmallHelpers

end Rpds

namespace Rpds

section MainInsert

variable {K V : Type} [DecidableEq K] {hasher : K → Nat} {degree : Nat}

/-- Everything `Node.insert` guarantees on well-formed input: preservation
of the invariants, the entry accounting, the new-key flag, and how lookups
behave on the result. -/
def InsertSpecP (hasher : K → Nat) (degree : Nat) (hb : 0 < u8TrailingZeros degree)
    (n : Node K V) (entry : EntryWithHash K V) (depth : Nat) : Prop :=
  nodeWf hasher degree (Node.insert degree hb n entry depth).1 depth = true ∧
  (∀ x ∈ nodeEntries (Node.insert degree hb n entry depth).1,
    x ∈ nodeEntries n ∨ x = entry) ∧
  ((Node.insert degree hb n entry depth).2 = true ↔
    Node.get entry.key entry.keyHash degree n depth = none) ∧
  (nodeEntries (Node.insert degree hb n entry depth).1).length
    = (nodeEntries n).length +
      (if (Node.insert degree hb n entry depth).2 then 1 else 0) ∧
  Node.get entry.key entry.keyHash degree
    (Node.insert degree hb n entry depth).1 depth = some entry ∧
  (∀ (q : K) (qh : Nat), ¬ (q = entry.key ∧ qh = entry.keyHash) →
    Node.get q qh degree (Node.insert degree hb n entry depth).1 depth
      = Node.get q qh degree n depth) ∧
  (∀ s1, (Node.insert degree hb n entry depth).1 = Node.Branch s1 →
    (∃ s0, n = Node.Branch s0) ∨
      2 ≤ (nodeEntries (Node.insert degree hb n entry depth).1).length)

theorem insert_spec (hdeg : degreeWf degree = true)
    (hb : 0 < u8TrailingZeros degree) :
    ∀ (N : Nat) (n : Node K V) (entry : EntryWithHash K V) (depth : Nat),
      2 * (64 - depth) + Node.tag n < N →
      nodeWf hasher degree n depth = true →
      entryWf hasher entry = true →
      (∀ x ∈ nodeEntries n, ∀ t, t < depth →
        index_from_hash x.keyHash t degree =
          index_from_hash entry.keyHash t degree) →
      InsertSpecP hasher degree hb n entry depth := by
  intro N
  induction N with
  | zero => intro n entry depth hm; omega
  | succ N ih =>
  intro n entry depth hm hwf hent hpath
  cases n with
  | Branch subtrees =>
    simp only [nodeWf, Bool.and_eq_true] at hwf
    obtain ⟨⟨hiso, hsort⟩, hsub⟩ := hwf
    have hlt : depth * u8TrailingZeros degree < 64 := index_isSome_lt hiso
    have hidx : index_from_hash entry.keyHash depth degree =
        some ((entry.keyHash >>> (depth * u8TrailingZeros degree)) &&& (degree - 1)) :=
      index_from_hash_eq_some.2 ⟨hlt, rfl⟩
    set ie := (entry.keyHash >>> (depth * u8TrailingZeros degree)) &&& (degree - 1) with hie
    have hdlt : depth < 64 := by
      have : depth ≤ depth * u8TrailingZeros degree := by
        calc depth = depth * 1 := (Nat.mul_one depth).symm
        _ ≤ depth * u8TrailingZeros degree := Nat.mul_le_mul_left depth hb
      omega
    simp only [Node.tag] at hm
    cases hsg : subtrees.get ie with
    | some subtree =>
      obtain ⟨hilt, hcemp, hcdig, hcmin, hcwf⟩ := subtreesWf_get hsub hsg
      have hIH := ih subtree entry (depth + 1)
        (by have := tag_le_one subtree; omega) hcwf hent
        (by
          intro x hx t ht
          rcases Nat.lt_succ_iff_lt_or_eq.1 ht with ht2 | ht2
          · exact hpath x (by
              simpa [nodeEntries] using mem_sparseEntries_of_get hsg x hx) t ht2
          · subst ht2
            rw [hcdig x hx, hidx])
      simp only [InsertSpecP] at hIH
      obtain ⟨W1, W2, W3, W4, W5, W6, W7⟩ := hIH
      have hstep := insert_branch_child hb hidx hsg
      simp only [InsertSpecP, hstep]
      set c2 := (Node.insert degree hb subtree entry (depth + 1)).1 with hc2
      -- facts about the updated child
      have hc2dig : ∀ x ∈ nodeEntries c2,
          index_from_hash x.keyHash depth degree = some ie := by
        intro x hx
        rcases W2 x hx with hold | hxe
        · exact hcdig x hold
        · subst hxe; exact hidx
      have hsubpos : nodeEntries subtree ≠ [] := wf_nonempty_entries hcwf hcemp
      have hsublen : 1 ≤ (nodeEntries subtree).length := by
        cases hh : nodeEntries subtree with
        | nil => exact absurd hh hsubpos
        | cons a b => simp
      have hc2len : 1 ≤ (nodeEntries c2).length := by
        rw [W4]; omega
      have hc2ne : c2.is_empty = false := by
        apply is_empty_false_of_entries
        cases hh : nodeEntries c2 with
        | nil => rw [hh] at hc2len; simp at hc2len
        | cons a b => simp
      have hc2min : ∀ s2, c2 = Node.Branch s2 → 2 ≤ (nodeEntries c2).length := by
        intro s2 hcs
        rcases W7 s2 hcs with ⟨s0, hsub0⟩ | h2
        · have := hcmin s0 hsub0
          rw [W4]
          omega
        · exact h2
      obtain ⟨l1, l2, hE1, hE2, hE3⟩ := SparseArrayUsize.entries_decomp hsort hsg c2
      -- the goal's seven components
      refine ⟨?_, ?_, ?_, ?_, ?_, ?_, ?_⟩
      · -- wf
        simp only [nodeWf, Bool.and_eq_true]
        exact ⟨⟨hiso, SparseArrayUsize.sorted_set hsort⟩,
          subtreesWf_set hsub hilt hc2ne hc2dig hc2min W1⟩
      · -- membership
        intro x hx
        simp only [nodeEntries] at hx
        rw [hE2] at hx
        simp only [List.mem_append] at hx
        rcases hx with hx | hx | hx
        · left; simp only [nodeEntries]; rw [hE1]; simp [hx]
        · rcases W2 x hx with hold | hxe
          · left; simp only [nodeEntries]; rw [hE1]; simp [hold]
          · right; exact hxe
        · left; simp only [nodeEntries]; rw [hE1]; simp [hx]
      · -- flag iff absent
        rw [Node.get_branch, hidx]
        simp only [hsg, Option.some_bind]
        exact W3
      · -- length accounting
        simp only [nodeEntries]
        rw [hE2, hE1]
        simp only [List.length_append]
        rw [W4]
        split <;> omega
      · -- lookup of the inserted key
        rw [Node.get_branch, hidx]
        simp only [SparseArrayUsize.get_set_self, Option.some_bind]
        exact W5
      · -- frame for other keys
        intro q qh hq
        have hqidx : index_from_hash qh depth degree =
            some ((qh >>> (depth * u8TrailingZeros degree)) &&& (degree - 1)) :=
          index_from_hash_eq_some.2 ⟨hlt, rfl⟩
        rw [Node.get_branch_some hqidx, Node.get_branch_some hqidx]
        by_cases hj : (qh >>> (depth * u8TrailingZeros degree)) &&& (degree - 1) = ie
        · rw [hj, SparseArrayUsize.get_set_self]
          simp only [hsg, Option.some_bind]
          exact W6 q qh hq
        · rw [SparseArrayUsize.get_set_ne subtrees c2 hj]
      · -- result is a branch; the input already was one
        intro s1 _
        exact Or.inl ⟨subtrees, rfl⟩
    | none =>
      have hstep := insert_branch_new hb hidx hsg
      simp only [InsertSpecP, hstep]
      obtain ⟨l1, l2, hE1, hE2⟩ :=
        SparseArrayUsize.entries_set_none (.Leaf (.Single entry)) hsg
      simp only [nodeEntries] at hE2
      refine ⟨?_, ?_, ?_, ?_, ?_, ?_, ?_⟩
      · -- wf
        simp only [nodeWf, Bool.and_eq_true]
        refine ⟨⟨hiso, SparseArrayUsize.sorted_set hsort⟩,
          subtreesWf_set hsub (index_lt_degree hdeg hidx) rfl ?_ ?_ ?_⟩
        · intro x hx
          simp only [nodeEntries, List.mem_singleton] at hx
          subst hx
          exact hidx
        · intro s2 h2
          cases h2
        · simpa [nodeWf] using hent
      · -- membership
        intro x hx
        simp only [nodeEntries] at hx
        rw [hE2] at hx
        simp only [List.mem_append, List.mem_singleton] at hx
        rcases hx with hx | hx | hx
        · left; simp only [nodeEntries]; rw [hE1]; simp [hx]
        · right; exact hx
        · left; simp only [nodeEntries]; rw [hE1]; simp [hx]
      · -- flag iff absent
        rw [Node.get_branch_some hidx]
        simp [hsg]
      · -- length accounting
        simp only [nodeEntries]
        rw [hE2, hE1]
        simp only [List.length_append, List.length_singleton, if_true]
        omega
      · -- lookup of the inserted key
        rw [Node.get_branch_some hidx, SparseArrayUsize.get_set_self]
        simp only [Option.some_bind]
        simp [Node.get, Bucket.get, matches_self]
      · -- frame for other keys
        intro q qh hq
        have hqidx : index_from_hash qh depth degree =
            some ((qh >>> (depth * u8TrailingZeros degree)) &&& (degree - 1)) :=
          index_from_hash_eq_some.2 ⟨hlt, rfl⟩
        rw [Node.get_branch_some hqidx, Node.get_branch_some hqidx]
        by_cases hj : (qh >>> (depth * u8TrailingZeros degree)) &&& (degree - 1) = ie
        · rw [hj, SparseArrayUsize.get_set_self]
          simp only [hsg, Option.some_bind, Option.none_bind]
          simp [Node.get, Bucket.get, matches_false_of_ne hq]
        · rw [SparseArrayUsize.get_set_ne subtrees _ hj]
      · -- result is a branch; the input already was one
        intro s1 _
        exact Or.inl ⟨subtrees, rfl⟩
  | Leaf bucket =>
    simp only [Node.tag] at hm
    cases hidxm : index_from_hash entry.keyHash depth degree with
    | none =>
      -- maximum depth: the hash is exhausted, `Bucket::insert` handles it
      have hge : 64 ≤ depth * u8TrailingZeros degree :=
        index_from_hash_eq_none.1 hidxm
      have hnone0 : index_from_hash 0 depth degree = none :=
        index_from_hash_eq_none.2 hge
      cases bucket with
      | Single e0 =>
        have he0 : entryWf hasher e0 = true := by simpa [nodeWf] using hwf
        have hstep : Node.insert degree hb (.Leaf (.Single e0)) entry depth
            = (.Leaf ((Bucket.Single e0).insert entry).1,
               ((Bucket.Single e0).insert entry).2) :=
          insert_leaf_single_max hb hidxm
        by_cases hm0 : e0.matches entry.key entry.keyHash = true
        · -- value replacement
          have hbi : (Bucket.Single e0 : Bucket K V).insert entry
              = (.Single entry, false) := by simp [Bucket.insert, hm0]
          simp only [InsertSpecP, hstep, hbi]
          obtain ⟨hm0h, hm0k⟩ := matches_iff.1 hm0
          refine ⟨?_, ?_, ?_, by simp [nodeEntries], ?_, ?_, ?_⟩
          · simpa [nodeWf] using hent
          · intro x hx
            simp only [nodeEntries, List.mem_singleton] at hx
            exact Or.inr hx
          · simp [Node.get, Bucket.get, hm0]
          · simp [Node.get, Bucket.get, matches_self]
          · intro q qh hq
            have he0m : e0.matches q qh = false := by
              apply matches_false_of_ne
              rw [hm0h, hm0k]
              exact hq
            simp [Node.get, Bucket.get, matches_false_of_ne hq, he0m]
          · intro s1 h
            simp at h
        · -- genuine collision: `Single` becomes `Collision`
          simp only [Bool.not_eq_true] at hm0
          have hbi : (Bucket.Single e0 : Bucket K V).insert entry
              = (.Collision [entry, e0], true) := by simp [Bucket.insert, hm0]
          simp only [InsertSpecP, hstep, hbi]
          have hhash : e0.keyHash = entry.keyHash :=
            hash_eq_at_max hdeg hb (entryWf_parts he0).2 (entryWf_parts hent).2 hge
              (fun t ht => hpath e0 (by simp [nodeEntries]) t ht)
          have hkey : ¬ (e0.key = entry.key) := by
            intro hk
            rw [matches_iff.2 ⟨hhash, hk⟩] at hm0
            cases hm0
          refine ⟨?_, ?_, ?_, by simp [nodeEntries], ?_, ?_, ?_⟩
          · simp only [nodeWf, Bool.and_eq_true]
            refine ⟨⟨⟨⟨by simp [hnone0], by simp⟩, ?_⟩, ?_⟩, ?_⟩
            · simp [hent, he0]
            · simp [sameHash, hhash]
            · simp [distinctKeys, hkey]
          · intro x hx
            simp only [nodeEntries, List.mem_cons, List.not_mem_nil,
              or_false] at hx
            rcases hx with hx | hx
            · exact Or.inr hx
            · exact Or.inl (by simp [nodeEntries, hx])
          · simp [Node.get, Bucket.get, hm0]
          · simp [Node.get, Bucket.get, List.find?_cons, matches_self]
          · intro q qh hq
            cases hqm : e0.matches q qh <;>
              simp [Node.get, Bucket.get, List.find?_cons,
                matches_false_of_ne hq, hqm]
          · intro s1 h
            simp at h
      | Collision es =>
        simp only [nodeWf, Bool.and_eq_true, List.all_eq_true,
          decide_eq_true_eq] at hwf
        obtain ⟨⟨⟨⟨hnone, hlen2⟩, hallwf⟩, hsame⟩, hdist⟩ := hwf
        have hstep : Node.insert degree hb (.Leaf (.Collision es)) entry depth
            = (.Leaf ((Bucket.Collision es).insert entry).1,
               ((Bucket.Collision es).insert entry).2) :=
          insert_leaf_collision_max hb hidxm
        have hEsH : ∀ y ∈ es, y.keyHash = entry.keyHash := by
          intro y hy
          exact hash_eq_at_max hdeg hb (entryWf_parts (hallwf y hy)).2
            (entryWf_parts hent).2 hge
            (fun t ht => hpath y (by simp [nodeEntries, hy]) t ht)
        have hbi : (Bucket.Collision es : Bucket K V).insert entry
            = (.Collision (entry :: (bucket_utils.list_remove_first
                (fun e => e.matches entry.key entry.keyHash) es).1),
               !(bucket_utils.list_remove_first
                (fun e => e.matches entry.key entry.keyHash) es).2) := by
          simp [Bucket.insert]
        simp only [InsertSpecP, hstep, hbi]
        by_cases hf : (bucket_utils.list_remove_first
            (fun e => e.matches entry.key entry.keyHash) es).2 = true
        · -- the key was already in the collision list
          obtain ⟨l1, x, l2, hes, hpx, hl1, hres⟩ := bucket_utils.lrf_true_char hf
          obtain ⟨hxh, hxk⟩ := matches_iff.1 hpx
          have hpw := distinctKeys_iff_pairwise.1 hdist
          rw [hes] at hpw
          rw [List.pairwise_append] at hpw
          obtain ⟨hpw1, hpw2, hpw12⟩ := hpw
          rw [List.pairwise_cons] at hpw2
          obtain ⟨hpwx, hpw2'⟩ := hpw2
          have hmemes : ∀ y, y ∈ l1 ++ l2 → y ∈ es := by
            intro y hy
            rw [hes]
            simp only [List.mem_append, List.mem_cons] at hy ⊢
            tauto
          have hner : ∀ y ∈ l1 ++ l2, ¬ (y.key = entry.key) := by
            intro y hy hk
            simp only [List.mem_append] at hy
            rcases hy with hy | hy
            · exact hpw12 y hy x (by simp) (by rw [hk, hxk])
            · exact hpwx y hy (hxk.trans hk.symm)
          have hlen := congrArg List.length hes
          simp only [List.length_append, List.length_cons] at hlen
          rw [hf, hres]
          refine ⟨?_, ?_, ?_, ?_, ?_, ?_, ?_⟩
          · simp only [nodeWf, Bool.and_eq_true]
            refine ⟨⟨⟨⟨by simp [hnone0], by simp; omega⟩, ?_⟩, ?_⟩, ?_⟩
            · simp only [List.all_eq_true, List.mem_cons]
              rintro y (rfl | hy)
              · exact hent
              · exact hallwf y (hmemes y hy)
            · simp only [sameHash, List.all_eq_true, beq_iff_eq]
              intro y hy
              exact hEsH y (hmemes y hy)
            · simp only [distinctKeys, Bool.and_eq_true, List.all_eq_true]
              constructor
              · intro y hy
                simp [hner y hy]
              · exact distinctKeys_sublist
                  (by rw [hes]
                      exact List.Sublist.append_left (List.sublist_cons_self x l2) l1)
                  hdist
          · intro y hy
            simp only [nodeEntries, List.mem_cons] at hy
            rcases hy with rfl | hy
            · exact Or.inr rfl
            · exact Or.inl (by simp [nodeEntries, hmemes y hy])
          · have hfind : es.find?
                (fun e => e.matches entry.key entry.keyHash) ≠ none := by
              rw [Ne, List.find?_eq_none]
              push_neg
              refine ⟨x, ?_, ?_⟩
              · rw [hes]; simp
              · simp [hpx]
            simp only [Node.get, Bucket.get, Bool.not_true,
              Bool.false_eq_true, false_iff]
            exact hfind
          · simp [nodeEntries]
            omega
          · simp [Node.get, Bucket.get, List.find?_cons, matches_self]
          · intro q qh hq
            have hxm : x.matches q qh = false := by
              apply matches_false_of_ne
              rw [hxh, hxk]
              exact hq
            have hmid : (l1 ++ x :: l2).find? (fun e => e.matches q qh)
                = (l1 ++ l2).find? (fun e => e.matches q qh) :=
              @find?_middle_false (EntryWithHash K V)
                (fun e => e.matches q qh) x hxm l1 l2
            simp only [Node.get, Bucket.get]
            rw [List.find?_cons_of_neg _ (by simp [matches_false_of_ne hq]), hes,
              hmid]
          · intro s1 h
            simp at h
        · -- a new colliding key
          simp only [Bool.not_eq_true] at hf
          obtain ⟨hres, hall⟩ := bucket_utils.lrf_false_char hf
          have hnotin : ∀ y ∈ es, ¬ (y.key = entry.key) := by
            intro y hy hk
            have h1 := (entryWf_parts (hallwf y hy)).1
            have h2 := (entryWf_parts hent).1
            have hyh : y.keyHash = entry.keyHash := by rw [h1, h2, hk]
            have hmt := matches_iff.2 ⟨hyh, hk⟩
            simp [hall y hy] at hmt
          rw [hf, hres]
          refine ⟨?_, ?_, ?_, ?_, ?_, ?_, ?_⟩
          · simp only [nodeWf, Bool.and_eq_true]
            refine ⟨⟨⟨⟨by simp [hnone0], by simp; omega⟩, ?_⟩, ?_⟩, ?_⟩
            · simp only [List.all_eq_true, List.mem_cons]
              rintro y (rfl | hy)
              · exact hent
              · exact hallwf y hy
            · simp only [sameHash, List.all_eq_true, beq_iff_eq]
              intro y hy
              exact hEsH y hy
            · simp only [distinctKeys, Bool.and_eq_true, List.all_eq_true]
              exact ⟨fun y hy => by simp [hnotin y hy], hdist⟩
          · intro y hy
            simp only [nodeEntries, List.mem_cons] at hy
            rcases hy with rfl | hy
            · exact Or.inr rfl
            · exact Or.inl (by simp [nodeEntries, hy])
          · have hfind : es.find?
                (fun e => e.matches entry.key entry.keyHash) = none :=
              List.find?_eq_none.2 (fun y hy => by simp [hall y hy])
            simp [Node.get, Bucket.get, hfind]
          · simp [nodeEntries]
          · simp [Node.get, Bucket.get, List.find?_cons, matches_self]
          · intro q qh hq
            simp only [Node.get, Bucket.get]
            rw [List.find?_cons_of_neg _ (by simp [matches_false_of_ne hq])]
          · intro s1 h
            simp at h
    | some ie =>
      -- below maximum depth
      have hlt : depth * u8TrailingZeros degree < 64 :=
        (index_from_hash_eq_some.1 hidxm).1
      have h0 : index_from_hash 0 depth degree
          = some ((0 >>> (depth * u8TrailingZeros degree)) &&& (degree - 1)) :=
        index_from_hash_eq_some.2 ⟨hlt, rfl⟩
      cases bucket with
      | Collision es =>
        -- a collision bucket below maximum depth contradicts well-formedness
        exfalso
        simp [nodeWf, h0] at hwf
      | Single e0 =>
        have he0 : entryWf hasher e0 = true := by simpa [nodeWf] using hwf
        by_cases hcc : (Bucket.Single e0).contains_key entry.key entry.keyHash
            = true
        · -- key already present: plain replacement
          have hm0 : e0.matches entry.key entry.keyHash = true := by
            rw [← single_contains_iff]; exact hcc
          have hstep : Node.insert degree hb (.Leaf (.Single e0)) entry depth
              = (.Leaf ((Bucket.Single e0).insert entry).1,
                 ((Bucket.Single e0).insert entry).2) :=
            insert_leaf_single_contains hb hcc
          have hbi : (Bucket.Single e0 : Bucket K V).insert entry
              = (.Single entry, false) := by simp [Bucket.insert, hm0]
          simp only [InsertSpecP, hstep, hbi]
          obtain ⟨hm0h, hm0k⟩ := matches_iff.1 hm0
          refine ⟨?_, ?_, ?_, by simp [nodeEntries], ?_, ?_, ?_⟩
          · simpa [nodeWf] using hent
          · intro x hx
            simp only [nodeEntries, List.mem_cons, List.not_mem_nil,
              or_false] at hx
            exact Or.inr hx
          · simp [Node.get, Bucket.get, hm0]
          · simp [Node.get, Bucket.get, matches_self]
          · intro q qh hq
            have he0m : e0.matches q qh = false := by
              apply matches_false_of_ne
              rw [hm0h, hm0k]
              exact hq
            simp [Node.get, Bucket.get, matches_false_of_ne hq, he0m]
          · intro s1 h
            simp at h
        · -- different key: the leaf is pushed one level down and the
          -- insertion re-runs on the freshly built one-child branch
          have hc : (Bucket.Single e0).contains_key entry.key entry.keyHash
              = false := by
            cases h : (Bucket.Single e0).contains_key entry.key entry.keyHash
            · rfl
            · exact absurd h hcc
          have hm0 : e0.matches entry.key entry.keyHash = false := by
            rw [← single_contains_iff]; exact hc
          have hidx0 : index_from_hash e0.keyHash depth degree
              = some ((e0.keyHash >>> (depth * u8TrailingZeros degree))
                  &&& (degree - 1)) :=
            index_from_hash_eq_some.2 ⟨hlt, rfl⟩
          set i0 := (e0.keyHash >>> (depth * u8TrailingZeros degree))
              &&& (degree - 1) with hi0
          have hstep := insert_leaf_single_diverge hb hidxm hidx0 hc
          have hB : nodeWf hasher degree
              (Node.Branch (.cons i0 (.Leaf (.Single e0)) .nil)) depth
              = true := by
            simp only [nodeWf, Bool.and_eq_true]
            refine ⟨⟨by simp [h0], ?_⟩, ?_⟩
            · simp [SparseArrayUsize.sorted, SparseArrayUsize.gtAll]
            · simp only [subtreesWf, Bool.and_eq_true]
              refine ⟨⟨⟨⟨⟨?_, by simp [Node.is_empty]⟩, ?_⟩, by simp⟩, ?_⟩,
                by simp [subtreesWf]⟩
              · simp only [decide_eq_true_eq]
                exact index_lt_degree hdeg hidx0
              · simp only [nodeEntries, List.all_cons, List.all_nil,
                  Bool.and_true]
                simp [hidx0]
              · simpa [nodeWf] using he0
          have hmB : 2 * (64 - depth)
              + Node.tag (Node.Branch (.cons i0 (.Leaf (.Single e0)) .nil)
                  : Node K V) < N := by
            simp only [Node.tag]
            omega
          have hpathB : ∀ x ∈ nodeEntries
              (Node.Branch (.cons i0 (.Leaf (.Single e0)) .nil) : Node K V),
              ∀ t, t < depth → index_from_hash x.keyHash t degree
                = index_from_hash entry.keyHash t degree := by
            intro x hx t ht
            have hx0 : x = e0 := by
              simpa [nodeEntries, sparseEntries] using hx
            exact hpath x (by simp [nodeEntries, hx0]) t ht
          have hIH := ih (.Branch (.cons i0 (.Leaf (.Single e0)) .nil))
            entry depth hmB hB hent hpathB
          simp only [InsertSpecP] at hIH
          obtain ⟨W1, W2, W3, W4, W5, W6, W7⟩ := hIH
          have hgetB : Node.get entry.key entry.keyHash degree
              (.Branch (.cons i0 (.Leaf (.Single e0)) .nil)) depth = none := by
            rw [Node.get_branch_some hidxm]
            simp only [SparseArrayUsize.get]
            by_cases hij : i0 = ie
            · simp [hij, Node.get, Bucket.get, hm0]
            · simp [hij]
          have hflag : (Node.insert degree hb
              (.Branch (.cons i0 (.Leaf (.Single e0)) .nil)) entry depth).2
              = true := W3.2 hgetB
          have hlenB : (nodeEntries (Node.insert degree hb
              (.Branch (.cons i0 (.Leaf (.Single e0)) .nil)) entry
                depth).1).length = 2 := by
            rw [W4, hflag]
            simp [nodeEntries, sparseEntries]
          simp only [InsertSpecP, hstep]
          refine ⟨W1, ?_, ?_, ?_, W5, ?_, ?_⟩
          · intro x hx
            rcases W2 x hx with hx2 | hx2
            · exact Or.inl (by simpa [nodeEntries, sparseEntries] using hx2)
            · exact Or.inr hx2
          · simp [Node.get, Bucket.get, hm0]
          · simp [nodeEntries, hlenB]
          · intro q qh hq
            rw [W6 q qh hq]
            have hqd : index_from_hash qh depth degree
                = some ((qh >>> (depth * u8TrailingZeros degree))
                    &&& (degree - 1)) :=
              index_from_hash_eq_some.2 ⟨hlt, rfl⟩
            rw [Node.get_branch_some hqd]
            simp only [SparseArrayUsize.get]
            by_cases hqm : e0.matches q qh = true
            · obtain ⟨hqh, hqk⟩ := matches_iff.1 hqm
              have heq : i0 = (qh >>> (depth * u8TrailingZeros degree))
                  &&& (degree - 1) := by
                rw [hi0, hqh]
              rw [← heq]
              simp [Node.get, Bucket.get, hqm]
            · have hqm2 : e0.matches q qh = false := by
                cases h : e0.matches q qh
                · rfl
                · exact absurd h hqm
              by_cases hij : i0 = (qh >>> (depth * u8TrailingZeros degree))
                  &&& (degree - 1)
              · simp [hij, Node.get, Bucket.get, hqm2]
              · simp [hij, Node.get, Bucket.get, hqm2]
          · intro s1 h
            exact Or.inr (by omega)

end MainInsert
end Rpds

namespace Rpds

section MainRemove

variable {K V : Type} [DecidableEq K] {hasher : K → Nat} {degree : Nat}

/-- Storing back the child that is already present leaves a sorted sparse
array unchanged. -/
theorem set_of_get {s : SparseArrayUsize K V} {i : Nat} {c : Node K V}
    (hs : s.sorted = true) (hg : s.get i = some c) : s.set i c = s := by
  induction s with
  | nil => simp [SparseArrayUsize.get] at hg
  | cons j w t ih =>
    simp only [SparseArrayUsize.get] at hg
    by_cases h1 : j = i
    · subst h1
      simp only [ite_true, Option.some.injEq] at hg
      subst hg
      simp [SparseArrayUsize.set]
    · rw [if_neg h1] at hg
      have hji : j < i :=
        SparseArrayUsize.lt_of_gtAll_get (SparseArrayUsize.gtAll_cons hs) hg
      simp only [SparseArrayUsize.set]
      rw [if_neg (by omega), if_neg (by omega),
        ih (SparseArrayUsize.sorted_cons hs) hg]

/-- `sameHash` restricts to any sublist. -/
theorem sameHash_sublist {es es2 : List (EntryWithHash K V)}
    (hsub : es2.Sublist es) (h : sameHash es = true) : sameHash es2 = true := by
  rw [sameHash_iff] at h ⊢
  intro x hx y hy
  exact h x (hsub.subset hx) y (hsub.subset hy)

/-- Everything `Node.remove` guarantees on well-formed input: the node is
unchanged on a miss, the invariants are preserved (at the root even when
the result is an empty branch), entries only disappear, the removed flag
reports presence, exactly one entry disappears on a hit, and the key is
absent afterwards. -/
def RemoveSpecP (hasher : K → Nat) (degree : Nat) (key : K) (kh : Nat)
    (n : Node K V) (depth : Nat) : Prop :=
  ((Node.remove key kh degree n depth).2 = false →
    (Node.remove key kh degree n depth).1 = n) ∧
  ((Node.remove key kh degree n depth).1.is_empty = false →
    nodeWf hasher degree (Node.remove key kh degree n depth).1 depth = true) ∧
  (depth * u8TrailingZeros degree < 64 →
    nodeWf hasher degree (Node.remove key kh degree n depth).1 depth = true) ∧
  (∀ x ∈ nodeEntries (Node.remove key kh degree n depth).1,
    x ∈ nodeEntries n) ∧
  ((Node.remove key kh degree n depth).2 = true ↔
    (Node.get key kh degree n depth).isSome = true) ∧
  ((nodeEntries n).length
    = (nodeEntries (Node.remove key kh degree n depth).1).length
      + (if (Node.remove key kh degree n depth).2 then 1 else 0)) ∧
  (Node.get key kh degree (Node.remove key kh degree n depth).1 depth
    = none) ∧
  ((∀ s0, n = Node.Branch s0 → 2 ≤ (nodeEntries n).length) →
    (Node.remove key kh degree n depth).1.is_empty = false →
    ∀ s2, (Node.remove key kh degree n depth).1 = Node.Branch s2 →
      2 ≤ (nodeEntries (Node.remove key kh degree n depth).1).length)

theorem remove_spec (hdeg : degreeWf degree = true) (key : K) (kh : Nat) :
    ∀ (N : Nat) (n : Node K V) (depth : Nat), sizeOf n < N →
      nodeWf hasher degree n depth = true →
      RemoveSpecP hasher degree key kh n depth := by
  intro N
  induction N with
  | zero => intro n depth hm; omega
  | succ N ih =>
  intro n depth hm hwf
  cases n with
  | Leaf bucket =>
    cases bucket with
    | Single e0 =>
      have he0 : entryWf hasher e0 = true := by simpa [nodeWf] using hwf
      by_cases hm0 : e0.matches key kh = true
      · -- the single entry matches: the leaf empties
        have hbr : (Bucket.Single e0 : Bucket K V).remove key kh
            = (none, true) := by simp [Bucket.remove, hm0]
        have hstep : Node.remove key kh degree (.Leaf (.Single e0)) depth
            = (Node.new_empty_branch, true) := by
          rw [remove_leaf_eq, hbr]
        simp only [RemoveSpecP, hstep]
        obtain ⟨hm0h, hm0k⟩ := matches_iff.1 hm0
        refine ⟨?_, ?_, ?_, ?_, ?_, ?_, ?_, ?_⟩
        · intro h; cases h
        · intro h
          simp [Node.new_empty_branch, Node.is_empty,
            SparseArrayUsize.size] at h
        · intro hlt
          have h0 : index_from_hash 0 depth degree
              = some ((0 >>> (depth * u8TrailingZeros degree))
                  &&& (degree - 1)) :=
            index_from_hash_eq_some.2 ⟨hlt, rfl⟩
          simp [Node.new_empty_branch, nodeWf, h0, SparseArrayUsize.sorted,
            subtreesWf]
        · intro x hx
          simp [Node.new_empty_branch, nodeEntries, sparseEntries] at hx
        · simp [Node.get, Bucket.get, hm0]
        · simp [Node.new_empty_branch, nodeEntries, sparseEntries]
        · cases hq : index_from_hash kh depth degree <;>
            simp [Node.new_empty_branch, Node.get, hq, Node.branchGet]
        · intro _ hne
          simp [Node.new_empty_branch, Node.is_empty,
            SparseArrayUsize.size] at hne
      · -- the single entry does not match: nothing changes
        have hm0f : e0.matches key kh = false := by
          cases h : e0.matches key kh
          · rfl
          · exact absurd h hm0
        have hbr : (Bucket.Single e0 : Bucket K V).remove key kh
            = (some (.Single e0), false) := by simp [Bucket.remove, hm0f]
        have hstep : Node.remove key kh degree (.Leaf (.Single e0)) depth
            = (.Leaf (.Single e0), false) := by
          rw [remove_leaf_eq, hbr]
        simp only [RemoveSpecP, hstep]
        refine ⟨fun _ => by trivial, fun _ => hwf, fun _ => hwf, fun x hx => hx,
          ?_, by simp, ?_, ?_⟩
        · simp [Node.get, Bucket.get, hm0f]
        · simp [Node.get, Bucket.get, hm0f]
        · intro _ _ s2 h2
          exact absurd h2 (by simp)
    | Collision es =>
      have hwfO := hwf
      simp only [nodeWf, Bool.and_eq_true, List.all_eq_true,
        decide_eq_true_eq] at hwf
      obtain ⟨⟨⟨⟨hnone, hlen2⟩, hallwf⟩, hsame⟩, hdist⟩ := hwf
      have hgedep : 64 ≤ depth * u8TrailingZeros degree :=
        index_from_hash_eq_none.1 (Option.isNone_iff_eq_none.1 hnone)
      by_cases hf : (bucket_utils.list_remove_first
          (fun e => e.matches key kh) es).2 = true
      · -- a matching entry exists and is removed
        obtain ⟨l1, x, l2, hes, hpx, hl1, hres⟩ := bucket_utils.lrf_true_char hf
        obtain ⟨hxh, hxk⟩ := matches_iff.1 hpx
        have hpw := distinctKeys_iff_pairwise.1 hdist
        rw [hes, List.pairwise_append] at hpw
        obtain ⟨hpw1, hpw2, hpw12⟩ := hpw
        rw [List.pairwise_cons] at hpw2
        obtain ⟨hpwx, hpw2s⟩ := hpw2
        have hl2f : ∀ y ∈ l2, y.matches key kh = false := by
          intro y hy
          cases hym : y.matches key kh
          · rfl
          · exfalso
            obtain ⟨hyh, hyk⟩ := matches_iff.1 hym
            exact hpwx y hy (by rw [hxk, hyk])
        have hrestf : ∀ y ∈ l1 ++ l2, y.matches key kh = false := by
          intro y hy
          rcases List.mem_append.1 hy with hy | hy
          · exact hl1 y hy
          · exact hl2f y hy
        have hfind_rest : (l1 ++ l2).find? (fun e => e.matches key kh)
            = none :=
          List.find?_eq_none.2 (fun y hy => by simp [hrestf y hy])
        have hsubll : (l1 ++ l2).Sublist es := by
          rw [hes]
          exact List.Sublist.append_left (List.sublist_cons_self x l2) l1
        have hfind_some : ((es.find? (fun e => e.matches key kh)).isSome)
            = true := by
          rw [List.find?_isSome]
          exact ⟨x, by rw [hes]; simp, hpx⟩
        have hlen : es.length = l1.length + (l2.length + 1) := by
          have := congrArg List.length hes
          simpa using this
        rcases hll : l1 ++ l2 with _ | ⟨a, rest⟩
        · -- the remainder cannot be empty: a collision has ≥ 2 entries
          exfalso
          have hll2 := congrArg List.length hll
          simp only [List.length_append, List.length_nil] at hll2
          omega
        · have hamem : a ∈ es := hsubll.subset (by rw [hll]; simp)
          cases rest with
          | nil =>
            -- exactly one entry remains: collapse to `Single`
            have hbr : (Bucket.Collision es : Bucket K V).remove key kh
                = (some (.Single a), true) := by
              simp only [Bucket.remove]
              rw [hres, hll, hf]
            have hstep : Node.remove key kh degree (.Leaf (.Collision es)) depth
                = (.Leaf (.Single a), true) := by
              rw [remove_leaf_eq, hbr]
            have haf : a.matches key kh = false :=
              hrestf a (by rw [hll]; simp)
            simp only [RemoveSpecP, hstep]
            refine ⟨?_, ?_, ?_, ?_, ?_, ?_, ?_, ?_⟩
            · intro h; cases h
            · intro _
              simpa [nodeWf] using hallwf a hamem
            · intro hlt; omega
            · intro y hy
              simp only [nodeEntries, List.mem_cons, List.not_mem_nil,
                or_false] at hy
              simp [nodeEntries, hy, hamem]
            · simp [Node.get, Bucket.get, hfind_some]
            · have := congrArg List.length hll
              simp only [List.length_append, List.length_cons,
                List.length_nil] at this
              simp only [nodeEntries, List.length_cons, List.length_nil,
                if_true]
              omega
            · simp [Node.get, Bucket.get, haf]
            · intro _ _ s2 h2
              exact absurd h2 (by simp)
          | cons b rest2 =>
            -- at least two entries remain: the collision stays
            have hbr : (Bucket.Collision es : Bucket K V).remove key kh
                = (some (.Collision (a :: b :: rest2)), true) := by
              simp only [Bucket.remove]
              rw [hres, hll, hf]
            have hstep : Node.remove key kh degree (.Leaf (.Collision es)) depth
                = (.Leaf (.Collision (a :: b :: rest2)), true) := by
              rw [remove_leaf_eq, hbr]
            simp only [RemoveSpecP, hstep]
            refine ⟨?_, ?_, ?_, ?_, ?_, ?_, ?_, ?_⟩
            · intro h; cases h
            · intro _
              simp only [nodeWf, Bool.and_eq_true, List.all_eq_true,
                decide_eq_true_eq]
              refine ⟨⟨⟨⟨hnone, by simp⟩, ?_⟩, ?_⟩, ?_⟩
              · intro y hy
                rw [← hll] at hy
                exact hallwf y (hsubll.subset hy)
              · rw [← hll]
                exact sameHash_sublist hsubll hsame
              · rw [← hll]
                exact distinctKeys_sublist hsubll hdist
            · intro hlt; omega
            · intro y hy
              simp only [nodeEntries] at hy ⊢
              rw [← hll] at hy
              exact hsubll.subset hy
            · simp [Node.get, Bucket.get, hfind_some]
            · have := congrArg List.length hll
              simp only [List.length_append, List.length_cons] at this
              simp only [nodeEntries, List.length_cons, if_true]
              omega
            · simp only [Node.get, Bucket.get]
              rw [← hll]
              exact hfind_rest
            · intro _ _ s2 h2
              exact absurd h2 (by simp)
      · -- no entry matches: nothing changes
        simp only [Bool.not_eq_true] at hf
        obtain ⟨hres, hall⟩ := bucket_utils.lrf_false_char hf
        have hfn : es.find? (fun e => e.matches key kh) = none :=
          List.find?_eq_none.2 (fun y hy => by simp [hall y hy])
        rcases es with _ | ⟨a, _ | ⟨b, rest⟩⟩
        · simp at hlen2
        · simp at hlen2
        · have hbr : (Bucket.Collision (a :: b :: rest) : Bucket K V).remove
              key kh = (some (.Collision (a :: b :: rest)), false) := by
            simp only [Bucket.remove]
            rw [hres, hf]
          have hstep : Node.remove key kh degree
              (.Leaf (.Collision (a :: b :: rest))) depth
              = (.Leaf (.Collision (a :: b :: rest)), false) := by
            rw [remove_leaf_eq, hbr]
          simp only [RemoveSpecP, hstep]
          refine ⟨fun _ => by trivial, fun _ => hwfO, fun _ => hwfO,
            fun x hx => hx, ?_, by simp, ?_, ?_⟩
          · simp [Node.get, Bucket.get, hfn]
          · simp [Node.get, Bucket.get, hfn]
          · intro _ _ s2 h2
            exact absurd h2 (by simp)
  | Branch subtrees =>
    have hwfO := hwf
    simp only [nodeWf, Bool.and_eq_true] at hwf
    obtain ⟨⟨hiso, hsort⟩, hsub⟩ := hwf
    have hlt : depth * u8TrailingZeros degree < 64 := index_isSome_lt hiso
    have hidx : index_from_hash kh depth degree =
        some ((kh >>> (depth * u8TrailingZeros degree)) &&& (degree - 1)) :=
      index_from_hash_eq_some.2 ⟨hlt, rfl⟩
    set ie := (kh >>> (depth * u8TrailingZeros degree)) &&& (degree - 1)
      with hie
    cases hsg : subtrees.get ie with
    | none =>
      have hstep : Node.remove key kh degree (.Branch subtrees) depth
          = (.Branch subtrees, false) := remove_branch_nochild hidx hsg
      simp only [RemoveSpecP, hstep]
      refine ⟨fun _ => by trivial, fun _ => hwfO, fun _ => hwfO, fun x hx => hx,
        ?_, by simp, ?_, ?_⟩
      · rw [Node.get_branch_some hidx, hsg]
        simp
      · rw [Node.get_branch_some hidx, hsg]
        simp
      · intro hyp _ s2 _
        exact hyp subtrees rfl
    | some subtree =>
      obtain ⟨hilt, hcemp, hcdig, hcmin, hcwf⟩ := subtreesWf_get hsub hsg
      have hms : sizeOf subtree < N := by
        have h1 := Node.sizeOf_get hsg
        have h2 : sizeOf (Node.Branch subtrees : Node K V)
            = 1 + sizeOf subtrees := by simp
        omega
      have hIH := ih subtree (depth + 1) hms hcwf
      simp only [RemoveSpecP] at hIH
      obtain ⟨U0, U1, U1b, U2, U3, U4, U5, U6⟩ := hIH
      obtain ⟨l1, l2, hE1, hE2, hE3⟩ :=
        SparseArrayUsize.entries_decomp hsort hsg
          (Node.remove key kh degree subtree (depth + 1)).1
      cases hr2 : (Node.remove key kh degree subtree (depth + 1)).2 with
      | false =>
        have hceq := U0 hr2
        have hset : subtrees.set ie
            (Node.remove key kh degree subtree (depth + 1)).1 = subtrees := by
          rw [hceq]
          exact set_of_get hsort hsg
        have hstep2 := remove_branch_child_false hidx hsg hr2
        rw [hset] at hstep2
        simp only [RemoveSpecP, hstep2]
        refine ⟨fun _ => by trivial, fun _ => hwfO, fun _ => hwfO, fun x hx => hx,
          ?_, by simp, ?_, ?_⟩
        · rw [Node.get_branch_some hidx, hsg]
          simp only [Option.some_bind, Bool.false_eq_true, false_iff]
          intro hiso2
          exact absurd (U3.2 hiso2) (by simp [hr2])
        · rw [Node.get_branch_some hidx, hsg]
          simp only [Option.some_bind]
          rw [← hceq]
          exact U5
        · intro hyp _ s2 _
          exact hyp subtrees rfl
      | true =>
        cases hce : (Node.remove key kh degree subtree (depth + 1)).1.is_empty
            with
        | false =>
          -- the child stays: store it back and compress
          have hstep2 := remove_branch_child_true_nonempty hidx hsg hr2 hce
          have hwfset : nodeWf hasher degree
              (.Branch (subtrees.set ie
                (Node.remove key kh degree subtree (depth + 1)).1)) depth
              = true := by
            simp only [nodeWf, Bool.and_eq_true]
            refine ⟨⟨hiso, SparseArrayUsize.sorted_set hsort⟩, ?_⟩
            exact subtreesWf_set hsub hilt hce
              (fun x hx => hcdig x (U2 x hx)) (U6 hcmin hce) (U1 hce)
          simp only [RemoveSpecP, hstep2]
          refine ⟨?_, ?_, ?_, ?_, ?_, ?_, ?_, ?_⟩
          · intro h; cases h
          · intro _
            exact compress_wf hwfset
          · intro _
            exact compress_wf hwfset
          · intro x hx
            rw [compress_entries] at hx
            simp only [nodeEntries] at hx ⊢
            rw [hE2] at hx
            rw [hE1]
            simp only [List.mem_append] at hx ⊢
            rcases hx with hx | hx
            · exact Or.inl hx
            · rcases hx with hx | hx
              · exact Or.inr (Or.inl (U2 x hx))
              · exact Or.inr (Or.inr hx)
          · rw [Node.get_branch_some hidx, hsg]
            simp only [Option.some_bind]
            simp [U3.1 hr2]
          · rw [compress_entries]
            simp only [nodeEntries]
            rw [hE1, hE2]
            have hlen := U4
            rw [hr2] at hlen
            simp only [if_true] at hlen
            simp only [List.length_append, if_true]
            omega
          · rw [compress_get hwfset]
            rw [Node.get_branch_some hidx,
              SparseArrayUsize.get_set_self]
            simp only [Option.some_bind]
            exact U5
          · intro _ hne s2 h2
            exact compress_branch_min2 hwfset hne s2 h2
        | true =>
          -- the child emptied: drop it and compress
          have hstep2 := remove_branch_child_true_empty hidx hsg hr2 hce
          have hcnil : nodeEntries
              (Node.remove key kh degree subtree (depth + 1)).1 = [] :=
            entries_nil_of_is_empty hce
          have hwfrem : nodeWf hasher degree
              (.Branch (subtrees.remove ie)) depth = true := by
            simp only [nodeWf, Bool.and_eq_true]
            exact ⟨⟨hiso, SparseArrayUsize.sorted_remove hsort⟩,
              subtreesWf_remove hsub⟩
          simp only [RemoveSpecP, hstep2]
          refine ⟨?_, ?_, ?_, ?_, ?_, ?_, ?_, ?_⟩
          · intro h; cases h
          · intro _
            exact compress_wf hwfrem
          · intro _
            exact compress_wf hwfrem
          · intro x hx
            rw [compress_entries] at hx
            simp only [nodeEntries] at hx ⊢
            rw [hE3] at hx
            rw [hE1]
            simp only [List.mem_append] at hx ⊢
            rcases hx with hx | hx
            · exact Or.inl hx
            · exact Or.inr (Or.inr hx)
          · rw [Node.get_branch_some hidx, hsg]
            simp only [Option.some_bind]
            simp [U3.1 hr2]
          · rw [compress_entries]
            simp only [nodeEntries]
            rw [hE1, hE3]
            have hlen := U4
            rw [hr2, hcnil] at hlen
            simp only [if_true, List.length_nil] at hlen
            simp only [List.length_append, if_true]
            omega
          · rw [compress_get hwfrem]
            rw [Node.get_branch_some hidx,
              SparseArrayUsize.get_remove_self hsort]
            simp
          · intro _ hne s2 h2
            exact compress_branch_min2 hwfrem hne s2 h2

end MainRemove
end Rpds

namespace Rpds

section MapLevel

variable {K V : Type} [DecidableEq K]

/-- Map-level summary of `insert_mut`: well-formedness is preserved, the
inserted key maps to the new value, all other keys are untouched, and the
size grows by one exactly when the key was absent.  The hash of the
inserted key must fit in 64 bits (on the source side hashes are `u64` by
construction). -/
theorem insert_mut_spec (m : HashTrieMap K V) (k : K) (v : V)
    (hb : 0 < u8TrailingZeros m.degree)
    (hwf : mapWf m = true)
    (hh : m.hasher_builder k < 2 ^ 64) :
    mapWf (m.insert_mut k v hb) = true ∧
    (m.insert_mut k v hb).get k = some v ∧
    (∀ q, q ≠ k → (m.insert_mut k v hb).get q = m.get q) ∧
    (m.insert_mut k v hb).size
      = m.size + (if m.contains_key k then 0 else 1) ∧
    (m.insert_mut k v hb).degree = m.degree ∧
    (m.insert_mut k v hb).hasher_builder = m.hasher_builder ∧
    (m.insert_mut k v hb).entriesList.length
      = m.entriesList.length + (if m.contains_key k then 0 else 1) := by
  have hwf2 := hwf
  simp only [mapWf, Bool.and_eq_true, beq_iff_eq] at hwf2
  obtain ⟨⟨hdeg, hroot⟩, hsize⟩ := hwf2
  have hent : entryWf m.hasher_builder
      (EntryWithHash.new m.hasher_builder k v) = true := by
    simp only [entryWf, EntryWithHash.new, node_hash, Bool.and_eq_true,
      beq_iff_eq, decide_eq_true_eq]
    exact ⟨trivial, hh⟩
  have hspec := insert_spec hdeg hb 130 m.root
    (EntryWithHash.new m.hasher_builder k v) 0
    (by have := tag_le_one m.root; omega) hroot hent
    (by intro x hx t ht; omega)
  simp only [InsertSpecP] at hspec
  obtain ⟨W1, W2, W3, W4, W5, W6, W7⟩ := hspec
  have hkey : (EntryWithHash.new m.hasher_builder k v).key = k := rfl
  have hhash : (EntryWithHash.new m.hasher_builder k v).keyHash
      = node_hash m.hasher_builder k := rfl
  rw [hkey, hhash] at W3 W5 W6
  have hcont : m.contains_key k
      = (Node.get k (node_hash m.hasher_builder k) m.degree m.root 0).isSome := by
    simp [HashTrieMap.contains_key, HashTrieMap.get, Option.isSome_map]
  refine ⟨?_, ?_, ?_, ?_, rfl, rfl, ?_⟩
  · simp only [mapWf, HashTrieMap.insert_mut, Bool.and_eq_true, beq_iff_eq]
    refine ⟨⟨hdeg, W1⟩, ?_⟩
    rw [W4]
    cases hr2 : (m.root.insert m.degree hb
        (EntryWithHash.new m.hasher_builder k v) 0).2 <;> simp <;> omega
  · simp only [HashTrieMap.get, HashTrieMap.insert_mut]
    rw [W5]
    rfl
  · intro q hq
    simp only [HashTrieMap.get, HashTrieMap.insert_mut]
    rw [W6 q (node_hash m.hasher_builder q) (fun hc => hq hc.1)]
  · simp only [HashTrieMap.insert_mut, hcont]
    rcases hr2 : (m.root.insert m.degree hb
        (EntryWithHash.new m.hasher_builder k v) 0).2 with _ | _
    · have : ¬ (Node.get k (node_hash m.hasher_builder k) m.degree m.root 0
          = none) := by
        intro hc
        rw [← W3] at hc
        simp [hr2] at hc
      rcases hg : Node.get k (node_hash m.hasher_builder k) m.degree m.root 0
          with _ | e
      · exact absurd hg this
      · simp [hg]
    · have hg := W3.1 hr2
      rw [hg]
      simp
  · simp only [HashTrieMap.entriesList, HashTrieMap.insert_mut, hcont]
    rw [W4]
    rcases hr2 : (m.root.insert m.degree hb
        (EntryWithHash.new m.hasher_builder k v) 0).2 with _ | _
    · have : ¬ (Node.get k (node_hash m.hasher_builder k) m.degree m.root 0
          = none) := by
        intro hc
        rw [← W3] at hc
        simp [hr2] at hc
      rcases hg : Node.get k (node_hash m.hasher_builder k) m.degree m.root 0
          with _ | e
      · exact absurd hg this
      · simp [hg]
    · have hg := W3.1 hr2
      rw [hg]
      simp

/-- Map-level summary of `remove_mut`: well-formedness is preserved, the
returned flag reports whether the key was present, the key is absent
afterwards, and the size shrinks by one exactly on a hit. -/
theorem remove_mut_spec (m : HashTrieMap K V) (k : K)
    (hwf : mapWf m = true) :
    mapWf (m.remove_mut k).1 = true ∧
    (m.remove_mut k).2 = m.contains_key k ∧
    (m.remove_mut k).1.get k = none ∧
    (m.remove_mut k).1.size
      = m.size - (if m.contains_key k then 1 else 0) ∧
    (m.remove_mut k).1.degree = m.degree ∧
    (m.remove_mut k).1.hasher_builder = m.hasher_builder ∧
    m.entriesList.length
      = (m.remove_mut k).1.entriesList.length
        + (if m.contains_key k then 1 else 0) := by
  have hwf2 := hwf
  simp only [mapWf, Bool.and_eq_true, beq_iff_eq] at hwf2
  obtain ⟨⟨hdeg, hroot⟩, hsize⟩ := hwf2
  have hspec := remove_spec hdeg k (node_hash m.hasher_builder k)
    (sizeOf m.root + 1) m.root 0 (by omega) hroot
  simp only [RemoveSpecP] at hspec
  obtain ⟨U0, U1, U1b, U2, U3, U4, U5, U6⟩ := hspec
  have hwfr : nodeWf m.hasher_builder m.degree
      (Node.remove k (node_hash m.hasher_builder k) m.degree m.root 0).1 0
      = true := U1b (by simp)
  have hcont : m.contains_key k
      = (Node.get k (node_hash m.hasher_builder k) m.degree m.root 0).isSome := by
    simp [HashTrieMap.contains_key, HashTrieMap.get, Option.isSome_map]
  have hflag : (Node.remove k (node_hash m.hasher_builder k) m.degree
      m.root 0).2 = m.contains_key k := by
    rw [hcont]
    rcases hr2 : (Node.remove k (node_hash m.hasher_builder k) m.degree
        m.root 0).2 with _ | _
    · rcases hg : Node.get k (node_hash m.hasher_builder k) m.degree m.root 0
          with _ | e
      · simp
      · exfalso
        have : (Node.get k (node_hash m.hasher_builder k) m.degree
            m.root 0).isSome = true := by simp [hg]
        exact absurd (U3.2 this) (by simp [hr2])
    · exact (U3.1 hr2).symm
  simp only [HashTrieMap.remove_mut]
  rcases hr2 : (Node.remove k (node_hash m.hasher_builder k) m.degree
      m.root 0).2 with _ | _
  · rw [hr2] at hflag
    simp only [if_false, Bool.false_eq_true, ← hflag, if_false]
    have hnode := U0 hr2
    refine ⟨?_, by trivial, ?_, by simp, by trivial, by trivial, ?_⟩
    · simp only [mapWf, Bool.and_eq_true, beq_iff_eq]
      exact ⟨⟨hdeg, hwfr⟩, by rw [hnode]; exact hsize⟩
    · simp only [HashTrieMap.get]
      rw [U5]
      rfl
    · simp only [HashTrieMap.entriesList]
      rw [hnode]
      simp
  · rw [hr2] at hflag
    simp only [if_true, ← hflag, if_true]
    have hlen := U4
    rw [hr2] at hlen
    simp only [if_true] at hlen
    refine ⟨?_, by trivial, ?_, by simp, by trivial, by trivial, ?_⟩
    · simp only [mapWf, Bool.and_eq_true, beq_iff_eq]
      refine ⟨⟨hdeg, hwfr⟩, ?_⟩
      omega
    · simp only [HashTrieMap.get]
      rw [U5]
      rfl
    · simp only [HashTrieMap.entriesList]
      omega

end MapLevel
end Rpds

namespace Rpds

section Equality

variable {K V : Type} [DecidableEq K]

/-- The value bound to `q` after the whole list is inserted: the LAST
binding for `q` wins (later `insert_mut`s overwrite earlier ones). -/
def assocLast : List (K × V) → K → Option V
  | [], _ => none
  | (k, v) :: t, q =>
    match assocLast t q with
    | some w => some w
    | none => if k = q then some v else none

/-- A stored entry is returned by `get` on its key. -/
theorem entries_get {m : HashTrieMap K V} (hw : mapWf m = true)
    {e : EntryWithHash K V} (hmem : e ∈ m.entriesList) :
    m.get e.key = some e.value := by
  have hw2 := hw
  simp only [mapWf, Bool.and_eq_true, beq_iff_eq] at hw2
  obtain ⟨⟨hdeg, hroot⟩, hsize⟩ := hw2
  have hwe := wf_entry_all hroot e hmem
  have hhash : e.keyHash = m.hasher_builder e.key := (entryWf_parts hwe).1
  have hget := mem_get hroot hmem
  simp only [HashTrieMap.get, node_hash]
  rw [← hhash, hget]
  rfl

/-- For an entry whose cached hash agrees with the map's hasher,
membership in the entry sequence is exactly a successful lookup. -/
theorem entries_mem_iff {m : HashTrieMap K V} (hw : mapWf m = true)
    {e : EntryWithHash K V}
    (hwe : entryWf m.hasher_builder e = true) :
    e ∈ m.entriesList ↔ m.get e.key = some e.value := by
  constructor
  · exact entries_get hw
  · intro hg
    obtain ⟨e2, hmem2, hk2, hv2⟩ := (map_get_iff hw).1 hg
    have hw2 := hw
    simp only [mapWf, Bool.and_eq_true, beq_iff_eq] at hw2
    obtain ⟨⟨hdeg, hroot⟩, hsize⟩ := hw2
    have hwe2 := wf_entry_all hroot e2 hmem2
    have hh2 : e2.keyHash = m.hasher_builder e2.key := (entryWf_parts hwe2).1
    have hh : e.keyHash = m.hasher_builder e.key := (entryWf_parts hwe).1
    have : e2 = e := by
      cases e with
      | mk k v kh =>
        cases e2 with
        | mk k2 v2 kh2 =>
          simp only at hk2 hv2 hh hh2
          subst hk2
          subst hv2
          simp only [EntryWithHash.mk.injEq, and_true, true_and]
          rw [hh, hh2]
    rw [← this]
    exact hmem2

/-- The entry sequence of a well-formed map has no duplicates (the keys are
already pairwise distinct). -/
theorem entries_nodup {m : HashTrieMap K V} (hw : mapWf m = true) :
    m.entriesList.Nodup := by
  have hw2 := hw
  simp only [mapWf, Bool.and_eq_true, beq_iff_eq] at hw2
  obtain ⟨⟨hdeg, hroot⟩, hsize⟩ := hw2
  have hp := wf_keys_pairwise hroot
  exact hp.imp (fun h heq => h (by rw [heq]))

/-- `PartialEq` holds whenever the observable `get` functions agree: the
entry sequences are then permutations of each other, so the sizes agree,
and every entry of the left map is found in the right one. -/
theorem eqv_of_get_eq [DecidableEq V] {m1 m2 : HashTrieMap K V}
    (hw1 : mapWf m1 = true) (hw2 : mapWf m2 = true)
    (hhb : m1.hasher_builder = m2.hasher_builder)
    (hget : ∀ q, m1.get q = m2.get q) : m1.eqv m2 = true := by
  have hroot1 : nodeWf m1.hasher_builder m1.degree m1.root 0 = true := by
    have h := hw1
    simp only [mapWf, Bool.and_eq_true, beq_iff_eq] at h
    exact h.1.2
  have hroot2 : nodeWf m2.hasher_builder m2.degree m2.root 0 = true := by
    have h := hw2
    simp only [mapWf, Bool.and_eq_true, beq_iff_eq] at h
    exact h.1.2
  have hperm : m1.entriesList.Perm m2.entriesList := by
    rw [List.perm_ext_iff_of_nodup (entries_nodup hw1) (entries_nodup hw2)]
    intro e
    constructor
    · intro h
      have hwe : entryWf m2.hasher_builder e = true := by
        rw [← hhb]
        exact wf_entry_all hroot1 e h
      rw [entries_mem_iff hw2 hwe, ← hget]
      exact entries_get hw1 h
    · intro h
      have hwe : entryWf m1.hasher_builder e = true := by
        rw [hhb]
        exact wf_entry_all hroot2 e h
      rw [entries_mem_iff hw1 hwe, hget]
      exact entries_get hw2 h
  have hsz : m1.size = m2.size := by
    have h1 := hw1
    have h2 := hw2
    simp only [mapWf, Bool.and_eq_true, beq_iff_eq] at h1 h2
    rw [h1.2, h2.2]
    exact hperm.length_eq
  simp only [HashTrieMap.eqv, Bool.and_eq_true, beq_iff_eq,
    List.all_eq_true]
  refine ⟨hsz, ?_⟩
  intro e he
  have hg := entries_get hw1 he
  rw [hget e.key] at hg
  simp [hg]

/-- `PartialEq` fails as soon as one key maps to different values. -/
theorem eqv_false_of_value_ne [DecidableEq V] {m1 m2 : HashTrieMap K V}
    (hw1 : mapWf m1 = true) {k : K} {v1 v2 : V}
    (hg1 : m1.get k = some v1) (hg2 : m2.get k = some v2)
    (hne : v1 ≠ v2) : m1.eqv m2 = false := by
  obtain ⟨e, hmem, hk, hv⟩ := (map_get_iff hw1).1 hg1
  have hall : (m1.entriesList.all (fun e =>
      match m2.get e.key with
      | some v => v == e.value
      | none => false)) = false := by
    rw [List.all_eq_false]
    refine ⟨e, hmem, ?_⟩
    rw [hk, hg2, hv]
    simp [Ne.symm hne]
  simp [HashTrieMap.eqv, hall]

/-- What `insert_list` builds: well-formedness and the degree and hasher
are preserved, and `get` returns the last binding in the list, falling
back to the starting map. -/
theorem insert_list_spec :
    ∀ (l : List (K × V)) (m : HashTrieMap K V)
      (hb : 0 < u8TrailingZeros m.degree),
      mapWf m = true → (∀ p ∈ l, m.hasher_builder p.1 < 2 ^ 64) →
      mapWf (m.insert_list hb l) = true ∧
      (m.insert_list hb l).degree = m.degree ∧
      (m.insert_list hb l).hasher_builder = m.hasher_builder ∧
      ∀ q, (m.insert_list hb l).get q =
        match assocLast l q with
        | some v => some v
        | none => m.get q := by
  intro l
  induction l with
  | nil =>
    intro m hb hwf hh
    refine ⟨hwf, rfl, rfl, ?_⟩
    intro q
    simp [HashTrieMap.insert_list, assocLast]
  | cons p t ih =>
    intro m hb hwf hh
    obtain ⟨k, v⟩ := p
    have hins := insert_mut_spec m k v hb hwf (hh (k, v) (by simp))
    obtain ⟨h1, h2, h3, h4, h5, h6, h7⟩ := hins
    have hrec := ih (m.insert_mut k v hb) hb h1
      (fun p hp => hh p (by simp [hp]))
    obtain ⟨g1, g2, g3, g4⟩ := hrec
    simp only [HashTrieMap.insert_list]
    refine ⟨g1, g2, g3, ?_⟩
    intro q
    rw [g4 q]
    simp only [assocLast]
    cases hA : assocLast t q with
    | some w => rfl
    | none =>
      by_cases hqk : q = k
      · subst hqk
        rw [if_pos rfl]
        exact h2
      · rw [if_neg (fun h => hqk h.symm)]
        exact h3 q hqk

end Equality
end Rpds

namespace Rpds

section Iterator

variable {K V : Type}

mutual
/-- No reachable part of the node is empty: branches have children, and
collision lists are non-empty (what a well-formed non-empty node looks like
to the iterator, with the depth bookkeeping erased). -/
def noEmpty : Node K V → Prop
  | .Leaf (.Single _) => True
  | .Leaf (.Collision es) => es ≠ []
  | .Branch s => s.values ≠ [] ∧ sparseNoEmpty s
/-- All children of the sparse array are `noEmpty`. -/
def sparseNoEmpty : SparseArrayUsize K V → Prop
  | .nil => True
  | .cons _ c t => noEmpty c ∧ sparseNoEmpty t
end

theorem sparseNoEmpty_values {s : SparseArrayUsize K V}
    (h : sparseNoEmpty s) : ∀ c ∈ s.values, noEmpty c := by
  induction s with
  | nil => simp [SparseArrayUsize.values]
  | cons i c t ih =>
    rw [sparseNoEmpty] at h
    intro x hx
    simp only [SparseArrayUsize.values, List.mem_cons] at hx
    rcases hx with rfl | hx
    · exact h.1
    · exact ih h.2 x hx

/-- A `noEmpty` node stores at least one entry. -/
theorem noEmpty_entries : ∀ {n : Node K V}, noEmpty n → nodeEntries n ≠ []
  | .Leaf (.Single _), _ => by simp [nodeEntries]
  | .Leaf (.Collision es), h => by
    rw [noEmpty] at h
    simpa [nodeEntries] using h
  | .Branch s, h => by
    rw [noEmpty] at h
    obtain ⟨hval, hsp⟩ := h
    cases s with
    | nil => simp [SparseArrayUsize.values] at hval
    | cons i c t =>
      rw [sparseNoEmpty] at hsp
      have hc := noEmpty_entries hsp.1
      simp only [nodeEntries, sparseEntries]
      intro hcon
      rw [List.append_eq_nil] at hcon
      exact hc hcon.1

/-- Well-formed non-empty nodes are `noEmpty`. -/
theorem noEmpty_of_wf [DecidableEq K] {hasher : K → Nat} {degree : Nat} :
    ∀ {n : Node K V} {depth : Nat}, nodeWf hasher degree n depth = true →
      n.is_empty = false → noEmpty n := by
  intro n
  induction n using Node.strongInd with
  | _ n IH =>
  intro depth hwf hne
  cases n with
  | Leaf b =>
    cases b with
    | Single e => rw [noEmpty]; trivial
    | Collision es =>
      rw [noEmpty]
      simp only [nodeWf, Bool.and_eq_true, decide_eq_true_eq] at hwf
      intro hcon
      subst hcon
      have := hwf.1.1.1.2
      simp at this
  | Branch s =>
    simp only [nodeWf, Bool.and_eq_true] at hwf
    obtain ⟨⟨hiso, hsort⟩, hsub⟩ := hwf
    rw [noEmpty]
    constructor
    · cases s with
      | nil => simp [Node.is_empty, SparseArrayUsize.size] at hne
      | cons i c t => simp [SparseArrayUsize.values]
    · clear hne hiso hsort
      induction s with
      | nil => rw [sparseNoEmpty]; trivial
      | cons i c t iht =>
        simp only [subtreesWf, Bool.and_eq_true, Bool.not_eq_true'] at hsub
        obtain ⟨⟨⟨⟨⟨hidx, hemp⟩, hdig⟩, hmin⟩, hcwf⟩, hrest⟩ := hsub
        rw [sparseNoEmpty]
        constructor
        · exact IH c (by simp; omega) hcwf hemp
        · exact iht (fun c2 hsz => IH c2 (by simp at hsz ⊢; omega)) hrest

/-- All entries a frame still covers, including the peeked element. -/
def elemAll : IterStackElement K V → List (EntryWithHash K V)
  | .Branch children => children.flatMap nodeEntries
  | .LeafSingle e => [e]
  | .LeafCollision es => es

/-- The entries a frame covers beyond its peeked element (what the frame
contributes when it sits below the top of the stack). -/
def elemRest : IterStackElement K V → List (EntryWithHash K V)
  | .Branch children => children.tail.flatMap nodeEntries
  | .LeafSingle _ => []
  | .LeafCollision es => es.tail

/-- Entries still to be produced by the frames below the top. -/
def stackRest : List (IterStackElement K V) → List (EntryWithHash K V)
  | [] => []
  | f :: t => elemRest f ++ stackRest t

/-- Entries still to be produced by the whole stack. -/
def stackRemaining : List (IterStackElement K V) → List (EntryWithHash K V)
  | [] => []
  | f :: t => elemAll f ++ stackRest t

/-- A frame that may sit on top of a fully dug stack: a leaf with a
non-exhausted cursor. -/
def frameGood : IterStackElement K V → Prop
  | .Branch _ => False
  | .LeafSingle _ => True
  | .LeafCollision es => es ≠ []

/-- Frames below the top: branch cursors with a peeked child, all children
wholly non-empty. -/
def deepGood : List (IterStackElement K V) → Prop
  | [] => True
  | .Branch children :: t =>
      children ≠ [] ∧ (∀ c ∈ children, noEmpty c) ∧ deepGood t
  | _ => False

/-- A stack in the state `next` expects: empty, or a good leaf frame on
top of branch frames. -/
def stackGood : List (IterStackElement K V) → Prop
  | [] => True
  | f :: t => frameGood f ∧ deepGood t

/-- Precondition of `digStack`: the stack is well-shaped except that the
top may still be a branch cursor. -/
def preGood : List (IterStackElement K V) → Prop
  | [] => True
  | .Branch children :: t =>
      children ≠ [] ∧ (∀ c ∈ children, noEmpty c) ∧ deepGood t
  | f :: t => frameGood f ∧ deepGood t

theorem preGood_of_stackGood {s : List (IterStackElement K V)}
    (h : stackGood s) : preGood s := by
  cases s with
  | nil => rw [preGood]; trivial
  | cons f t =>
    rw [stackGood] at h
    cases f with
    | Branch children => exact absurd h.1 (by rw [frameGood]; simp)
    | LeafSingle e => exact h
    | LeafCollision es => exact h

/-- A fresh frame satisfies `preGood` on top of good deep frames. -/
theorem preGood_new {n : Node K V} (hn : noEmpty n)
    {t : List (IterStackElement K V)} (ht : deepGood t) :
    preGood (IterStackElement.new n :: t) := by
  cases n with
  | Branch s =>
    rw [noEmpty] at hn
    simp only [IterStackElement.new, preGood]
    exact ⟨hn.1, sparseNoEmpty_values hn.2, ht⟩
  | Leaf b =>
    cases b with
    | Single e =>
      simp only [IterStackElement.new, preGood, frameGood]
      exact ⟨trivial, ht⟩
    | Collision es =>
      rw [noEmpty] at hn
      simp only [IterStackElement.new, preGood, frameGood]
      exact ⟨hn, ht⟩

/-- `elemAll` of a fresh frame is the node's entry sequence. -/
theorem elemAll_new (n : Node K V) :
    elemAll (IterStackElement.new n) = nodeEntries n := by
  cases n with
  | Branch s =>
    simp only [IterStackElement.new, elemAll, nodeEntries]
    exact (SparseArrayUsize.sparseEntries_eq_values_flatMap s).symm
  | Leaf b => cases b <;> simp [IterStackElement.new, elemAll, nodeEntries]

theorem digStack_cons_branch (node : Node K V) (rest : List (Node K V))
    (stack : List (IterStackElement K V)) :
    digStack (.Branch (node :: rest) :: stack) =
      digStack (IterStackElement.new node :: .Branch (node :: rest) :: stack)
    := by
  conv_lhs => rw [digStack]

theorem digStack_nil : digStack ([] : List (IterStackElement K V)) = [] := by
  rw [digStack]
  intro node rest stack h
  simp at h

theorem digStack_branch_nil (stack : List (IterStackElement K V)) :
    digStack (.Branch ([] : List (Node K V)) :: stack)
      = .Branch [] :: stack := by
  rw [digStack]
  intro node rest stack2 h
  simp at h

theorem digStack_leaf_single (e : EntryWithHash K V)
    (stack : List (IterStackElement K V)) :
    digStack (.LeafSingle e :: stack) = .LeafSingle e :: stack := by
  rw [digStack]
  intro node rest stack2 h
  simp at h

theorem digStack_leaf_collision (es : List (EntryWithHash K V))
    (stack : List (IterStackElement K V)) :
    digStack (.LeafCollision es :: stack) = .LeafCollision es :: stack := by
  rw [digStack]
  intro node rest stack2 h
  simp at h

theorem advanceStack_nil :
    advanceStack ([] : List (IterStackElement K V)) = [] := rfl

theorem advanceStack_cons (f : IterStackElement K V)
    (t : List (IterStackElement K V)) :
    advanceStack (f :: t) =
      if (f.advance).2 then advanceStack t
      else digStack ((f.advance).1 :: t) := rfl

/-- `digStack` preserves the remaining-entry sequence and establishes the
good-stack invariant. -/
theorem digStack_spec :
    ∀ (N : Nat) (s : List (IterStackElement K V)),
      (match s with | f :: _ => sizeOf f | [] => 0) < N → preGood s →
      stackGood (digStack s) ∧ stackRemaining (digStack s) = stackRemaining s
  := by
  intro N
  induction N with
  | zero => intro s hm; omega
  | succ N ih =>
  intro s hm hpre
  cases s with
  | nil => rw [digStack_nil]; exact ⟨trivial, rfl⟩
  | cons f t =>
    cases f with
    | LeafSingle e => rw [digStack_leaf_single]; exact ⟨hpre, rfl⟩
    | LeafCollision es => rw [digStack_leaf_collision]; exact ⟨hpre, rfl⟩
    | Branch children =>
      rw [preGood] at hpre
      obtain ⟨hne, hall, hdeep⟩ := hpre
      cases children with
      | nil => exact absurd rfl hne
      | cons c cs =>
        rw [digStack_cons_branch]
        have hnc : noEmpty c := hall c (by simp)
        have hpre2 : preGood (IterStackElement.new c
            :: .Branch (c :: cs) :: t) :=
          preGood_new hnc (by rw [deepGood]; exact ⟨by simp, hall, hdeep⟩)
        have hm2 : (match (IterStackElement.new c :: .Branch (c :: cs) :: t :
            List (IterStackElement K V)) with
            | f :: _ => sizeOf f | [] => 0) < N := by
          have := sizeOf_new_lt c cs
          simp only
          simp only at hm
          omega
        obtain ⟨hg, hr⟩ := ih _ hm2 hpre2
        refine ⟨hg, ?_⟩
        rw [hr]
        show elemAll (IterStackElement.new c)
            ++ (elemRest (.Branch (c :: cs)) ++ stackRest t)
          = elemAll (.Branch (c :: cs)) ++ stackRest t
        rw [elemAll_new]
        simp only [elemRest, elemAll, List.tail_cons, List.flatMap_cons,
          List.append_assoc]

/-- Popping finished frames: `advanceStack` of a stack of deep frames
yields a good stack producing exactly the frames' rest-entries. -/
theorem backtrack_spec :
    ∀ (t : List (IterStackElement K V)), deepGood t →
      stackGood (advanceStack t) ∧
      stackRemaining (advanceStack t) = stackRest t := by
  intro t
  induction t with
  | nil =>
    intro _
    rw [advanceStack_nil]
    exact ⟨trivial, rfl⟩
  | cons f t2 ih =>
    intro hdeep
    cases f with
    | LeafSingle e => exact False.elim hdeep
    | LeafCollision es => exact False.elim hdeep
    | Branch children =>
      rw [deepGood] at hdeep
      obtain ⟨hne, hall, hdeep2⟩ := hdeep
      cases children with
      | nil => exact absurd rfl hne
      | cons c cs =>
        cases cs with
        | nil =>
          rw [advanceStack_cons]
          simp only [IterStackElement.advance, List.tail_cons,
            List.isEmpty_nil, if_true]
          obtain ⟨hg, hr⟩ := ih hdeep2
          refine ⟨hg, ?_⟩
          rw [hr]
          simp [stackRest, elemRest]
        | cons c2 cs2 =>
          rw [advanceStack_cons]
          simp only [IterStackElement.advance, List.tail_cons,
            List.isEmpty_cons, if_false, Bool.false_eq_true]
          have hpre : preGood (.Branch (c2 :: cs2) :: t2 :
              List (IterStackElement K V)) := by
            rw [preGood]
            exact ⟨by simp, fun x hx => hall x (by simp [hx]), hdeep2⟩
          obtain ⟨hg, hr⟩ := digStack_spec
            (sizeOf (IterStackElement.Branch (c2 :: cs2) :
              IterStackElement K V) + 1) _ (by simp) hpre
          refine ⟨hg, ?_⟩
          rw [hr]
          simp [stackRemaining, stackRest, elemAll, elemRest]

/-- One `next` step on a good non-empty stack: the head of the remaining
sequence is produced and the invariant is maintained. -/
theorem advance_spec {f : IterStackElement K V}
    {t : List (IterStackElement K V)} (hg : stackGood (f :: t)) :
    ∃ e, f.current_elem = some e ∧
      stackRemaining (f :: t) = e :: stackRemaining (advanceStack (f :: t)) ∧
      stackGood (advanceStack (f :: t)) := by
  rw [stackGood] at hg
  obtain ⟨hf, hdeep⟩ := hg
  cases f with
  | Branch children => exact absurd hf (by rw [frameGood]; simp)
  | LeafSingle e =>
    refine ⟨e, rfl, ?_⟩
    rw [advanceStack_cons]
    simp only [IterStackElement.advance, if_true]
    obtain ⟨hg2, hr2⟩ := backtrack_spec t hdeep
    rw [hr2]
    exact ⟨by simp [stackRemaining, elemAll], hg2⟩
  | LeafCollision es =>
    rw [frameGood] at hf
    cases es with
    | nil => exact absurd rfl hf
    | cons e es2 =>
      refine ⟨e, rfl, ?_⟩
      rw [advanceStack_cons]
      cases es2 with
      | nil =>
        simp only [IterStackElement.advance, List.tail_cons,
          List.isEmpty_nil, if_true]
        obtain ⟨hg2, hr2⟩ := backtrack_spec t hdeep
        rw [hr2]
        exact ⟨by simp [stackRemaining, elemAll], hg2⟩
      | cons e2 es3 =>
        simp only [IterStackElement.advance, List.tail_cons,
          List.isEmpty_cons, if_false, Bool.false_eq_true]
        rw [digStack_leaf_collision]
        constructor
        · simp [stackRemaining, elemAll, stackRest, elemRest]
        · rw [stackGood]
          exact ⟨by rw [frameGood]; simp, hdeep⟩

/-- Running a good iterator to exhaustion produces exactly the remaining
sequence. -/
theorem run_spec :
    ∀ (fuel : Nat) (s : List (IterStackElement K V)) (n : Nat),
      stackGood s → (stackRemaining s).length ≤ fuel →
      IterPtr.run fuel ⟨s, n⟩ = stackRemaining s := by
  intro fuel
  induction fuel with
  | zero =>
    intro s n hg hlen
    have h0 : stackRemaining s = [] := List.length_eq_zero.1 (by omega)
    rw [IterPtr.run, h0]
  | succ fuel ih =>
    intro s n hg hlen
    cases s with
    | nil =>
      rw [IterPtr.run]
      show (match (IterPtr.next (⟨[], n⟩ : IterPtr K V)) with
        | (some e, it2) => e :: IterPtr.run fuel it2
        | (none, _) => ([] : List (EntryWithHash K V)))
        = stackRemaining ([] : List (IterStackElement K V))
      have hnext : IterPtr.next (⟨[], n⟩ : IterPtr K V)
          = (none, ⟨[], n⟩) := rfl
      rw [hnext, stackRemaining]
    | cons f t =>
      obtain ⟨e, hcur, hrem, hg2⟩ := advance_spec hg
      have hnext : IterPtr.next (⟨f :: t, n⟩ : IterPtr K V)
          = (some e, ⟨advanceStack (f :: t), n - 1⟩) := by
        simp only [IterPtr.next, IterPtr.current, hcur, Option.isSome_some,
          if_true]
      rw [IterPtr.run]
      show (match (IterPtr.next (⟨f :: t, n⟩ : IterPtr K V)) with
        | (some e, it2) => e :: IterPtr.run fuel it2
        | (none, _) => ([] : List (EntryWithHash K V)))
        = stackRemaining (f :: t)
      rw [hnext, hrem]
      have hlen2 : (stackRemaining (advanceStack (f :: t))).length ≤ fuel := by
        rw [hrem] at hlen
        simpa using hlen
      show e :: IterPtr.run fuel ⟨advanceStack (f :: t), n - 1⟩
        = e :: stackRemaining (advanceStack (f :: t))
      rw [ih (advanceStack (f :: t)) (n - 1) hg2 hlen2]

/-- The state after `k` steps: still good, the size counter still exactly
the number of entries not yet produced, which is the initial count minus
the number of steps. -/
theorem stepN_spec :
    ∀ (k : Nat) (s : List (IterStackElement K V)) (n : Nat),
      stackGood s → n = (stackRemaining s).length →
      stackGood (IterPtr.stepN k ⟨s, n⟩).stack ∧
      (IterPtr.stepN k ⟨s, n⟩).size
        = (stackRemaining (IterPtr.stepN k ⟨s, n⟩).stack).length ∧
      (IterPtr.stepN k ⟨s, n⟩).size = n - k := by
  intro k
  induction k with
  | zero =>
    intro s n hg hn
    rw [IterPtr.stepN]
    exact ⟨hg, hn, (Nat.sub_zero n).symm⟩
  | succ k ih =>
    intro s n hg hn
    rw [IterPtr.stepN]
    cases s with
    | nil =>
      rw [stackRemaining] at hn
      simp only [List.length_nil] at hn
      subst hn
      have hnext : (IterPtr.next (⟨[], 0⟩ : IterPtr K V)).2 = ⟨[], 0⟩ := rfl
      rw [hnext]
      have hih := ih [] 0 trivial rfl
      exact ⟨hih.1, hih.2.1, by omega⟩
    | cons f t =>
      obtain ⟨e, hcur, hrem, hg2⟩ := advance_spec hg
      have hnext : (IterPtr.next (⟨f :: t, n⟩ : IterPtr K V)).2
          = ⟨advanceStack (f :: t), n - 1⟩ := by
        simp only [IterPtr.next, IterPtr.current, hcur, Option.isSome_some,
          if_true]
      rw [hnext]
      have hn2 : n - 1 = (stackRemaining (advanceStack (f :: t))).length := by
        rw [hn, hrem]
        simp
      obtain ⟨w1, w2, w3⟩ := ih (advanceStack (f :: t)) (n - 1) hg2 hn2
      refine ⟨w1, w2, ?_⟩
      rw [w3]
      have h1 : 1 ≤ n := by
        rw [hn, hrem]
        simp
      omega

/-- `trie_max_height` succeeds for every validated degree of at least 2. -/
theorem trie_max_height_some {d : Nat} (hdeg : degreeWf d = true)
    (hb : 0 < u8TrailingZeros d) :
    (iter_utils.trie_max_height? d).isSome = true := by
  have hpow := degree_eq_pow hdeg
  have htz := tz_le_six hdeg
  have hcase : u8TrailingZeros d = 1 ∨ u8TrailingZeros d = 2 ∨
      u8TrailingZeros d = 3 ∨ u8TrailingZeros d = 4 ∨
      u8TrailingZeros d = 5 ∨ u8TrailingZeros d = 6 := by omega
  rcases hcase with h | h | h | h | h | h <;> rw [hpow, h] <;> decide

/-- Creating an iterator on a well-formed map with a usable degree
succeeds, with a good stack holding exactly the map's entry sequence. -/
theorem new_spec [DecidableEq K] {m : HashTrieMap K V}
    (hwf : mapWf m = true) (hb : 0 < u8TrailingZeros m.degree) :
    ∃ it, IterPtr.new? m = some it ∧ stackGood it.stack ∧
      stackRemaining it.stack = m.entriesList ∧
      it.size = m.entriesList.length := by
  have hwf2 := hwf
  simp only [mapWf, Bool.and_eq_true, beq_iff_eq] at hwf2
  obtain ⟨⟨hdeg, hroot⟩, hsize⟩ := hwf2
  have hth := trie_max_height_some hdeg hb
  rw [Option.isSome_iff_exists] at hth
  obtain ⟨h0, hth⟩ := hth
  simp only [IterPtr.new?, hth]
  by_cases hsz : m.size > 0
  · have hent : nodeEntries m.root ≠ [] := by
      intro hcon
      rw [hsize, hcon] at hsz
      simp at hsz
    have hne : noEmpty m.root :=
      noEmpty_of_wf hroot (is_empty_false_of_entries hent)
    have hpre : preGood [IterStackElement.new m.root] :=
      preGood_new hne trivial
    obtain ⟨hg, hr⟩ := digStack_spec
      (sizeOf (IterStackElement.new m.root) + 1) _ (by simp) hpre
    refine ⟨_, rfl, ?_⟩
    simp only [hsz, if_true]
    refine ⟨hg, ?_, ?_⟩
    · rw [hr]
      show elemAll (IterStackElement.new m.root) ++ stackRest []
        = m.entriesList
      rw [elemAll_new, stackRest]
      simp [HashTrieMap.entriesList]
    · rw [hsize]
      rfl
  · have hsz0 : m.size = 0 := by omega
    have hent : nodeEntries m.root = [] := by
      have h2 := hsize
      rw [hsz0] at h2
      exact (List.length_eq_zero.1 h2.symm)
    refine ⟨_, rfl, ?_⟩
    simp only [hsz, if_false]
    rw [digStack_nil]
    refine ⟨trivial, ?_, ?_⟩
    · rw [stackRemaining, HashTrieMap.entriesList, hent]
    · rw [hsz0, HashTrieMap.entriesList, hent]
      rfl

end Iterator
end Rpds

namespace Rpds

section AssocLast

variable {K V : Type} [DecidableEq K]

/-- A key not bound in the list has no last binding. -/
theorem assocLast_eq_none_of_not_mem {l : List (K × V)} {q : K}
    (h : q ∉ l.map Prod.fst) : assocLast l q = none := by
  induction l with
  | nil => rfl
  | cons p t ih =>
    obtain ⟨k, v⟩ := p
    simp only [List.map_cons, List.mem_cons] at h
    push_neg at h
    rw [assocLast, ih h.2, if_neg (fun hc => h.1 hc.symm)]

/-- With pairwise-distinct keys the (unique) binding for `k` is its last
binding. -/
theorem assocLast_append_cons {la lb : List (K × V)} {k : K} {v : V}
    (hnd : ((la ++ (k, v) :: lb).map Prod.fst).Nodup) :
    assocLast (la ++ (k, v) :: lb) k = some v := by
  induction la with
  | nil =>
    simp only [List.nil_append, List.map_cons, List.nodup_cons] at hnd
    simp only [List.nil_append]
    rw [assocLast, assocLast_eq_none_of_not_mem hnd.1, if_pos rfl]
  | cons p t ih =>
    obtain ⟨k2, v2⟩ := p
    simp only [List.cons_append, List.map_cons, List.nodup_cons] at hnd
    simp only [List.cons_append]
    rw [assocLast, ih hnd.2]

/-- With pairwise-distinct keys, the last-binding lookup is invariant under
permutations of the binding list. -/
theorem assocLast_perm {l1 l2 : List (K × V)} (hp : l1.Perm l2)
    (hnd : (l1.map Prod.fst).Nodup) :
    ∀ q, assocLast l1 q = assocLast l2 q := by
  induction hp with
  | nil => intro q; rfl
  | cons p hp ih =>
    intro q
    obtain ⟨k, v⟩ := p
    simp only [List.map_cons, List.nodup_cons] at hnd
    rw [assocLast, assocLast, ih hnd.2 q]
  | swap p1 p2 l =>
    intro q
    obtain ⟨k1, v1⟩ := p1
    obtain ⟨k2, v2⟩ := p2
    simp only [List.map_cons, List.nodup_cons, List.mem_cons] at hnd
    push_neg at hnd
    have hne : k2 ≠ k1 := hnd.1.1
    cases hA : assocLast l q with
    | some w => simp only [assocLast, hA]
    | none =>
      simp only [assocLast, hA]
      by_cases h1 : k1 = q <;> by_cases h2 : k2 = q
      · exact absurd (h2.trans h1.symm) hne
      · simp [h1, h2]
      · simp [h1, h2]
      · simp [h1, h2]
  | trans hp1 hp2 ih1 ih2 =>
    intro q
    rw [ih1 hnd q, ih2 ((hp1.map Prod.fst).nodup_iff.1 hnd) q]

end AssocLast
end Rpds

namespace Rpds

/-! ## The claims -/

section Claims

/-- A concrete handle (degree 2, identity hasher) used to exercise the
claim theorems on concrete input. -/
def sampleMap : HashTrieMap Nat Nat :=
  { root := Node.new_empty_branch, size := 0, degree := 2,
    hasher_builder := fun n => n }

theorem sampleMap_hb : 0 < u8TrailingZeros sampleMap.degree := by decide

theorem sampleMap_wf : mapWf sampleMap = true := by decide

/-- C1: looking up the inserted key returns the inserted value, both for
the persistent `insert` and for `insert_mut`. -/
theorem claim_C1 {K V : Type} [DecidableEq K] (m : HashTrieMap K V)
    (k : K) (v : V) (hb : 0 < u8TrailingZeros m.degree)
    (hwf : mapWf m = true) (hh : m.hasher_builder k < 2 ^ 64) :
    (m.insert k v hb).get k = some v ∧
    (m.insert_mut k v hb).get k = some v := by
  have h := (insert_mut_spec m k v hb hwf hh).2.1
  exact ⟨h, h⟩

theorem claim_C1_witness :
    0 < u8TrailingZeros sampleMap.degree ∧ mapWf sampleMap = true ∧
    sampleMap.hasher_builder 5 < 2 ^ 64 ∧
    ((sampleMap.insert 5 7 sampleMap_hb).get 5 = some 7 ∧
     (sampleMap.insert_mut 5 7 sampleMap_hb).get 5 = some 7) :=
  ⟨sampleMap_hb, sampleMap_wf, by decide,
    claim_C1 sampleMap 5 7 sampleMap_hb sampleMap_wf (by decide)⟩

/-- C2: persistence.  The embedding is state-passing, so a handle is never
mutated in place; what remains to verify against the source is the
mechanism by which persistence is implemented: `insert` (resp. the no-op
path of `remove`) operates on (resp. returns) a clone of `self`, and a
clone is observationally identical to the original handle — its `get`,
`size`, entry sequence and iterator are those of the original.  Hence no
mutation performed through the new handle can be observed through `A`. -/
theorem claim_C2 {K V : Type} [DecidableEq K] (A : HashTrieMap K V)
    (k : K) (v : V) (hb : 0 < u8TrailingZeros A.degree) :
    A.insert k v hb = A.clone.insert_mut k v hb ∧
    A.remove k = (if (A.clone.remove_mut k).2 then (A.clone.remove_mut k).1
                  else A.clone) ∧
    A.clone = A ∧
    (∀ q, A.clone.get q = A.get q) ∧
    A.clone.size = A.size ∧
    A.clone.entriesList = A.entriesList ∧
    IterPtr.new? A.clone = IterPtr.new? A :=
  ⟨rfl, rfl, rfl, fun _ => rfl, rfl, rfl, rfl⟩

theorem claim_C2_witness :
    0 < u8TrailingZeros sampleMap.degree ∧
    (sampleMap.insert 3 4 sampleMap_hb
        = sampleMap.clone.insert_mut 3 4 sampleMap_hb ∧
      sampleMap.remove 3 = (if (sampleMap.clone.remove_mut 3).2
        then (sampleMap.clone.remove_mut 3).1 else sampleMap.clone) ∧
      sampleMap.clone = sampleMap ∧
      (∀ q, sampleMap.clone.get q = sampleMap.get q) ∧
      sampleMap.clone.size = sampleMap.size ∧
      sampleMap.clone.entriesList = sampleMap.entriesList ∧
      IterPtr.new? sampleMap.clone = IterPtr.new? sampleMap) :=
  ⟨sampleMap_hb, claim_C2 sampleMap 3 4 sampleMap_hb⟩

/-- C3: removing a present key reports `true`, shrinks the size by exactly
one and makes the key absent; removing an absent key reports `false`,
keeps the size, and the pure `remove` returns a clone of `self`. -/
theorem claim_C3 {K V : Type} [DecidableEq K] (m : HashTrieMap K V) (k : K)
    (hwf : mapWf m = true) :
    (m.contains_key k = true →
      (m.remove_mut k).2 = true ∧
      m.size = (m.remove_mut k).1.size + 1 ∧
      (m.remove_mut k).1.get k = none ∧
      (m.remove k).get k = none) ∧
    (m.contains_key k = false →
      (m.remove_mut k).2 = false ∧
      (m.remove_mut k).1.size = m.size ∧
      m.remove k = m.clone) := by
  obtain ⟨h1, h2, h3, h4, h5, h6, h7⟩ := remove_mut_spec m k hwf
  have hsz1 : m.size = m.entriesList.length := by
    have h := hwf
    simp only [mapWf, Bool.and_eq_true, beq_iff_eq] at h
    exact h.2
  have hsz2 : (m.remove_mut k).1.size
      = (m.remove_mut k).1.entriesList.length := by
    have h := h1
    simp only [mapWf, Bool.and_eq_true, beq_iff_eq] at h
    exact h.2
  have hcr : m.clone.remove_mut k = m.remove_mut k := rfl
  constructor
  · intro hc
    rw [hc] at h2 h7
    simp only [if_true] at h7
    have hrm : m.remove k = (m.remove_mut k).1 := by
      simp only [HashTrieMap.remove, hcr, h2, if_true]
    exact ⟨h2, by omega, h3, by rw [hrm]; exact h3⟩
  · intro hc
    rw [hc] at h2 h7
    simp only [Bool.false_eq_true, if_false] at h7
    have hrm : m.remove k = m.clone := by
      simp only [HashTrieMap.remove, hcr, h2, Bool.false_eq_true, if_false]
    exact ⟨h2, by omega, hrm⟩

theorem claim_C3_witness :
    mapWf sampleMap = true ∧
    ((sampleMap.contains_key 5 = true →
      (sampleMap.remove_mut 5).2 = true ∧
      sampleMap.size = (sampleMap.remove_mut 5).1.size + 1 ∧
      (sampleMap.remove_mut 5).1.get 5 = none ∧
      (sampleMap.remove 5).get 5 = none) ∧
    (sampleMap.contains_key 5 = false →
      (sampleMap.remove_mut 5).2 = false ∧
      (sampleMap.remove_mut 5).1.size = sampleMap.size ∧
      sampleMap.remove 5 = sampleMap.clone)) :=
  ⟨sampleMap_wf, claim_C3 sampleMap 5 sampleMap_wf⟩

/-- C4: the structural invariants (`mapWf`, which contains: only the root
branch may be empty, collisions only at maximum depth, non-root branches
cover at least two entries) are preserved by `insert`/`insert_mut`,
`remove`/`remove_mut` and construction; `compress` collapses a branch
whose only child is a single-entry leaf and never a collision leaf. -/
theorem claim_C4 {K V : Type} [DecidableEq K] :
    (∀ (m : HashTrieMap K V) (k : K) (v : V)
      (hb : 0 < u8TrailingZeros m.degree), mapWf m = true →
      m.hasher_builder k < 2 ^ 64 →
      mapWf (m.insert_mut k v hb) = true ∧ mapWf (m.insert k v hb) = true) ∧
    (∀ (m : HashTrieMap K V) (k : K), mapWf m = true →
      mapWf (m.remove_mut k).1 = true ∧ mapWf (m.remove k) = true) ∧
    (∀ (h : K → Nat) (d : Nat) (m : HashTrieMap K V),
      HashTrieMap.new_with_hasher_and_degree? h d = some m → mapWf m = true) ∧
    (∀ (i : Nat) (e : EntryWithHash K V),
      Node.compress (.Branch (.cons i (.Leaf (.Single e)) .nil))
        = .Leaf (.Single e)) ∧
    (∀ (i : Nat) (es : List (EntryWithHash K V)),
      Node.compress (.Branch (.cons i (.Leaf (.Collision es)) .nil))
        = .Branch (.cons i (.Leaf (.Collision es)) .nil)) := by
  refine ⟨?_, ?_, ?_, fun i e => rfl, fun i es => rfl⟩
  · intro m k v hb hwf hh
    have h := (insert_mut_spec m k v hb hwf hh).1
    exact ⟨h, h⟩
  · intro m k hwf
    obtain ⟨h1, h2, h3, h4, h5, h6, h7⟩ := remove_mut_spec m k hwf
    refine ⟨h1, ?_⟩
    have hcr : m.clone.remove_mut k = m.remove_mut k := rfl
    cases hft : (m.remove_mut k).2 with
    | false =>
      have hrm : m.remove k = m.clone := by
        simp only [HashTrieMap.remove, hcr, hft, Bool.false_eq_true, if_false]
      rw [hrm]
      exact hwf
    | true =>
      have hrm : m.remove k = (m.remove_mut k).1 := by
        simp only [HashTrieMap.remove, hcr, hft, if_true]
      rw [hrm]
      exact h1
  · intro h d m hm
    simp only [HashTrieMap.new_with_hasher_and_degree?] at hm
    split at hm
    · rename_i hcond
      cases hm
      simp only [mapWf, degreeWf, nodeWf, Node.new_empty_branch,
        Bool.and_eq_true, beq_iff_eq, decide_eq_true_eq]
      refine ⟨⟨⟨hcond.1, hcond.2⟩, ?_⟩, by simp [nodeEntries, sparseEntries]⟩
      have h0 : index_from_hash 0 0 d
          = some ((0 >>> (0 * u8TrailingZeros d)) &&& (d - 1)) :=
        index_from_hash_eq_some.2 ⟨by simp, rfl⟩
      simp [h0, SparseArrayUsize.sorted, subtreesWf]
    · exact absurd hm (by simp)

theorem claim_C4_witness :
    (mapWf sampleMap = true ∧ sampleMap.hasher_builder 5 < 2 ^ 64) ∧
    mapWf (sampleMap.insert_mut 5 7 sampleMap_hb) = true :=
  ⟨⟨sampleMap_wf, by decide⟩,
    ((@claim_C4 Nat Nat _).1 sampleMap 5 7 sampleMap_hb sampleMap_wf
      (by decide)).1⟩

/-- C5: construction succeeds exactly for a power-of-two degree of at most
64 (`DEFAULT_DEGREE`); the stored degree is exactly the requested one
(never clamped), and the other constructors route through the same
validation with `DEFAULT_DEGREE = 64` as the default. -/
theorem claim_C5 {K V : Type} [DecidableEq K] (h : K → Nat) (d : Nat) :
    ((HashTrieMap.new_with_hasher_and_degree? h d : Option (HashTrieMap K V)).isSome
        = true ↔ (is_power_of_two d = true ∧ d ≤ 64)) ∧
    (∀ m : HashTrieMap K V, HashTrieMap.new_with_hasher_and_degree? h d = some m →
      m.degree = d) ∧
    (HashTrieMap.new_with_degree? h d : Option (HashTrieMap K V))
      = HashTrieMap.new_with_hasher_and_degree? h d ∧
    (HashTrieMap.new? h : Option (HashTrieMap K V)) = HashTrieMap.new_with_hasher_and_degree? h 64
    := by
  refine ⟨?_, ?_, rfl, rfl⟩
  · simp only [HashTrieMap.new_with_hasher_and_degree?, DEFAULT_DEGREE]
    split
    · rename_i hcond
      simp [hcond.1, hcond.2]
    · rename_i hcond
      rw [not_and_or] at hcond
      simp only [Option.isSome_none, Bool.false_eq_true, false_iff]
      intro hcon
      rcases hcond with hc | hc
      · exact hc hcon.1
      · exact hc hcon.2
  · intro m hm
    simp only [HashTrieMap.new_with_hasher_and_degree?] at hm
    split at hm
    · cases hm
      rfl
    · exact absurd hm (by simp)

theorem claim_C5_witness :
    ((HashTrieMap.new_with_hasher_and_degree? (fun n => n) 2 :
        Option (HashTrieMap Nat Nat)).isSome = true
      ↔ (is_power_of_two 2 = true ∧ 2 ≤ 64)) ∧
    sampleMap.degree = 2 ∧
    (HashTrieMap.new_with_hasher_and_degree? (fun n => n) 3 :
        Option (HashTrieMap Nat Nat)).isSome = false :=
  ⟨(claim_C5 (fun n => n) 2).1,
   (claim_C5 (fun n => n) 2).2.1 sampleMap (by rfl),
   by decide⟩

/-- C6 (corrected): stated on `index_from_hash_cast`, the digit function
with the source's `depth as u32` truncating cast modelled bit-for-bit.
For a validated degree, `u8TrailingZeros degree` is `log2 degree` (the
degree is two to it), and on every depth with `depth * b < 2 ^ 32` — the
cast's identity range, which covers all trie-reachable depths — the claim
holds as stated: the function extracts the digit
`(hash >>> (depth * b)) &&& (degree - 1)` — the `b`-bit slice starting at
bit `depth * b` — whenever `depth * b < 64`, and is exhausted (`none`)
exactly when `depth * b ≥ 64`.  The original unbounded "exactly when" is
false of the program: past the cast's range the shift wraps and the
function returns `some` again (the counterexample below exhibits
`depth = 2 ^ 32`, `degree = 2`). -/
theorem claim_C6 (hash depth degree : Nat) (hdeg : degreeWf degree = true)
    (hdep : depth * u8TrailingZeros degree < 2 ^ 32) :
    degree = 2 ^ u8TrailingZeros degree ∧
    index_from_hash_cast hash depth degree
      = index_from_hash hash depth degree ∧
    (depth * u8TrailingZeros degree < 64 →
      index_from_hash_cast hash depth degree
        = some ((hash >>> (depth * u8TrailingZeros degree))
            &&& (degree - 1))) ∧
    (∀ i, index_from_hash_cast hash depth degree = some i → i < degree) ∧
    (index_from_hash_cast hash depth degree = none ↔
      64 ≤ depth * u8TrailingZeros degree) := by
  have heq : index_from_hash_cast hash depth degree
      = index_from_hash hash depth degree := index_from_hash_cast_eq hdep
  refine ⟨degree_eq_pow hdeg, heq, ?_, ?_, ?_⟩
  · intro hlt
    rw [heq]
    exact index_from_hash_eq_some.2 ⟨hlt, rfl⟩
  · intro i hi
    rw [heq] at hi
    exact index_lt_degree hdeg hi
  · rw [heq]
    exact index_from_hash_eq_none

/-- C6, counterexample to the original claim's unbounded quantifier: at
`depth = 2 ^ 32` and `degree = 2` the source truncates `depth as u32` to
`0`, so the shift is `0` and the digit function returns
`some (hash &&& 1)` although `depth * b = 2 ^ 32 ≥ 64`; the cast-free
reading (`index_from_hash`) says `none` there, so the two genuinely part
ways beyond the cast's range. -/
theorem claim_C6_counterexample :
    64 ≤ 2 ^ 32 * u8TrailingZeros 2 ∧
    index_from_hash_cast 5 (2 ^ 32) 2 = some 1 ∧
    index_from_hash 5 (2 ^ 32) 2 = none := by
  refine ⟨by decide, ?_, ?_⟩
  · decide
  · decide

theorem claim_C6_witness :
    degreeWf 4 = true ∧ 3 * u8TrailingZeros 4 < 2 ^ 32 ∧
    (4 = 2 ^ u8TrailingZeros 4 ∧
      index_from_hash_cast 12345 3 4 = index_from_hash 12345 3 4 ∧
      (3 * u8TrailingZeros 4 < 64 →
        index_from_hash_cast 12345 3 4
          = some ((12345 >>> (3 * u8TrailingZeros 4)) &&& (4 - 1))) ∧
      (∀ i, index_from_hash_cast 12345 3 4 = some i → i < 4) ∧
      (index_from_hash_cast 12345 3 4 = none ↔ 64 ≤ 3 * u8TrailingZeros 4))
    :=
  ⟨by decide, by decide, claim_C6 12345 3 4 (by decide) (by decide)⟩

/-- C7: collision-bucket operations.  Insert removes the (unique, first)
entry with the matching key keeping the order of the rest, pushes the new
entry at the front, and reports a new key iff nothing was removed; remove
deletes the matching entry keeping the remainder order, collapses a
remainder of exactly one entry to `Single` (whose entry stays reachable),
and reports whether an entry was removed. -/
theorem claim_C7 {K V : Type} [DecidableEq K] :
    (∀ (l1 l2 : List (EntryWithHash K V)) (x entry : EntryWithHash K V),
      x.matches entry.key entry.keyHash = true →
      (∀ y ∈ l1, y.matches entry.key entry.keyHash = false) →
      (Bucket.Collision (l1 ++ x :: l2) : Bucket K V).insert entry
        = (.Collision (entry :: (l1 ++ l2)), false)) ∧
    (∀ (es : List (EntryWithHash K V)) (entry : EntryWithHash K V),
      (∀ y ∈ es, y.matches entry.key entry.keyHash = false) →
      (Bucket.Collision es : Bucket K V).insert entry
        = (.Collision (entry :: es), true)) ∧
    (∀ (l1 l2 : List (EntryWithHash K V)) (x : EntryWithHash K V)
      (key : K) (kh : Nat) (a b : EntryWithHash K V)
      (r : List (EntryWithHash K V)),
      x.matches key kh = true →
      (∀ y ∈ l1, y.matches key kh = false) →
      l1 ++ l2 = a :: b :: r →
      (Bucket.Collision (l1 ++ x :: l2) : Bucket K V).remove key kh
        = (some (.Collision (a :: b :: r)), true)) ∧
    (∀ (l1 l2 : List (EntryWithHash K V)) (x e : EntryWithHash K V)
      (key : K) (kh : Nat),
      x.matches key kh = true →
      (∀ y ∈ l1, y.matches key kh = false) →
      l1 ++ l2 = [e] →
      (Bucket.Collision (l1 ++ x :: l2) : Bucket K V).remove key kh
        = (some (.Single e), true) ∧
      (Bucket.Single e : Bucket K V).get e.key e.keyHash = some e) ∧
    (∀ (es : List (EntryWithHash K V)) (key : K) (kh : Nat)
      (a b : EntryWithHash K V) (r : List (EntryWithHash K V)),
      es = a :: b :: r →
      (∀ y ∈ es, y.matches key kh = false) →
      (Bucket.Collision es : Bucket K V).remove key kh
        = (some (.Collision es), false)) := by
  refine ⟨?_, ?_, ?_, ?_, ?_⟩
  · intro l1 l2 x entry hx hl1
    have hfound : bucket_utils.list_remove_first
        (fun e => e.matches entry.key entry.keyHash) (l1 ++ x :: l2)
        = (l1 ++ l2, true) := bucket_utils.lrf_of_found hx hl1
    simp only [Bucket.insert]
    rw [hfound]
    rfl
  · intro es entry hall
    simp only [Bucket.insert]
    rw [bucket_utils.lrf_of_all_false hall]
    rfl
  · intro l1 l2 x key kh a b r hx hl1 hshape
    have hfound : bucket_utils.list_remove_first
        (fun e => e.matches key kh) (l1 ++ x :: l2)
        = (l1 ++ l2, true) := bucket_utils.lrf_of_found hx hl1
    simp only [Bucket.remove]
    rw [hfound, hshape]
  · intro l1 l2 x e key kh hx hl1 hshape
    have hfound : bucket_utils.list_remove_first
        (fun e2 => e2.matches key kh) (l1 ++ x :: l2)
        = (l1 ++ l2, true) := bucket_utils.lrf_of_found hx hl1
    constructor
    · simp only [Bucket.remove]
      rw [hfound, hshape]
    · simp [Bucket.get, matches_self]
  · intro es key kh a b r hshape hall
    subst hshape
    simp only [Bucket.remove]
    rw [bucket_utils.lrf_of_all_false hall]

theorem claim_C7_witness :
    (∀ y ∈ [(⟨1, 10, 5⟩ : EntryWithHash Nat Nat), ⟨2, 20, 5⟩],
      y.matches (⟨3, 30, 5⟩ : EntryWithHash Nat Nat).key
        (⟨3, 30, 5⟩ : EntryWithHash Nat Nat).keyHash = false) ∧
    (Bucket.Collision [(⟨1, 10, 5⟩ : EntryWithHash Nat Nat), ⟨2, 20, 5⟩]
        : Bucket Nat Nat).insert ⟨3, 30, 5⟩
      = (.Collision [⟨3, 30, 5⟩, ⟨1, 10, 5⟩, ⟨2, 20, 5⟩], true) :=
  ⟨by decide,
    (@claim_C7 Nat Nat _).2.1 [⟨1, 10, 5⟩, ⟨2, 20, 5⟩] ⟨3, 30, 5⟩ (by decide)⟩

/-- C8: on a well-formed map whose degree uses at least one hash bit per
level, creating the iterator succeeds and running it yields exactly the
map's entry sequence: `size()` many entries, pairwise-distinct keys that
are exactly the keys `contains_key` accepts; the empty map yields nothing
immediately, and the size hint is exactly the number of entries not yet
produced, at every step. -/
theorem claim_C8 {K V : Type} [DecidableEq K] (m : HashTrieMap K V)
    (hwf : mapWf m = true) (hb : 0 < u8TrailingZeros m.degree) :
    ∃ it, IterPtr.new? m = some it ∧
      IterPtr.run m.size it = m.entriesList ∧
      (IterPtr.run m.size it).length = m.size ∧
      (IterPtr.run m.size it).Pairwise (fun a b => a.key ≠ b.key) ∧
      (∀ k, m.contains_key k = true ↔
        ∃ e ∈ IterPtr.run m.size it, e.key = k) ∧
      (m.size = 0 → it.next.1 = none ∧ IterPtr.run m.size it = []) ∧
      (∀ j, IterPtr.size_hint (IterPtr.stepN j it)
        = (m.size - j, some (m.size - j))) := by
  obtain ⟨it, hnew, hgood, hrem, hsz⟩ := new_spec hwf hb
  have hms : m.size = m.entriesList.length := by
    have h := hwf
    simp only [mapWf, Bool.and_eq_true, beq_iff_eq] at h
    exact h.2
  obtain ⟨stack, n⟩ := it
  simp only at hgood hrem hsz
  have hrun : IterPtr.run m.size ⟨stack, n⟩ = m.entriesList := by
    rw [run_spec m.size stack n hgood (by rw [hrem]; omega), hrem]
  have hroot : nodeWf m.hasher_builder m.degree m.root 0 = true := by
    have h := hwf
    simp only [mapWf, Bool.and_eq_true, beq_iff_eq] at h
    exact h.1.2
  refine ⟨⟨stack, n⟩, hnew, hrun, ?_, ?_, ?_, ?_, ?_⟩
  · rw [hrun, hms]
  · rw [hrun]
    exact wf_keys_pairwise hroot
  · intro k
    rw [hrun]
    exact map_contains_iff hwf
  · intro hsz0
    have hlen0 : m.entriesList = [] := by
      rw [hms] at hsz0
      exact List.length_eq_zero.1 hsz0
    have hrem0 : stackRemaining stack = [] := by
      rw [hrem]
      exact hlen0
    have hstack : stack = [] := by
      cases stack with
      | nil => rfl
      | cons f t =>
        obtain ⟨e, _, hcontra, _⟩ := advance_spec hgood
        rw [hrem0] at hcontra
        exact absurd hcontra (by simp)
    subst hstack
    exact ⟨rfl, by rw [hrun]; exact hlen0⟩
  · intro j
    have hn : n = (stackRemaining stack).length := by rw [hrem, hsz]
    obtain ⟨w1, w2, w3⟩ := stepN_spec j stack n hgood hn
    simp only [IterPtr.size_hint, w3]
    rw [hn, hrem, ← hms]

theorem claim_C8_witness :
    mapWf sampleMap = true ∧ 0 < u8TrailingZeros sampleMap.degree ∧
    ∃ it, IterPtr.new? sampleMap = some it ∧
      IterPtr.run sampleMap.size it = sampleMap.entriesList ∧
      (IterPtr.run sampleMap.size it).length = sampleMap.size ∧
      (IterPtr.run sampleMap.size it).Pairwise (fun a b => a.key ≠ b.key) ∧
      (∀ k, sampleMap.contains_key k = true ↔
        ∃ e ∈ IterPtr.run sampleMap.size it, e.key = k) ∧
      (sampleMap.size = 0 → it.next.1 = none ∧
        IterPtr.run sampleMap.size it = []) ∧
      (∀ j, IterPtr.size_hint (IterPtr.stepN j it)
        = (sampleMap.size - j, some (sampleMap.size - j))) :=
  ⟨sampleMap_wf, sampleMap_hb, claim_C8 sampleMap sampleMap_wf sampleMap_hb⟩

/-- C9: equality is representation-independent.  Building a map from the
same distinct-key bindings in any order yields `PartialEq`-equal maps
(equality is: same size and every entry of one found equal in the other);
changing the value of any single binding makes the maps unequal, in both
directions. -/
theorem claim_C9 {K V : Type} [DecidableEq K] [DecidableEq V]
    (m0 : HashTrieMap K V) (hb : 0 < u8TrailingZeros m0.degree)
    (hwf : mapWf m0 = true) :
    (∀ l1 l2 : List (K × V), l1.Perm l2 →
      (l1.map Prod.fst).Nodup →
      (∀ p ∈ l1, m0.hasher_builder p.1 < 2 ^ 64) →
      (m0.insert_list hb l1).eqv (m0.insert_list hb l2) = true) ∧
    (∀ (la lb : List (K × V)) (k : K) (v v2 : V), v ≠ v2 →
      (((la ++ (k, v) :: lb).map Prod.fst)).Nodup →
      (∀ p ∈ la ++ (k, v) :: lb, m0.hasher_builder p.1 < 2 ^ 64) →
      (m0.insert_list hb (la ++ (k, v) :: lb)).eqv
        (m0.insert_list hb (la ++ (k, v2) :: lb)) = false ∧
      (m0.insert_list hb (la ++ (k, v2) :: lb)).eqv
        (m0.insert_list hb (la ++ (k, v) :: lb)) = false) := by
  constructor
  · intro l1 l2 hperm hnd hh
    obtain ⟨w1, w2, w3, w4⟩ := insert_list_spec l1 m0 hb hwf hh
    obtain ⟨u1, u2, u3, u4⟩ := insert_list_spec l2 m0 hb hwf
      (fun p hp => hh p (hperm.mem_iff.2 hp))
    refine eqv_of_get_eq w1 u1 (by rw [w3, u3]) ?_
    intro q
    rw [w4 q, u4 q, assocLast_perm hperm hnd q]
  · intro la lb k v v2 hne hnd hh
    have hh2 : ∀ p ∈ la ++ (k, v2) :: lb, m0.hasher_builder p.1 < 2 ^ 64 := by
      intro p hp
      simp only [List.mem_append, List.mem_cons] at hp
      rcases hp with hp | hp | hp
      · exact hh p (by simp [hp])
      · subst hp
        exact hh (k, v) (by simp)
      · exact hh p (by simp [hp])
    have hnd2 : (((la ++ (k, v2) :: lb).map Prod.fst)).Nodup := by
      have : (la ++ (k, v2) :: lb).map Prod.fst
          = (la ++ (k, v) :: lb).map Prod.fst := by simp
      rw [this]
      exact hnd
    obtain ⟨w1, w2, w3, w4⟩ := insert_list_spec (la ++ (k, v) :: lb) m0 hb hwf hh
    obtain ⟨u1, u2, u3, u4⟩ := insert_list_spec (la ++ (k, v2) :: lb) m0 hb hwf hh2
    have hg1 : (m0.insert_list hb (la ++ (k, v) :: lb)).get k = some v := by
      rw [w4 k, assocLast_append_cons hnd]
    have hg2 : (m0.insert_list hb (la ++ (k, v2) :: lb)).get k = some v2 := by
      rw [u4 k, assocLast_append_cons hnd2]
    exact ⟨eqv_false_of_value_ne w1 hg1 hg2 hne,
      eqv_false_of_value_ne u1 hg2 hg1 (Ne.symm hne)⟩

theorem claim_C9_witness :
    (0 < u8TrailingZeros sampleMap.degree ∧ mapWf sampleMap = true ∧
      ([(1, 10), (2, 20)] : List (Nat × Nat)).Perm [(2, 20), (1, 10)] ∧
      (([(1, 10), (2, 20)] : List (Nat × Nat)).map Prod.fst).Nodup ∧
      (∀ p ∈ ([(1, 10), (2, 20)] : List (Nat × Nat)),
        sampleMap.hasher_builder p.1 < 2 ^ 64)) ∧
    (sampleMap.insert_list sampleMap_hb [(1, 10), (2, 20)]).eqv
      (sampleMap.insert_list sampleMap_hb [(2, 20), (1, 10)]) = true :=
  ⟨⟨sampleMap_hb, sampleMap_wf, by decide, by decide, by decide⟩,
    (claim_C9 sampleMap sampleMap_hb sampleMap_wf).1
      [(1, 10), (2, 20)] [(2, 20), (1, 10)] (by decide) (by decide)
      (by decide)⟩

/-- C10: degree 1 is accepted by construction (1 is a power of two and at
most 64), but iterator creation divides by
`(degree - 1).count_ones() = 0` in `trie_max_height` and panics (modelled
by `none`): iterator creation is not total on accepted degrees. -/
theorem claim_C10 {K V : Type} [DecidableEq K] (h : K → Nat) :
    (HashTrieMap.new_with_degree? h 1 :
        Option (HashTrieMap K V)).isSome = true ∧
    u8CountOnes (1 - 1) = 0 ∧
    (∀ m : HashTrieMap K V, HashTrieMap.new_with_degree? h 1 = some m →
      m.degree = 1 ∧ iter_utils.trie_max_height? m.degree = none ∧
      IterPtr.new? m = none) := by
  refine ⟨?_, rfl, ?_⟩
  · simp only [HashTrieMap.new_with_degree?,
      HashTrieMap.new_with_hasher_and_degree?, DEFAULT_DEGREE]
    rw [if_pos ⟨by decide, by omega⟩]
    rfl
  · intro m hm
    simp only [HashTrieMap.new_with_degree?,
      HashTrieMap.new_with_hasher_and_degree?] at hm
    split at hm
    · cases hm
      refine ⟨rfl, (show iter_utils.trie_max_height? 1 = none by decide), ?_⟩
      simp only [IterPtr.new?]
      rw [show iter_utils.trie_max_height? 1 = none from by decide]
    · exact absurd hm (by simp)

theorem claim_C10_witness :
    (HashTrieMap.new_with_degree? (fun n => n) 1 :
        Option (HashTrieMap Nat Nat)) = some
      { root := Node.new_empty_branch, size := 0, degree := 1,
        hasher_builder := fun n => n } ∧
    ({ root := Node.new_empty_branch, size := 0, degree := 1,
       hasher_builder := fun n => n } : HashTrieMap Nat Nat).degree = 1 ∧
    iter_utils.trie_max_height?
      ({ root := Node.new_empty_branch, size := 0, degree := 1,
         hasher_builder := fun n => n } : HashTrieMap Nat Nat).degree
      = none ∧
    IterPtr.new? ({ root := Node.new_empty_branch, size := 0, degree := 1,
                    hasher_builder := fun n => n } : HashTrieMap Nat Nat)
      = none :=
  ⟨rfl, (claim_C10 (fun n => n)).2.2
    { root := Node.new_empty_branch, size := 0, degree := 1,
      hasher_builder := fun n => n } rfl⟩

end Claims
end Rpds
